import Mathlib

/-!
Verification of the natural-language specification of the `xml_c14n` crate
against its code.

The crate (src/lib.rs) is a thin wrapper around a native XML
canonicalization library: `read_document` parses a string to a document
tree and `canonicalize_document_to_c_pointer` serializes it in canonical
form, returning an output buffer together with an integer return code.
The wrapper logic (error branch on a negative return code, the
`CString::new(..).unwrap()` calls that panic on strings containing NUL)
is embedded here directly from src/lib.rs.  The parser and the
canonicalization algorithm themselves live in the native library, outside
this repository's sources, so they are modelled from the specification
(sections 3, 4 and 6 of spec.md): a document tree of elements,
attributes, namespace declarations, text, comments and processing
instructions; a namespace-axis resolver per mode; byte-wise ordering of
namespace and attribute nodes; and the exact escaping rules of section
4.3.  Character sequences are represented as `List Char` (`Str`), with
`String` only at the public boundary.
-/

/-- Character sequence, the byte-level view of a string used by the model. -/
abbrev Str := List Char

/-- Qualified name: optional pfx (namespace shorthand before the colon) and local name. -/
structure QName where
  pfx : Option Str
  localName : Str
deriving DecidableEq, Repr

/-- An attribute node: qualified name and (entity-resolved) value. -/
structure XAttr where
  name : QName
  value : Str
deriving DecidableEq, Repr

/-- Modelled from the spec (section 3): a node of the document tree.  An
element carries its qualified name, its local namespace declarations
(pairs of pfx and URI, the empty pfx denoting the default namespace), its
attributes and its ordered children.  Text, comment and
processing-instruction nodes carry raw character data. -/
inductive XNode where
  | elem (name : QName) (nsDecls : List (Str × Str)) (attrs : List XAttr) (children : List XNode)
  | text (s : Str)
  | comment (s : Str)
  | procInst (target : Str) (body : Str)

/-- Modelled from the spec (section 3): a document is a root element plus
the comments and processing instructions appearing before and after it. -/
structure XmlDoc where
  preMisc : List XNode
  root : XNode
  postMisc : List XNode

/-- Canonicalization specification to use (src/lib.rs 24-33). -/
inductive CanonicalizationMode where
  | Canonical1_0
  | ExclusiveCanonical1_0
  | Canonical1_1
deriving DecidableEq, Repr

/-- Options for configuring how to canonicalize XML (src/lib.rs 12-21).
The field `inclusive_ns_pfxs` embeds the source field listing the
namespace shorthands kept in Exclusive mode even when unused. -/
structure CanonicalizationOptions where
  mode : CanonicalizationMode
  keep_comments : Bool
  inclusive_ns_pfxs : List String
deriving DecidableEq, Repr

/-- An error code (always negative per its doc comment) returned when
attempting to canonicalize some XML (src/lib.rs 45-48). -/
structure CanonicalizationErrorCode where
  code : Int
deriving DecidableEq, Repr

/-! ## The parser model

Modelled from the spec (sections 1 and 6): the external well-formedness
parser (`xmlReadDoc` in the source) that turns the input string into a
document tree.  Per section 6 it normalizes line endings (CR and CRLF
become LF) and resolves character and entity references; names are
restricted to an ASCII NCName alphabet.  Parsing is total via a fuel
argument; the fuel passed at each entry point strictly bounds the
recursion depth, which never exceeds the input length. -/

/-- First character of a name. -/
def isNCStart (c : Char) : Bool := c.isAlpha || c = '_'

/-- Subsequent characters of a name. -/
def isNCChar (c : Char) : Bool := c.isAlphanum || c = '_' || c = '-' || c = '.'

/-- XML whitespace. -/
def isXmlSpace (c : Char) : Bool := c = ' ' || c = '\t' || c = '\n' || c = '\r'

/-- Line-ending normalization per section 6: CRLF and bare CR become LF. -/
def normalizeEol : Str → Str
  | [] => []
  | '\r' :: '\n' :: rest => '\n' :: normalizeEol rest
  | '\r' :: rest => '\n' :: normalizeEol rest
  | c :: rest => c :: normalizeEol rest

/-- Read one NCName; fails unless the input starts with a name-start character. -/
def readNCName : Str → Option (Str × Str)
  | [] => none
  | c :: rest =>
    if isNCStart c then some (c :: rest.takeWhile isNCChar, rest.dropWhile isNCChar)
    else none

/-- Read a qualified name: NCName optionally followed by a colon and an NCName. -/
def readQName (cs : Str) : Option (QName × Str) := do
  let (n1, cs1) ← readNCName cs
  match cs1 with
  | ':' :: rest => do
    let (n2, cs2) ← readNCName rest
    return (⟨some n1, n2⟩, cs2)
  | _ => return (⟨none, n1⟩, cs1)

/-- Value of one hexadecimal digit. -/
def hexDigit (c : Char) : Option Nat :=
  if '0' ≤ c ∧ c ≤ '9' then some (c.toNat - '0'.toNat)
  else if 'a' ≤ c ∧ c ≤ 'f' then some (c.toNat - 'a'.toNat + 10)
  else if 'A' ≤ c ∧ c ≤ 'F' then some (c.toNat - 'A'.toNat + 10)
  else none

/-- Value of one decimal digit. -/
def decDigit (c : Char) : Option Nat :=
  if '0' ≤ c ∧ c ≤ '9' then some (c.toNat - '0'.toNat) else none

/-- Accumulate digit values in the given base; fails on an empty digit string. -/
def digitsVal (base : Nat) (dig : Char → Option Nat) : Str → Option Nat
  | [] => none
  | cs => cs.foldlM (fun acc c => (dig c).map (fun d => acc * base + d)) 0

/-- A character reference is valid when it denotes an XML character:
tab, line feed, carriage return, or a non-control scalar value. -/
def refChar (n : Nat) : Option Char :=
  if n = 9 || n = 0xA || n = 0xD || (0x20 ≤ n && n ≤ 0xd7ff)
      || (0xe000 ≤ n && n ≤ 0xfffd) || (0x10000 ≤ n && n ≤ 0x10ffff) then
    some (Char.ofNat n)
  else none

/-- The five predefined named entities. -/
def namedEntity (nm : Str) : Option Char :=
  if nm = "amp".data then some '&'
  else if nm = "lt".data then some '<'
  else if nm = "gt".data then some '>'
  else if nm = "quot".data then some '"'
  else if nm = "apos".data then some (Char.ofNat 39)
  else none

/-- Resolve one reference; the input starts right after the ampersand. -/
def readRef (cs : Str) : Option (Char × Str) :=
  let body := cs.takeWhile (fun c => !decide (c = ';'))
  match cs.dropWhile (fun c => !decide (c = ';')) with
  | ';' :: rest =>
    match body with
    | '#' :: 'x' :: ds => ((digitsVal 16 hexDigit ds).bind refChar).map (fun c => (c, rest))
    | '#' :: ds => ((digitsVal 10 decDigit ds).bind refChar).map (fun c => (c, rest))
    | nm => (namedEntity nm).map (fun c => (c, rest))
  | _ => none

/-- Read character data up to the next tag opener or end of input,
resolving references.  A bare ampersand with no valid reference fails. -/
def pText : Nat → Str → Str → Option (Str × Str)
  | 0, _, _ => none
  | _ + 1, acc, [] => some (acc.reverse, [])
  | _ + 1, acc, '<' :: rest => some (acc.reverse, '<' :: rest)
  | fuel + 1, acc, '&' :: rest =>
    match readRef rest with
    | some (c, rest') => pText fuel (c :: acc) rest'
    | none => none
  | fuel + 1, acc, c :: rest => pText fuel (c :: acc) rest

/-- Read a quoted attribute value up to the closing quote, resolving
references; a literal left angle bracket is not well-formed there. -/
def pQuoted : Nat → Char → Str → Str → Option (Str × Str)
  | 0, _, _, _ => none
  | _ + 1, _, _, [] => none
  | fuel + 1, q, acc, c :: rest =>
    if c = q then some (acc.reverse, rest)
    else if c = '<' then none
    else if c = '&' then
      match readRef rest with
      | some (ch, rest') => pQuoted fuel q (ch :: acc) rest'
      | none => none
    else pQuoted fuel q (c :: acc) rest

/-- Read comment data up to the closing delimiter. -/
def pComment : Nat → Str → Str → Option (Str × Str)
  | 0, _, _ => none
  | _ + 1, _, [] => none
  | _ + 1, acc, '-' :: '-' :: '>' :: rest => some (acc.reverse, rest)
  | fuel + 1, acc, c :: rest => pComment fuel (c :: acc) rest

/-- Read processing-instruction data up to the closing delimiter. -/
def pPITail : Nat → Str → Str → Option (Str × Str)
  | 0, _, _ => none
  | _ + 1, _, [] => none
  | _ + 1, acc, '?' :: '>' :: rest => some (acc.reverse, rest)
  | fuel + 1, acc, c :: rest => pPITail fuel (c :: acc) rest

/-- Read a processing instruction; the input starts right after the
question mark of the opener.  Whitespace after the target separates it
from the data. -/
def pPI (fuel : Nat) (cs : Str) : Option (XNode × Str) := do
  let (t, cs1) ← readNCName cs
  if t.map Char.toLower = "xml".data then none else
  match cs1 with
  | '?' :: '>' :: rest => return (.procInst t [], rest)
  | c :: rest =>
    if isXmlSpace c then do
      let (d, cs2) ← pPITail fuel [] ((c :: rest).dropWhile isXmlSpace)
      return (.procInst t d, cs2)
    else none
  | [] => none

/-- Classify an attribute-position qualified name: a namespace
declaration yields the declared pfx (empty for the default namespace). -/
def declOf (qn : QName) : Option Str :=
  match qn.pfx with
  | none => if qn.localName = "xmlns".data then some [] else none
  | some p => if p = "xmlns".data then some qn.localName else none

/-- Read the attribute list of a start tag up to its closing bracket,
separating namespace declarations from ordinary attributes and rejecting
duplicates.  Returns the declarations, the attributes, whether the tag
was self-closing, and the rest of the input. -/
def pAttrs : Nat → List (Str × Str) → List XAttr → Str → Option (List (Str × Str) × List XAttr × Bool × Str)
  | 0, _, _, _ => none
  | fuel + 1, ns, attrs, cs =>
    match cs.dropWhile isXmlSpace with
    | '>' :: rest => some (ns.reverse, attrs.reverse, false, rest)
    | '/' :: '>' :: rest => some (ns.reverse, attrs.reverse, true, rest)
    | cs' => do
      let (qn, cs1) ← readQName cs'
      match cs1.dropWhile isXmlSpace with
      | '=' :: cs3 =>
        match cs3.dropWhile isXmlSpace with
        | q :: cs5 =>
          if q = '"' || q = Char.ofNat 39 then do
            let (v, cs6) ← pQuoted (cs5.length + 1) q [] cs5
            match declOf qn with
            | some p =>
              if ns.any (fun e => decide (e.1 = p)) then none
              else if !p.isEmpty && v.isEmpty then none
              else pAttrs fuel ((p, v) :: ns) attrs cs6
            | none =>
              if attrs.any (fun a => decide (a.name = qn)) then none
              else pAttrs fuel ns (⟨qn, v⟩ :: attrs) cs6
          else none
        | [] => none
      | _ => none

mutual

/-- Read an element; the input starts right after the opening bracket. -/
def pElement : Nat → Str → Option (XNode × Str)
  | 0, _ => none
  | fuel + 1, cs => do
    let (qn, cs1) ← readQName cs
    let (ns, attrs, selfClose, cs2) ← pAttrs (cs1.length + 1) [] [] cs1
    if selfClose then
      return (.elem qn ns attrs [], cs2)
    else do
      let (children, cs3) ← pContent fuel cs2
      let (qn2, cs4) ← readQName cs3
      match cs4.dropWhile isXmlSpace with
      | '>' :: rest => if qn2 = qn then return (.elem qn ns attrs children, rest) else none
      | _ => none

/-- Read element content up to the matching end tag; the result rest
starts right after the slash of the end-tag opener. -/
def pContent : Nat → Str → Option (List XNode × Str)
  | 0, _ => none
  | fuel + 1, cs => do
    let (txt, cs1) ← pText (cs.length + 1) [] cs
    let pre : List XNode := if txt.isEmpty then [] else [.text txt]
    match cs1 with
    | '<' :: '/' :: rest => return (pre, rest)
    | '<' :: '!' :: '-' :: '-' :: rest => do
      let (cm, cs2) ← pComment (rest.length + 1) [] rest
      let (more, cs3) ← pContent fuel cs2
      return (pre ++ XNode.comment cm :: more, cs3)
    | '<' :: '?' :: rest => do
      let (pn, cs2) ← pPI (rest.length + 1) rest
      let (more, cs3) ← pContent fuel cs2
      return (pre ++ pn :: more, cs3)
    | '<' :: rest => do
      let (el, cs2) ← pElement fuel rest
      let (more, cs3) ← pContent fuel cs2
      return (pre ++ el :: more, cs3)
    | _ => none

end

/-- Read a run of comments, processing instructions and whitespace, as
allowed outside the root element. -/
def pMiscStar : Nat → List XNode → Str → Option (List XNode × Str)
  | 0, _, _ => none
  | fuel + 1, acc, cs =>
    match cs.dropWhile isXmlSpace with
    | '<' :: '!' :: '-' :: '-' :: rest => do
      let (cm, cs2) ← pComment (rest.length + 1) [] rest
      pMiscStar fuel (XNode.comment cm :: acc) cs2
    | '<' :: '?' :: rest => do
      let (pn, cs2) ← pPI (rest.length + 1) rest
      pMiscStar fuel (pn :: acc) cs2
    | cs' => some (acc.reverse, cs')

/-- Consume the XML declaration at the very start of the document, if
present; it carries no infoset content. -/
def skipXmlDecl (cs : Str) : Option Str :=
  match cs with
  | '<' :: '?' :: 'x' :: 'm' :: 'l' :: c :: rest =>
    if isXmlSpace c then (pPITail (rest.length + 2) [] (c :: rest)).map (fun r => r.2)
    else some cs
  | _ => some cs

/-- Modelled from the spec (sections 1 and 6): the external parser
(`xmlReadDoc` in the source) producing the document tree, or `none` on
input that is not well-formed. -/
def parseDocument (s : String) : Option XmlDoc := do
  let cs0 := normalizeEol s.data
  let cs1 ← skipXmlDecl cs0
  let (pre, cs2) ← pMiscStar (cs1.length + 1) [] cs1
  match cs2 with
  | '<' :: rest => do
    let (root, cs3) ← pElement (rest.length + 1) rest
    let (post, cs4) ← pMiscStar (cs3.length + 1) [] cs3
    if cs4.isEmpty then return ⟨pre, root, post⟩ else none
  | _ => none

/-! ## The canonicalization core

Modelled from the spec (section 4): namespace-axis resolution per mode
(4.1), byte-wise ordering of namespace and attribute nodes (4.2) and the
node serializer (4.3).  The wrapper always canonicalizes the whole
document (it passes a null node set to the native call), so the subtree
root never has ancestors and the inherited-attribute refinements of
Canonical 1.1 relative to 1.0 are vacuous here. -/

/-- Strict byte-wise order on character sequences. -/
def charListLt : Str → Str → Bool
  | [], [] => false
  | [], _ :: _ => true
  | _ :: _, [] => false
  | a :: as, b :: bs => decide (a < b) || (decide (a = b) && charListLt as bs)

/-- Reflexive byte-wise order on character sequences. -/
def charListLe (a b : Str) : Bool := charListLt a b || decide (a = b)

/-- Insert into a sorted list (section 4.2 ordering is total on the
actual node sets, so the sort is deterministic). -/
def insLe {α : Type} (le : α → α → Bool) (a : α) : List α → List α
  | [] => [a]
  | b :: bs => if le a b then a :: b :: bs else b :: insLe le a bs

/-- Insertion sort by the given order. -/
def sortLe {α : Type} (le : α → α → Bool) : List α → List α
  | [] => []
  | a :: as => insLe le a (sortLe le as)

/-- Order of namespace declarations: by pfx, the default namespace first
(the empty sequence is the least in byte-wise order). -/
def nsLe (a b : Str × Str) : Bool := charListLe a.1 b.1

/-- Order of attributes, keyed by resolved namespace URI then local name. -/
def attrLe (a b : Str × XAttr) : Bool :=
  charListLt a.1 b.1 || (decide (a.1 = b.1) && charListLe a.2.name.localName b.2.name.localName)

/-- Nearest declaration for a pfx: the scope list is innermost-first. -/
def lookupPfx (scope : List (Str × Str)) (p : Str) : Option Str :=
  (scope.find? (fun e => decide (e.1 = p))).map (fun e => e.2)

/-- Visible namespace axis: each pfx with its innermost binding. -/
def dedupKeepFirst : List (Str × Str) → List (Str × Str)
  | [] => []
  | e :: rest => e :: (dedupKeepFirst rest).filter (fun e2 => !decide (e2.1 = e.1))

/-- Modelled from the spec (glossary, section 4.1): the pfxs visibly
utilized by an element, those of its own name (the empty pfx when the
element is unprefixed, since it then uses the default namespace) and of
its attributes' names. -/
def utilizedPfxs (name : QName) (attrs : List XAttr) : List Str :=
  (match name.pfx with | none => [] | some p => p) :: attrs.filterMap (fun a => a.name.pfx)

/-- Modelled from the spec (section 4.1): the namespace declarations to
emit on one element.  `scope` is the full in-scope axis (local
declarations first), `ctx` the bindings already rendered on output
ancestors.  A binding is rendered when it differs from the rendered
context; Exclusive mode additionally requires the pfx to be visibly
utilized or listed in the inclusive list. -/
def nsToRender (mode : CanonicalizationMode) (incl : List Str) (scope ctx : List (Str × Str))
    (name : QName) (attrs : List XAttr) : List (Str × Str) :=
  let axis := dedupKeepFirst scope
  match mode with
  | .ExclusiveCanonical1_0 =>
    let used := utilizedPfxs name attrs
    axis.filter (fun e =>
      (used.contains e.1 || incl.contains e.1) && !decide ((lookupPfx ctx e.1).getD [] = e.2))
  | _ => axis.filter (fun e => !decide ((lookupPfx ctx e.1).getD [] = e.2))

/-- Attribute value escaping per section 4.3. -/
def escAttrChar (c : Char) : Str :=
  if c = '&' then "&amp;".data
  else if c = '<' then "&lt;".data
  else if c = '"' then "&quot;".data
  else if c = '\t' then "&#9;".data
  else if c = '\n' then "&#xA;".data
  else if c = '\r' then "&#xD;".data
  else [c]

/-- Attribute value escaping applied character by character. -/
def escAttr (s : Str) : Str := (s.map escAttrChar).flatten

/-- Text escaping per section 4.3. -/
def escTextChar (c : Char) : Str :=
  if c = '&' then "&amp;".data
  else if c = '<' then "&lt;".data
  else if c = '>' then "&gt;".data
  else if c = '\r' then "&#xD;".data
  else [c]

/-- Text escaping applied character by character. -/
def escText (s : Str) : Str := (s.map escTextChar).flatten

/-- Spelling of a qualified name. -/
def qnameStr (q : QName) : Str :=
  match q.pfx with
  | none => q.localName
  | some p => p ++ ':' :: q.localName

/-- Spelling of one rendered namespace declaration. -/
def renderNsDecl (e : Str × Str) : Str :=
  if e.1.isEmpty then ' ' :: "xmlns=\"".data ++ escAttr e.2 ++ ['"']
  else ' ' :: "xmlns:".data ++ e.1 ++ '=' :: '"' :: escAttr e.2 ++ ['"']

/-- Spelling of one attribute (key is its resolved URI, used for order only). -/
def renderAttr (e : Str × XAttr) : Str :=
  ' ' :: qnameStr e.2.name ++ '=' :: '"' :: escAttr e.2.value ++ ['"']

/-- The URI implicitly bound to the xml pfx. -/
def xmlNsUri : Str := "http://www.w3.org/XML/1998/namespace".data

/-- Initial scope and rendered context: the absent default namespace and
the implicit binding of the xml pfx. -/
def initNsEnv : List (Str × Str) := [([], []), ("xml".data, xmlNsUri)]

/-- Failure of the canonicalization core per section 7: a qualified name
whose pfx has no in-scope declaration. -/
inductive C14NErr where
  | unboundPfx (p : Str)

/-- Resolve the namespace key of one attribute: an unprefixed attribute
is in no namespace, a prefixed one must have its pfx in scope. -/
def resolveAttrPfx (scope : List (Str × Str)) (a : XAttr) : Except C14NErr (Str × XAttr) :=
  match a.name.pfx with
  | none => .ok ([], a)
  | some p =>
    match lookupPfx scope p with
    | some u => .ok (u, a)
    | none => .error (.unboundPfx p)

/-- Resolve the namespace keys of all attributes of an element. -/
def resolveAttrs (scope : List (Str × Str)) : List XAttr → Except C14NErr (List (Str × XAttr))
  | [] => .ok []
  | a :: as => do
    let k ← resolveAttrPfx scope a
    let ks ← resolveAttrs scope as
    .ok (k :: ks)

mutual

/-- Modelled from the spec (section 4.3): serialize one node.  `kc` is
the keep-comments flag, `incl` the inclusive pfx list, `scope` the
in-scope declarations and `ctx` the bindings rendered on output
ancestors. -/
def serNode (mode : CanonicalizationMode) (kc : Bool) (incl : List Str)
    (scope ctx : List (Str × Str)) : XNode → Except C14NErr Str
  | .text s => .ok (escText s)
  | .comment s => .ok (if kc then "<!--".data ++ s ++ "-->".data else [])
  | .procInst t d => .ok ('<' :: '?' :: t ++ (if d.isEmpty then [] else ' ' :: d) ++ ['?', '>'])
  | .elem name nsDecls attrs children => do
    let scope' := nsDecls ++ scope
    let _ ← (match name.pfx with
      | none => Except.ok ([] : Str)
      | some p =>
        match lookupPfx scope' p with
        | some u => Except.ok u
        | none => Except.error (C14NErr.unboundPfx p))
    let akeys ← resolveAttrs scope' attrs
    let ns := sortLe nsLe (nsToRender mode incl scope' ctx name attrs)
    let ctx' := ns ++ ctx
    let childOuts ← serList mode kc incl scope' ctx' children
    .ok ('<' :: qnameStr name ++ (ns.map renderNsDecl).flatten
      ++ ((sortLe attrLe akeys).map renderAttr).flatten
      ++ '>' :: childOuts.flatten ++ '<' :: '/' :: qnameStr name ++ ['>'])

/-- Serialize a list of sibling nodes. -/
def serList (mode : CanonicalizationMode) (kc : Bool) (incl : List Str)
    (scope ctx : List (Str × Str)) : List XNode → Except C14NErr (List Str)
  | [] => .ok []
  | c :: cs => do
    let s ← serNode mode kc incl scope ctx c
    let rest ← serList mode kc incl scope ctx cs
    .ok (s :: rest)

end

/-- Modelled from the spec (section 4.4): the driver, canonicalizing the
whole document in document order. -/
def canonicalizeDoc (options : CanonicalizationOptions) (d : XmlDoc) : Except C14NErr Str := do
  let incl := options.inclusive_ns_pfxs.map String.data
  let pres ← serList options.mode options.keep_comments incl initNsEnv initNsEnv d.preMisc
  let r ← serNode options.mode options.keep_comments incl initNsEnv initNsEnv d.root
  let posts ← serList options.mode options.keep_comments incl initNsEnv initNsEnv d.postMisc
  .ok (pres.flatten ++ r ++ posts.flatten)

/-! ## The wrapper, embedded from src/lib.rs -/

/-- The NUL character. -/
def nulChar : Char := Char.ofNat 0

/-- Models Rust's CString::new: fails when the string contains NUL. -/
def cstringNew (s : String) : Option String :=
  if s.data.contains nulChar then none else some s

/-- Embeds read_document (src/lib.rs 146-164): parse the string to a
document, a null result (here `none`) standing for a parse failure.  The
CString conversion it performs is accounted for in `canonicalize_xml`,
since its failure aborts the whole call. -/
def read_document (document : String) : Option XmlDoc := parseDocument document

/-- Embeds to_xml_string_vec (src/lib.rs 126-131): each entry is
converted with CString::new and unwrapped, so any entry containing NUL
panics (modelled as `none`). -/
def to_xml_string_vec : List String → Option (List String)
  | [] => some []
  | s :: rest => do
    let c ← cstringNew s
    let cs ← to_xml_string_vec rest
    return (c :: cs)

/-- Embeds canonicalize_document_to_c_pointer (src/lib.rs 99-123):
returns the output buffer (null on failure) and the native return code,
negative on failure and the output byte count on success. -/
def canonicalize_document_to_c_pointer (options : CanonicalizationOptions)
    (document : Option XmlDoc) : Option Str × Int :=
  match document with
  | none => (none, -1)
  | some d =>
    match canonicalizeDoc options d with
    | .error _ => (none, -1)
    | .ok s => (some s, (s.length : Int))

/-- Embeds canonicalize_xml (src/lib.rs 68-94).  The outer `Option`
models panics: `none` is a panic of a CString::new(..).unwrap), as in
read_document and to_xml_string_vec.  Otherwise the source returns the
error code when the return code is negative and the output string
otherwise. -/
def canonicalize_xml (document : String) (options : CanonicalizationOptions) :
    Option (Except CanonicalizationErrorCode String) := do
  let _ ← cstringNew document
  let doc := read_document document
  let _ ← to_xml_string_vec options.inclusive_ns_pfxs
  let (output, return_code) := canonicalize_document_to_c_pointer options doc
  if return_code < 0 then
    return .error ⟨return_code⟩
  else
    return .ok (String.mk (output.getD []))

/-! ## Basic facts about the wrapper -/

/-- A string is NUL-free when Rust's CString::new accepts it. -/
def nulFree (s : String) : Prop := s.data.contains nulChar = false

theorem cstringNew_eq_some {s : String} (h : nulFree s) : cstringNew s = some s := by
  simp [cstringNew, nulFree] at h ⊢
  simp [h]

theorem to_xml_string_vec_eq_some {v : List String} (h : ∀ p ∈ v, nulFree p) :
    to_xml_string_vec v = some v := by
  induction v with
  | nil => rfl
  | cons a as ih =>
    have ha := cstringNew_eq_some (h a (by simp))
    have has : to_xml_string_vec as = some as := ih (fun p hp => h p (by simp [hp]))
    simp [to_xml_string_vec, ha, has]

theorem to_xml_string_vec_eq_none_iff (v : List String) :
    to_xml_string_vec v = none ↔ ∃ p ∈ v, ¬ nulFree p := by
  induction v with
  | nil => simp [to_xml_string_vec]
  | cons a as ih =>
    constructor
    · intro h
      by_cases hca : cstringNew a = none
      · refine ⟨a, by simp, fun hnf => ?_⟩
        rw [cstringNew_eq_some hnf] at hca
        exact Option.noConfusion hca
      · obtain ⟨b, hb⟩ := Option.ne_none_iff_exists'.mp hca
        by_cases hcas : to_xml_string_vec as = none
        · obtain ⟨p, hp, hnp⟩ := ih.mp hcas
          exact ⟨p, by simp [hp], hnp⟩
        · obtain ⟨bs, hbs⟩ := Option.ne_none_iff_exists'.mp hcas
          simp [to_xml_string_vec, hb, hbs] at h
    · rintro ⟨p, hp, hnp⟩
      rw [List.mem_cons] at hp
      rcases hp with hp | hp
      · subst hp
        have hc : cstringNew p = none := by
          simp only [nulFree, Bool.not_eq_false] at hnp
          have : nulChar ∈ p.data := by simpa using hnp
          simp [cstringNew, this]
        simp [to_xml_string_vec, hc]
      · have hrest : to_xml_string_vec as = none := ih.mpr ⟨p, hp, hnp⟩
        cases hca : cstringNew a <;> simp [to_xml_string_vec, hrest, hca]

theorem canonicalize_xml_eq_of_nulFree (document : String) (options : CanonicalizationOptions)
    (hd : nulFree document) (hp : ∀ p ∈ options.inclusive_ns_pfxs, nulFree p) :
    canonicalize_xml document options =
      some (if (canonicalize_document_to_c_pointer options (read_document document)).2 < 0 then
        .error ⟨(canonicalize_document_to_c_pointer options (read_document document)).2⟩
      else
        .ok (String.mk
          ((canonicalize_document_to_c_pointer options (read_document document)).1.getD []))) := by
  simp only [canonicalize_xml, cstringNew_eq_some hd, to_xml_string_vec_eq_some hp,
    Option.bind_eq_bind, Option.some_bind]
  split <;> rfl

/-- C1: for the input string given in the crate's doc example, Canonical
1.0 mode without comments yields exactly the expected output, the empty
element emitted with explicit start and end tags rather than self-closed. -/
theorem canonicalize_xml_hi_explicit_tags :
    canonicalize_xml "<hi/>" ⟨.Canonical1_0, false, []⟩ = some (.ok "<hi></hi>") := rfl

/-- C3: canonicalize_xml is deterministic; the embedding is a pure
function of its two arguments, so two invocations with the same document
and options yield the very same result, byte-identical output on success
and the same error code on failure. -/
theorem canonicalize_xml_deterministic (document : String) (options : CanonicalizationOptions) :
    canonicalize_xml document options = canonicalize_xml document options := rfl

/-- C2 counterexample: an input that is not well-formed XML (here a lone
NUL byte) on which canonicalize_xml does not return an Err at all: the
CString conversion inside read_document panics first (modelled as
`none`), refuting the claim as stated for arbitrary inputs. -/
theorem canonicalize_xml_malformed_nul_no_err :
    read_document (String.mk [nulChar]) = none ∧
      canonicalize_xml (String.mk [nulChar]) ⟨.Canonical1_0, false, []⟩ = none ∧
      ∀ c : CanonicalizationErrorCode,
        canonicalize_xml (String.mk [nulChar]) ⟨.Canonical1_0, false, []⟩ ≠ some (.error c) := by
  refine ⟨rfl, rfl, fun c h => ?_⟩
  rw [show canonicalize_xml (String.mk [nulChar]) ⟨.Canonical1_0, false, []⟩ = none from rfl] at h
  exact Option.noConfusion h

/-- C2 (amended): for every NUL-free input that is not well-formed (the
parse returns no document) and every options whose inclusive list entries
are NUL-free, canonicalize_xml returns an Err carrying a
CanonicalizationErrorCode, and no output string: the error branch carries
only the negative return code. -/
theorem canonicalize_xml_err_on_malformed (input : String) (options : CanonicalizationOptions)
    (hd : nulFree input) (hp : ∀ p ∈ options.inclusive_ns_pfxs, nulFree p)
    (hparse : read_document input = none) :
    canonicalize_xml input options = some (.error ⟨-1⟩) := by
  rw [canonicalize_xml_eq_of_nulFree input options hd hp, hparse]
  rfl

/-- C2 witness: the spec's concrete scenario, a non-well-formed input on
which the parse fails and an Err is returned. -/
theorem canonicalize_xml_err_on_malformed_witness :
    canonicalize_xml "<invalid xml" ⟨.Canonical1_0, false, []⟩ = some (.error ⟨-1⟩) :=
  canonicalize_xml_err_on_malformed "<invalid xml" ⟨.Canonical1_0, false, []⟩
    (by unfold nulFree; decide) (by intro p hp; simp at hp) rfl

/-- C9: canonicalize_xml panics (modelled as `none`) exactly when the
document or one of the inclusive list entries contains a NUL byte, via
the CString::new(..).unwrap() calls in read_document and
to_xml_string_vec; on NUL-free arguments it never panics. -/
theorem canonicalize_xml_panics_iff_nul (document : String) (options : CanonicalizationOptions) :
    canonicalize_xml document options = none ↔
      (¬ nulFree document ∨ ∃ p ∈ options.inclusive_ns_pfxs, ¬ nulFree p) := by
  constructor
  · intro h
    by_cases hd : nulFree document
    · by_cases hv : ∃ p ∈ options.inclusive_ns_pfxs, ¬ nulFree p
      · exact Or.inr hv
      · exfalso
        have hp : ∀ p ∈ options.inclusive_ns_pfxs, nulFree p := by
          intro p hmem
          by_contra hc
          exact hv ⟨p, hmem, hc⟩
        rw [canonicalize_xml_eq_of_nulFree document options hd hp] at h
        exact Option.noConfusion h
    · exact Or.inl hd
  · intro h
    rcases h with hd | ⟨p, hmem, hnp⟩
    · have hc : cstringNew document = none := by
        simp only [nulFree, Bool.not_eq_false] at hd
        have : nulChar ∈ document.data := by simpa using hd
        simp [cstringNew, this]
      simp [canonicalize_xml, hc]
    · have hv : to_xml_string_vec options.inclusive_ns_pfxs = none :=
        (to_xml_string_vec_eq_none_iff options.inclusive_ns_pfxs).mpr ⟨p, hmem, hnp⟩
      cases hc : cstringNew document with
      | none => simp [canonicalize_xml, hc]
      | some _ => simp [canonicalize_xml, hc, hv]

/-- C10: whenever canonicalize_xml returns an Err, the wrapped code is
strictly negative; the error branch is taken exactly when the native
return code is negative, and only that code is wrapped. -/
theorem canonicalize_xml_err_code_neg (document : String) (options : CanonicalizationOptions)
    (c : CanonicalizationErrorCode)
    (h : canonicalize_xml document options = some (.error c)) : c.code < 0 := by
  cases hc : cstringNew document with
  | none => simp [canonicalize_xml, hc] at h
  | some s =>
    cases hv : to_xml_string_vec options.inclusive_ns_pfxs with
    | none => simp [canonicalize_xml, hc, hv] at h
    | some v =>
      simp only [canonicalize_xml, hc, hv, Option.bind_eq_bind, Option.some_bind] at h
      split at h
      next hneg =>
        simp only [Option.pure_def, Option.some.injEq, Except.error.injEq] at h
        subst h
        simpa using hneg
      next => simp only [Option.pure_def, Option.some.injEq] at h; exact Except.noConfusion h

/-- C10 witness: the Err returned on a non-well-formed input carries the
negative code -1. -/
theorem canonicalize_xml_err_code_neg_witness :
    (⟨-1⟩ : CanonicalizationErrorCode).code < 0 :=
  canonicalize_xml_err_code_neg "<invalid xml" ⟨.Canonical1_0, false, []⟩ ⟨-1⟩ rfl

/-! ## Exclusive-mode namespace utilization (C5) -/

/-- C5: in Exclusive mode a rendered namespace declaration's pfx is
always visibly utilized by the element or listed in the inclusive list
(so an unused declaration is omitted); an in-scope pfx from the
inclusive list whose binding differs from the rendered context is
rendered regardless of utilization; and on the spec's concrete example
the unused declaration is omitted from both elements. -/
theorem exclusive_omits_unused_ns :
    (∀ (incl : List Str) (scope ctx : List (Str × Str)) (name : QName) (attrs : List XAttr)
        (p u : Str), (p, u) ∈ nsToRender .ExclusiveCanonical1_0 incl scope ctx name attrs →
        p ∈ utilizedPfxs name attrs ∨ p ∈ incl) ∧
    (∀ (incl : List Str) (scope ctx : List (Str × Str)) (name : QName) (attrs : List XAttr)
        (p u : Str), (p, u) ∈ dedupKeepFirst scope → p ∈ incl →
        (lookupPfx ctx p).getD [] ≠ u →
        (p, u) ∈ nsToRender .ExclusiveCanonical1_0 incl scope ctx name attrs) ∧
    canonicalize_xml "<a xmlns:x=\"urn:x\"><b/></a>" ⟨.ExclusiveCanonical1_0, false, []⟩ =
      some (.ok "<a><b></b></a>") := by
  refine ⟨?_, ?_, rfl⟩
  · intro incl scope ctx name attrs p u h
    simp only [nsToRender, List.mem_filter, Bool.and_eq_true, Bool.or_eq_true] at h
    rcases h with ⟨-, h | h, -⟩
    · left
      simpa using h
    · right
      simpa using h
  · intro incl scope ctx name attrs p u hmem hincl hdiff
    simp only [nsToRender, List.mem_filter, Bool.and_eq_true, Bool.or_eq_true]
    refine ⟨hmem, Or.inr (by simpa using hincl), by simpa using hdiff⟩

/-- C5 witness: the soundness direction at a utilized pfx and the
inclusive-list direction at an unused but listed pfx, on concrete data. -/
theorem exclusive_omits_unused_ns_witness :
    ("x".data ∈ utilizedPfxs ⟨some "x".data, "a".data⟩ [] ∨ "x".data ∈ ([] : List Str)) ∧
      ("x".data, "urn:x".data) ∈
        nsToRender .ExclusiveCanonical1_0 ["x".data] [("x".data, "urn:x".data)] []
          ⟨none, "a".data⟩ [] :=
  ⟨exclusive_omits_unused_ns.1 [] [("x".data, "urn:x".data)] [] ⟨some "x".data, "a".data⟩ []
      "x".data "urn:x".data (by decide),
    exclusive_omits_unused_ns.2.1 ["x".data] [("x".data, "urn:x".data)] [] ⟨none, "a".data⟩ []
      "x".data "urn:x".data (by decide) (by decide) (by decide)⟩

/-! ## The inclusive list is inert outside Exclusive mode (C7) -/

/-- Strong induction over the node tree, recursing through child lists. -/
theorem XNode.strongInd (motive : XNode → Prop)
    (helem : ∀ name ns attrs children,
      (∀ c ∈ children, motive c) → motive (.elem name ns attrs children))
    (htext : ∀ s, motive (.text s))
    (hcomment : ∀ s, motive (.comment s))
    (hpi : ∀ t d, motive (.procInst t d)) : ∀ x, motive x
  | .elem name ns attrs children => helem name ns attrs children (fun c hc =>
      have : sizeOf c < sizeOf (XNode.elem name ns attrs children) := by
        have := List.sizeOf_lt_of_mem hc
        simp only [XNode.elem.sizeOf_spec]
        omega
      XNode.strongInd motive helem htext hcomment hpi c)
  | .text s => htext s
  | .comment s => hcomment s
  | .procInst t d => hpi t d
termination_by x => sizeOf x

theorem nsToRender_nonexcl_incl_inert {mode : CanonicalizationMode}
    (h : mode ≠ .ExclusiveCanonical1_0) (incl : List Str) (scope ctx : List (Str × Str))
    (name : QName) (attrs : List XAttr) :
    nsToRender mode incl scope ctx name attrs = nsToRender mode [] scope ctx name attrs := by
  cases mode with
  | ExclusiveCanonical1_0 => exact absurd rfl h
  | Canonical1_0 => rfl
  | Canonical1_1 => rfl

theorem serList_congr (mode : CanonicalizationMode) (kc : Bool) (i1 i2 : List Str)
    (scope ctx : List (Str × Str)) (cs : List XNode)
    (h : ∀ c ∈ cs, serNode mode kc i1 scope ctx c = serNode mode kc i2 scope ctx c) :
    serList mode kc i1 scope ctx cs = serList mode kc i2 scope ctx cs := by
  induction cs with
  | nil => rfl
  | cons c cs ih =>
    simp only [serList]
    rw [h c (by simp), ih (fun c' hc' => h c' (by simp [hc']))]

theorem serNode_nonexcl_incl_inert {mode : CanonicalizationMode}
    (hm : mode ≠ .ExclusiveCanonical1_0) (kc : Bool) (incl : List Str) :
    ∀ x scope ctx, serNode mode kc incl scope ctx x = serNode mode kc [] scope ctx x := by
  intro x
  induction x using XNode.strongInd with
  | htext s => intro scope ctx; rfl
  | hcomment s => intro scope ctx; rfl
  | hpi t d => intro scope ctx; rfl
  | helem name ns attrs children ih =>
    intro scope ctx
    simp only [serNode, nsToRender_nonexcl_incl_inert hm]
    rw [serList_congr mode kc incl [] (ns ++ scope)
      (sortLe nsLe (nsToRender mode [] (ns ++ scope) ctx name attrs) ++ ctx) children
      (fun c hc => ih c hc _ _)]

theorem canonicalizeDoc_nonexcl_incl_inert (m : CanonicalizationMode) (kc : Bool)
    (hm : m ≠ .ExclusiveCanonical1_0) (l : List String) (d : XmlDoc) :
    canonicalizeDoc ⟨m, kc, l⟩ d = canonicalizeDoc ⟨m, kc, []⟩ d := by
  simp only [canonicalizeDoc, List.map_nil]
  rw [serList_congr m kc (l.map String.data) [] initNsEnv initNsEnv d.preMisc
      (fun c hc => serNode_nonexcl_incl_inert hm kc (l.map String.data) c _ _),
    serNode_nonexcl_incl_inert hm kc (l.map String.data) d.root initNsEnv initNsEnv,
    serList_congr m kc (l.map String.data) [] initNsEnv initNsEnv d.postMisc
      (fun c hc => serNode_nonexcl_incl_inert hm kc (l.map String.data) c _ _)]

/-- C7 counterexample: an inclusive list entry containing a NUL byte
changes the observable behavior of canonicalize_xml even in Canonical
1.0 mode, from success to a panic of to_xml_string_vec, so the option is
not entirely without effect outside Exclusive mode. -/
theorem inclusive_list_nul_affects_canonical10 :
    canonicalize_xml "<a/>" ⟨.Canonical1_0, false, [String.mk [nulChar]]⟩ = none ∧
      canonicalize_xml "<a/>" ⟨.Canonical1_0, false, []⟩ = some (.ok "<a></a>") ∧
      canonicalize_xml "<a/>" ⟨.Canonical1_0, false, [String.mk [nulChar]]⟩ ≠
        canonicalize_xml "<a/>" ⟨.Canonical1_0, false, []⟩ := by
  refine ⟨rfl, rfl, fun h => ?_⟩
  rw [show canonicalize_xml "<a/>" ⟨.Canonical1_0, false, [String.mk [nulChar]]⟩ = none from rfl,
    show canonicalize_xml "<a/>" ⟨.Canonical1_0, false, []⟩ = some (.ok "<a></a>") from rfl] at h
  exact Option.noConfusion h

/-- C7 (amended): in modes Canonical1_0 and Canonical1_1 the result of
canonicalize_xml is identical for any two NUL-free values of the
inclusive list; the option only feeds the Exclusive-mode axis resolver,
apart from the CString conversions that panic on NUL entries in every
mode. -/
theorem inclusive_list_no_effect_nonexclusive (input : String) (kc : Bool)
    (m : CanonicalizationMode) (l1 l2 : List String)
    (hm : m = .Canonical1_0 ∨ m = .Canonical1_1)
    (h1 : ∀ p ∈ l1, nulFree p) (h2 : ∀ p ∈ l2, nulFree p) :
    canonicalize_xml input ⟨m, kc, l1⟩ = canonicalize_xml input ⟨m, kc, l2⟩ := by
  have hne : m ≠ .ExclusiveCanonical1_0 := by
    rcases hm with h | h <;> subst h <;> intro hc <;> exact CanonicalizationMode.noConfusion hc
  by_cases hd : nulFree input
  · rw [canonicalize_xml_eq_of_nulFree input ⟨m, kc, l1⟩ hd h1,
      canonicalize_xml_eq_of_nulFree input ⟨m, kc, l2⟩ hd h2]
    have hcd : canonicalize_document_to_c_pointer ⟨m, kc, l1⟩ (read_document input) =
        canonicalize_document_to_c_pointer ⟨m, kc, l2⟩ (read_document input) := by
      cases read_document input with
      | none => rfl
      | some d =>
        simp only [canonicalize_document_to_c_pointer]
        rw [canonicalizeDoc_nonexcl_incl_inert m kc hne l1 d,
          canonicalizeDoc_nonexcl_incl_inert m kc hne l2 d]
    rw [hcd]
  · rw [(canonicalize_xml_panics_iff_nul input ⟨m, kc, l1⟩).mpr (Or.inl hd),
      (canonicalize_xml_panics_iff_nul input ⟨m, kc, l2⟩).mpr (Or.inl hd)]

/-- C7 witness: two different NUL-free inclusive lists give the same
result in Canonical 1.0 mode on a concrete document. -/
theorem inclusive_list_no_effect_nonexclusive_witness :
    canonicalize_xml "<a xmlns:x=\"urn:x\"/>" ⟨.Canonical1_0, false, ["x", "y"]⟩ =
      canonicalize_xml "<a xmlns:x=\"urn:x\"/>" ⟨.Canonical1_0, false, []⟩ :=
  inclusive_list_no_effect_nonexclusive "<a xmlns:x=\"urn:x\"/>" false .Canonical1_0
    ["x", "y"] [] (Or.inl rfl)
    (by intro p hp; fin_cases hp <;> (unfold nulFree; decide))
    (by intro p hp; simp at hp)

/-! ## Collectors over the document tree and inversion of the serializer -/

mutual

/-- All comment data occurring in a node. -/
def nodeComments : XNode → List Str
  | .comment s => [s]
  | .elem _ _ _ children => listComments children
  | .text _ => []
  | .procInst _ _ => []

/-- All comment data occurring in a node list. -/
def listComments : List XNode → List Str
  | [] => []
  | c :: cs => nodeComments c ++ listComments cs

end

mutual

/-- All attribute values occurring in a node. -/
def nodeAttrVals : XNode → List Str
  | .elem _ _ attrs children => attrs.map (fun a => a.value) ++ listAttrVals children
  | .text _ => []
  | .comment _ => []
  | .procInst _ _ => []

/-- All attribute values occurring in a node list. -/
def listAttrVals : List XNode → List Str
  | [] => []
  | c :: cs => nodeAttrVals c ++ listAttrVals cs

end

/-- All comment data of a document. -/
def docComments (d : XmlDoc) : List Str :=
  listComments d.preMisc ++ nodeComments d.root ++ listComments d.postMisc

/-- All attribute values of a document. -/
def docAttrVals (d : XmlDoc) : List Str :=
  listAttrVals d.preMisc ++ nodeAttrVals d.root ++ listAttrVals d.postMisc

theorem mem_listComments {cs : List XNode} {s : Str} :
    s ∈ listComments cs ↔ ∃ c ∈ cs, s ∈ nodeComments c := by
  induction cs with
  | nil => simp [listComments]
  | cons c cs ih => simp [listComments, ih]

theorem mem_listAttrVals {cs : List XNode} {s : Str} :
    s ∈ listAttrVals cs ↔ ∃ c ∈ cs, s ∈ nodeAttrVals c := by
  induction cs with
  | nil => simp [listAttrVals]
  | cons c cs ih => simp [listAttrVals, ih]

theorem mem_insLe {α : Type} (le : α → α → Bool) (a b : α) (l : List α) :
    b ∈ insLe le a l ↔ b = a ∨ b ∈ l := by
  induction l with
  | nil => simp [insLe]
  | cons x xs ih =>
    simp only [insLe]
    split
    · simp
    · simp only [List.mem_cons, ih]
      tauto

theorem mem_sortLe {α : Type} (le : α → α → Bool) (l : List α) (b : α) :
    b ∈ sortLe le l ↔ b ∈ l := by
  induction l with
  | nil => simp [sortLe]
  | cons x xs ih => simp [sortLe, mem_insLe, ih]

theorem resolveAttrs_ok_mem {scope : List (Str × Str)} {attrs : List XAttr}
    {akeys : List (Str × XAttr)} (h : resolveAttrs scope attrs = .ok akeys)
    {a : XAttr} (ha : a ∈ attrs) : ∃ u, (u, a) ∈ akeys := by
  induction attrs generalizing akeys with
  | nil => simp at ha
  | cons b bs ih =>
    simp only [resolveAttrs, bind, Except.bind] at h
    cases hb : resolveAttrPfx scope b with
    | error e => rw [hb] at h; exact Except.noConfusion h
    | ok k =>
      rw [hb] at h
      cases hbs : resolveAttrs scope bs with
      | error e => rw [hbs] at h; exact Except.noConfusion h
      | ok ks =>
        rw [hbs] at h
        simp only [pure, Except.pure, Except.ok.injEq] at h
        subst h
        rcases List.mem_cons.mp ha with rfl | ha'
        · refine ⟨k.1, ?_⟩
          have : k = (k.1, a) := by
            cases hpfx : a.name.pfx with
            | none =>
              simp only [resolveAttrPfx, hpfx] at hb
              cases hb; rfl
            | some p =>
              simp only [resolveAttrPfx, hpfx] at hb
              cases hl : lookupPfx scope p with
              | none =>
                simp only [hl] at hb
                exact Except.noConfusion hb
              | some u =>
                simp only [hl] at hb
                cases hb; rfl
          rw [← this]
          simp
        · obtain ⟨u, hu⟩ := ih hbs ha'
          exact ⟨u, by simp [hu]⟩

theorem serList_ok_mem {m : CanonicalizationMode} {kc : Bool} {i : List Str}
    {scope ctx : List (Str × Str)} {cs : List XNode} {outs : List Str}
    (h : serList m kc i scope ctx cs = .ok outs) {c : XNode} (hc : c ∈ cs) :
    ∃ o, o ∈ outs ∧ serNode m kc i scope ctx c = .ok o := by
  induction cs generalizing outs with
  | nil => simp at hc
  | cons b bs ih =>
    simp only [serList, bind, Except.bind] at h
    cases hb : serNode m kc i scope ctx b with
    | error e => rw [hb] at h; exact Except.noConfusion h
    | ok o =>
      rw [hb] at h
      cases hbs : serList m kc i scope ctx bs with
      | error e => rw [hbs] at h; exact Except.noConfusion h
      | ok os =>
        rw [hbs] at h
        simp only [pure, Except.pure, Except.ok.injEq] at h
        subst h
        rcases List.mem_cons.mp hc with rfl | hc'
        · exact ⟨o, by simp, hb⟩
        · obtain ⟨o', ho', hser⟩ := ih hbs hc'
          exact ⟨o', by simp [ho'], hser⟩

theorem serNode_elem_ok {m : CanonicalizationMode} {kc : Bool} {i : List Str}
    {scope ctx : List (Str × Str)} {name : QName} {nsd : List (Str × Str)}
    {attrs : List XAttr} {children : List XNode} {out : Str}
    (h : serNode m kc i scope ctx (.elem name nsd attrs children) = .ok out) :
    ∃ akeys childOuts,
      resolveAttrs (nsd ++ scope) attrs = .ok akeys ∧
      serList m kc i (nsd ++ scope)
        (sortLe nsLe (nsToRender m i (nsd ++ scope) ctx name attrs) ++ ctx) children
        = .ok childOuts ∧
      out = '<' :: qnameStr name
        ++ ((sortLe nsLe (nsToRender m i (nsd ++ scope) ctx name attrs)).map renderNsDecl).flatten
        ++ ((sortLe attrLe akeys).map renderAttr).flatten
        ++ '>' :: childOuts.flatten ++ '<' :: '/' :: qnameStr name ++ ['>'] := by
  simp only [serNode, bind, Except.bind] at h
  cases h1 : (match name.pfx with
    | none => Except.ok ([] : Str)
    | some p =>
      match lookupPfx (nsd ++ scope) p with
      | some u => Except.ok u
      | none => Except.error (C14NErr.unboundPfx p)) with
  | error e => rw [h1] at h; exact Except.noConfusion h
  | ok _ =>
    rw [h1] at h
    cases h2 : resolveAttrs (nsd ++ scope) attrs with
    | error e => rw [h2] at h; exact Except.noConfusion h
    | ok akeys =>
      rw [h2] at h
      cases h3 : serList m kc i (nsd ++ scope)
          (sortLe nsLe (nsToRender m i (nsd ++ scope) ctx name attrs) ++ ctx) children with
      | error e => rw [h3] at h; exact Except.noConfusion h
      | ok childOuts =>
        rw [h3] at h
        simp only [pure, Except.pure, Except.ok.injEq] at h
        exact ⟨akeys, childOuts, rfl, rfl, h.symm⟩

theorem escAttr_tab_present {v : Str} (h : '\t' ∈ v) : "&#9;".data <:+: escAttr v := by
  have hmem : escAttrChar '\t' ∈ v.map escAttrChar := List.mem_map_of_mem _ h
  have : escAttrChar '\t' = "&#9;".data := rfl
  rw [← this]
  exact List.infix_of_mem_flatten hmem

theorem escAttr_infix_renderAttr (e : Str × XAttr) : escAttr e.2.value <:+: renderAttr e := by
  refine ⟨' ' :: qnameStr e.2.name ++ ['=', '"'], ['"'], ?_⟩
  simp [renderAttr, List.append_assoc]

theorem serNode_tab_present (m : CanonicalizationMode) (kc : Bool) (i : List Str) :
    ∀ x scope ctx out, serNode m kc i scope ctx x = .ok out →
      ∀ v ∈ nodeAttrVals x, '\t' ∈ v → "&#9;".data <:+: out := by
  intro x
  induction x using XNode.strongInd with
  | htext s => intro scope ctx out h v hv; simp [nodeAttrVals] at hv
  | hcomment s => intro scope ctx out h v hv; simp [nodeAttrVals] at hv
  | hpi t d => intro scope ctx out h v hv; simp [nodeAttrVals] at hv
  | helem name nsd attrs children ih =>
    intro scope ctx out h v hv htab
    obtain ⟨akeys, childOuts, hak, hcl, hout⟩ := serNode_elem_ok h
    simp only [nodeAttrVals, List.mem_append] at hv
    rcases hv with hv | hv
    · obtain ⟨a, ha, rfl⟩ := List.mem_map.mp hv
      obtain ⟨u, hu⟩ := resolveAttrs_ok_mem hak ha
      have hmem : renderAttr (u, a) ∈ (sortLe attrLe akeys).map renderAttr :=
        List.mem_map_of_mem _ ((mem_sortLe attrLe akeys (u, a)).mpr hu)
      have h1 : escAttr a.value <:+: renderAttr (u, a) := escAttr_infix_renderAttr (u, a)
      have h2 : renderAttr (u, a) <:+: ((sortLe attrLe akeys).map renderAttr).flatten :=
        List.infix_of_mem_flatten hmem
      have h3 : ((sortLe attrLe akeys).map renderAttr).flatten <:+: out := by
        rw [hout]
        refine ⟨'<' :: qnameStr name
          ++ ((sortLe nsLe (nsToRender m i (nsd ++ scope) ctx name attrs)).map
            renderNsDecl).flatten,
          '>' :: childOuts.flatten ++ '<' :: '/' :: qnameStr name ++ ['>'], ?_⟩
        simp [List.append_assoc]
      exact ((escAttr_tab_present htab).trans h1).trans (h2.trans h3)
    · obtain ⟨c, hc, hvc⟩ := mem_listAttrVals.mp hv
      obtain ⟨o, ho, hser⟩ := serList_ok_mem hcl hc
      have h1 : "&#9;".data <:+: o := ih c hc _ _ o hser v hvc htab
      have h2 : o <:+: childOuts.flatten := List.infix_of_mem_flatten ho
      have h3 : childOuts.flatten <:+: out := by
        rw [hout]
        refine ⟨'<' :: qnameStr name
          ++ ((sortLe nsLe (nsToRender m i (nsd ++ scope) ctx name attrs)).map
            renderNsDecl).flatten
          ++ ((sortLe attrLe akeys).map renderAttr).flatten ++ ['>'],
          '<' :: '/' :: qnameStr name ++ ['>'], ?_⟩
        simp [List.append_assoc]
      exact h1.trans (h2.trans h3)

theorem serNode_comment_present (m : CanonicalizationMode) (i : List Str) :
    ∀ x scope ctx out, serNode m true i scope ctx x = .ok out →
      ∀ s ∈ nodeComments x, ("<!--".data ++ s ++ "-->".data) <:+: out := by
  intro x
  induction x using XNode.strongInd with
  | htext s => intro scope ctx out h s' hs; simp [nodeComments] at hs
  | hpi t d => intro scope ctx out h s' hs; simp [nodeComments] at hs
  | hcomment s =>
    intro scope ctx out h s' hs
    simp only [nodeComments, List.mem_singleton] at hs
    subst hs
    simp only [serNode, if_true, Except.ok.injEq] at h
    rw [← h]
  | helem name nsd attrs children ih =>
    intro scope ctx out h s hs
    obtain ⟨akeys, childOuts, hak, hcl, hout⟩ := serNode_elem_ok h
    simp only [nodeComments] at hs
    obtain ⟨c, hc, hsc⟩ := mem_listComments.mp hs
    obtain ⟨o, ho, hser⟩ := serList_ok_mem hcl hc
    have h1 : ("<!--".data ++ s ++ "-->".data) <:+: o := ih c hc _ _ o hser s hsc
    have h2 : o <:+: childOuts.flatten := List.infix_of_mem_flatten ho
    have h3 : childOuts.flatten <:+: out := by
      rw [hout]
      refine ⟨'<' :: qnameStr name
        ++ ((sortLe nsLe (nsToRender m i (nsd ++ scope) ctx name attrs)).map
          renderNsDecl).flatten
        ++ ((sortLe attrLe akeys).map renderAttr).flatten ++ ['>'],
        '<' :: '/' :: qnameStr name ++ ['>'], ?_⟩
      simp [List.append_assoc]
    exact h1.trans (h2.trans h3)

theorem canonicalizeDoc_ok_inv {options : CanonicalizationOptions} {d : XmlDoc} {l : Str}
    (h : canonicalizeDoc options d = .ok l) :
    ∃ pres r posts,
      serList options.mode options.keep_comments (options.inclusive_ns_pfxs.map String.data)
        initNsEnv initNsEnv d.preMisc = .ok pres ∧
      serNode options.mode options.keep_comments (options.inclusive_ns_pfxs.map String.data)
        initNsEnv initNsEnv d.root = .ok r ∧
      serList options.mode options.keep_comments (options.inclusive_ns_pfxs.map String.data)
        initNsEnv initNsEnv d.postMisc = .ok posts ∧
      l = pres.flatten ++ r ++ posts.flatten := by
  simp only [canonicalizeDoc, bind, Except.bind] at h
  cases h1 : serList options.mode options.keep_comments
      (options.inclusive_ns_pfxs.map String.data) initNsEnv initNsEnv d.preMisc with
  | error e => rw [h1] at h; exact Except.noConfusion h
  | ok pres =>
    rw [h1] at h
    cases h2 : serNode options.mode options.keep_comments
        (options.inclusive_ns_pfxs.map String.data) initNsEnv initNsEnv d.root with
    | error e => rw [h2] at h; exact Except.noConfusion h
    | ok r =>
      rw [h2] at h
      cases h3 : serList options.mode options.keep_comments
          (options.inclusive_ns_pfxs.map String.data) initNsEnv initNsEnv d.postMisc with
      | error e => rw [h3] at h; exact Except.noConfusion h
      | ok posts =>
        rw [h3] at h
        simp only [pure, Except.pure, Except.ok.injEq] at h
        exact ⟨pres, r, posts, rfl, rfl, rfl, h.symm⟩

theorem canonicalize_xml_ok_inv {input : String} {options : CanonicalizationOptions} {out : String}
    (h : canonicalize_xml input options = some (.ok out)) :
    ∃ doc l, read_document input = some doc ∧ canonicalizeDoc options doc = .ok l ∧
      out = String.mk l := by
  cases hc : cstringNew input with
  | none => simp [canonicalize_xml, hc] at h
  | some s =>
    cases hv : to_xml_string_vec options.inclusive_ns_pfxs with
    | none => simp [canonicalize_xml, hc, hv] at h
    | some v =>
      simp only [canonicalize_xml, hc, hv, Option.bind_eq_bind, Option.some_bind] at h
      cases hd : read_document input with
      | none =>
        rw [hd] at h
        simp only [canonicalize_document_to_c_pointer] at h
        norm_num at h
        exact Except.noConfusion h
      | some doc =>
        rw [hd] at h
        cases hcd : canonicalizeDoc options doc with
        | error e =>
          simp only [canonicalize_document_to_c_pointer, hcd] at h
          norm_num at h
          exact Except.noConfusion h
        | ok l =>
          simp only [canonicalize_document_to_c_pointer, hcd] at h
          have : ¬ ((l.length : Int) < 0) := not_lt.mpr (Int.natCast_nonneg _)
          rw [if_neg this] at h
          simp only [Option.pure_def, Option.some.injEq, Except.ok.injEq] at h
          exact ⟨doc, l, rfl, hcd, h.symm⟩

theorem canonicalizeDoc_tab_present {options : CanonicalizationOptions} {d : XmlDoc} {l : Str}
    (h : canonicalizeDoc options d = .ok l) {v : Str} (hv : v ∈ docAttrVals d)
    (ht : '\t' ∈ v) : "&#9;".data <:+: l := by
  obtain ⟨pres, r, posts, h1, h2, h3, hl⟩ := canonicalizeDoc_ok_inv h
  simp only [docAttrVals, List.mem_append] at hv
  rcases hv with (hv | hv) | hv
  · obtain ⟨c, hc, hvc⟩ := mem_listAttrVals.mp hv
    obtain ⟨o, ho, hser⟩ := serList_ok_mem h1 hc
    have := (serNode_tab_present _ _ _ c _ _ o hser v hvc ht).trans
      (List.infix_of_mem_flatten ho)
    refine this.trans ⟨[], r ++ posts.flatten, ?_⟩
    simp [hl]
  · have := serNode_tab_present _ _ _ d.root _ _ r h2 v hv ht
    refine this.trans ⟨pres.flatten, posts.flatten, ?_⟩
    simp [hl]
  · obtain ⟨c, hc, hvc⟩ := mem_listAttrVals.mp hv
    obtain ⟨o, ho, hser⟩ := serList_ok_mem h3 hc
    have := (serNode_tab_present _ _ _ c _ _ o hser v hvc ht).trans
      (List.infix_of_mem_flatten ho)
    refine this.trans ⟨pres.flatten ++ r, [], ?_⟩
    simp [hl]

/-- C6: attribute values are escaped character by character exactly as
the spec's table states, every non-special character passing through
verbatim; consequently any attribute value containing a literal tab
character yields the sequence of characters of the reference in the
successful output. -/
theorem attr_value_escaping :
    (escAttrChar '&' = "&amp;".data ∧ escAttrChar '<' = "&lt;".data ∧
      escAttrChar '"' = "&quot;".data ∧ escAttrChar '\t' = "&#9;".data ∧
      escAttrChar '\n' = "&#xA;".data ∧ escAttrChar '\r' = "&#xD;".data ∧
      ∀ c : Char, c ∉ ['&', '<', '"', '\t', '\n', '\r'] → escAttrChar c = [c]) ∧
    (∀ (input : String) (options : CanonicalizationOptions) (out : String) (doc : XmlDoc)
      (v : Str), canonicalize_xml input options = some (.ok out) →
      read_document input = some doc → v ∈ docAttrVals doc → '\t' ∈ v →
      "&#9;".data <:+: out.data) := by
  constructor
  · refine ⟨rfl, rfl, rfl, rfl, rfl, rfl, fun c hc => ?_⟩
    simp only [List.mem_cons, List.not_mem_nil, or_false, not_or] at hc
    obtain ⟨h1, h2, h3, h4, h5, h6⟩ := hc
    simp [escAttrChar, h1, h2, h3, h4, h5, h6]
  · intro input options out doc v hok hdoc hv ht
    obtain ⟨doc', l, hdoc', hcd, hout⟩ := canonicalize_xml_ok_inv hok
    rw [hdoc] at hdoc'
    cases hdoc'
    have : out.data = l := by rw [hout]
    rw [this]
    exact canonicalizeDoc_tab_present hcd hv ht

/-- C6 witness: the verbatim rule at a plain character, and the spec's
concrete scenario of a literal tab inside an attribute value escaped to
the numeric reference in the output. -/
theorem attr_value_escaping_witness :
    escAttrChar 'x' = ['x'] ∧ "&#9;".data <:+: ("<a b=\"x&#9;y\"></a>" : String).data :=
  ⟨attr_value_escaping.1.2.2.2.2.2.2 'x' (by decide),
    attr_value_escaping.2 "<a b=\"x\ty\"/>" ⟨.Canonical1_0, false, []⟩ "<a b=\"x&#9;y\"></a>"
      ⟨[], .elem ⟨none, "a".data⟩ [] [⟨⟨none, "b".data⟩, "x\ty".data⟩] [], []⟩ "x\ty".data
      rfl rfl (by simp [docAttrVals, nodeAttrVals, listAttrVals]) (by decide)⟩

/-! ## No comment opener in comment-stripped output (C4) -/

/-- No left angle bracket immediately followed by an exclamation mark;
the comment opener needs that adjacency, so a character sequence
satisfying this predicate cannot contain one. -/
def ltBangFree : Str → Bool
  | [] => true
  | c :: rest => !(decide (c = '<') && decide (rest.head? = some '!')) && ltBangFree rest

theorem ltBangFree_of_not_mem {l : Str} (h : '<' ∉ l) : ltBangFree l = true := by
  induction l with
  | nil => rfl
  | cons c rest ih =>
    simp only [List.mem_cons, not_or] at h
    simp only [ltBangFree, Bool.and_eq_true, Bool.not_eq_true']
    refine ⟨by simp [Ne.symm h.1], ih h.2⟩

theorem getLast?_ne_of_not_mem {l : Str} (h : '<' ∉ l) : l.getLast? ≠ some '<' := by
  intro hc
  exact h (List.mem_of_mem_getLast? hc)

theorem ltBangFree_append {a b : Str} (ha : ltBangFree a = true) (hb : ltBangFree b = true)
    (hab : a.getLast? = some '<' → b.head? ≠ some '!') : ltBangFree (a ++ b) = true := by
  induction a with
  | nil => simpa using hb
  | cons c a' ih =>
    simp only [ltBangFree, Bool.and_eq_true] at ha
    cases a' with
    | nil =>
      simp only [List.singleton_append, ltBangFree, Bool.and_eq_true]
      refine ⟨?_, hb⟩
      by_cases hc : c = '<'
      · subst hc
        have := hab rfl
        simp [this]
      · simp [hc]
    | cons c2 a'' =>
      have hrec : ltBangFree (c2 :: a'' ++ b) = true := by
        refine ih ha.2 ?_
        intro hl
        exact hab (by simpa using hl)
      simp only [List.cons_append, ltBangFree, Bool.and_eq_true, List.head?_cons]
      have h1 := ha.1
      simp only [List.head?_cons] at h1
      exact ⟨h1, by simpa [ltBangFree] using hrec⟩

theorem ltBangFree_append_noLt {a b : Str} (ha : '<' ∉ a) (hb : ltBangFree b = true) :
    ltBangFree (a ++ b) = true :=
  ltBangFree_append (ltBangFree_of_not_mem ha) hb
    (fun hl => absurd (List.mem_of_mem_getLast? hl) ha)

theorem ltBangFree_drop_left {a b : Str} (h : ltBangFree (a ++ b) = true) :
    ltBangFree b = true := by
  induction a with
  | nil => simpa using h
  | cons c a' ih =>
    simp only [List.cons_append, ltBangFree, Bool.and_eq_true] at h
    exact ih h.2

theorem not_infix_of_ltBangFree {l xs : Str} (h : ltBangFree l = true) :
    ¬ (('<' :: '!' :: xs) <:+: l) := by
  rintro ⟨s, t, rfl⟩
  rw [List.append_assoc] at h
  have h1 : ltBangFree (('<' :: '!' :: xs) ++ t) = true := ltBangFree_drop_left h
  simp [ltBangFree] at h1

theorem comment_opener_absent {l : Str} (h : ltBangFree l = true) :
    ¬ ("<!--".data <:+: l) := by
  have : "<!--".data = '<' :: '!' :: ['-', '-'] := rfl
  rw [this]
  exact not_infix_of_ltBangFree h

/-- A usable name: nonempty, name-start character then name characters. -/
def goodNC (s : Str) : Bool :=
  match s with
  | [] => false
  | c :: r => isNCStart c && r.all isNCChar

/-- A usable qualified name. -/
def goodQ (q : QName) : Bool :=
  (match q.pfx with | none => true | some p => goodNC p) && goodNC q.localName

/-- A usable namespace declaration: empty or usable pfx. -/
def nsDeclOK (e : Str × Str) : Bool := e.1.isEmpty || goodNC e.1

mutual

/-- Well-formed node as the parser produces it: all names are usable. -/
def nodeWf : XNode → Bool
  | .elem name ns attrs children =>
    goodQ name && ns.all nsDeclOK && attrs.all (fun a => goodQ a.name) && listWf children
  | .text _ => true
  | .comment _ => true
  | .procInst t _ => goodNC t

/-- Well-formed node list. -/
def listWf : List XNode → Bool
  | [] => true
  | c :: cs => nodeWf c && listWf cs

end

mutual

/-- A node containing no processing instruction. -/
def nodePiFree : XNode → Bool
  | .elem _ _ _ children => listPiFree children
  | .procInst _ _ => false
  | .text _ => true
  | .comment _ => true

/-- A node list containing no processing instruction. -/
def listPiFree : List XNode → Bool
  | [] => true
  | c :: cs => nodePiFree c && listPiFree cs

end

/-- Well-formed document. -/
def docWf (d : XmlDoc) : Bool := listWf d.preMisc && nodeWf d.root && listWf d.postMisc

/-- Document with no processing instruction anywhere. -/
def docPiFree (d : XmlDoc) : Bool :=
  listPiFree d.preMisc && nodePiFree d.root && listPiFree d.postMisc

theorem listWf_iff_mem {cs : List XNode} : listWf cs = true ↔ ∀ c ∈ cs, nodeWf c = true := by
  induction cs with
  | nil => simp [listWf]
  | cons c cs ih => simp [listWf, ih, Bool.and_eq_true]

theorem listPiFree_iff_mem {cs : List XNode} :
    listPiFree cs = true ↔ ∀ c ∈ cs, nodePiFree c = true := by
  induction cs with
  | nil => simp [listPiFree]
  | cons c cs ih => simp [listPiFree, ih, Bool.and_eq_true]

theorem isNCStart_ne {c : Char} (h : isNCStart c = true) : c ≠ '<' ∧ c ≠ '!' := by
  constructor <;> rintro rfl <;> exact absurd h (by decide)

theorem goodNC_not_mem {n : Str} (h : goodNC n = true) : '<' ∉ n ∧ '!' ∉ n := by
  cases n with
  | nil => simp
  | cons c r =>
    simp only [goodNC, Bool.and_eq_true, List.all_eq_true] at h
    constructor
    · intro hmem
      rcases List.mem_cons.mp hmem with rfl | hmem
      · exact absurd h.1 (by decide)
      · exact absurd (h.2 _ hmem) (by decide)
    · intro hmem
      rcases List.mem_cons.mp hmem with rfl | hmem
      · exact absurd h.1 (by decide)
      · exact absurd (h.2 _ hmem) (by decide)

theorem goodQ_qnameStr_not_mem {q : QName} (h : goodQ q = true) :
    '<' ∉ qnameStr q ∧ '!' ∉ qnameStr q := by
  simp only [goodQ, Bool.and_eq_true] at h
  obtain ⟨h1, h2⟩ := h
  cases hq : q.pfx with
  | none =>
    simp only [qnameStr, hq]
    exact goodNC_not_mem h2
  | some p =>
    rw [hq] at h1
    have hp := goodNC_not_mem h1
    have hl := goodNC_not_mem h2
    simp only [qnameStr, hq]
    constructor
    · intro hmem
      rcases List.mem_append.mp hmem with hm | hm
      · exact hp.1 hm
      · rcases List.mem_cons.mp hm with hm | hm
        · exact absurd hm (by decide)
        · exact hl.1 hm
    · intro hmem
      rcases List.mem_append.mp hmem with hm | hm
      · exact hp.2 hm
      · rcases List.mem_cons.mp hm with hm | hm
        · exact absurd hm (by decide)
        · exact hl.2 hm

theorem goodQ_qnameStr_head {q : QName} (h : goodQ q = true) :
    ∃ c r, qnameStr q = c :: r ∧ isNCStart c = true := by
  simp only [goodQ, Bool.and_eq_true] at h
  obtain ⟨h1, h2⟩ := h
  cases hq : q.pfx with
  | none =>
    simp only [qnameStr, hq]
    cases hn : q.localName with
    | nil => rw [hn] at h2; exact absurd h2 (by decide)
    | cons c r =>
      rw [hn] at h2
      simp only [goodNC, Bool.and_eq_true] at h2
      exact ⟨c, r, rfl, h2.1⟩
  | some p =>
    rw [hq] at h1
    simp only [qnameStr, hq]
    cases hn : p with
    | nil => rw [hn] at h1; exact absurd h1 (by decide)
    | cons c r =>
      rw [hn] at h1
      simp only [goodNC, Bool.and_eq_true] at h1
      exact ⟨c, r ++ ':' :: q.localName, rfl, h1.1⟩

theorem escAttrChar_not_mem (c : Char) : '<' ∉ escAttrChar c := by
  simp only [escAttrChar]
  split_ifs with h1 h2 h3 h4 h5 h6
  · decide
  · decide
  · decide
  · decide
  · decide
  · decide
  · intro hm
    exact h2 (List.mem_singleton.mp hm).symm

theorem escAttr_not_mem (s : Str) : '<' ∉ escAttr s := by
  intro hmem
  obtain ⟨piece, hpiece, hcm⟩ := List.mem_flatten.mp hmem
  obtain ⟨c, _, rfl⟩ := List.mem_map.mp hpiece
  exact escAttrChar_not_mem c hcm

theorem escTextChar_not_mem (c : Char) : '<' ∉ escTextChar c := by
  simp only [escTextChar]
  split_ifs with h1 h2 h3 h4
  · decide
  · decide
  · decide
  · decide
  · intro hm
    exact h2 (List.mem_singleton.mp hm).symm

theorem escText_not_mem (s : Str) : '<' ∉ escText s := by
  intro hmem
  obtain ⟨piece, hpiece, hcm⟩ := List.mem_flatten.mp hmem
  obtain ⟨c, _, rfl⟩ := List.mem_map.mp hpiece
  exact escTextChar_not_mem c hcm

theorem renderNsDecl_not_mem {e : Str × Str} (h : nsDeclOK e = true) :
    '<' ∉ renderNsDecl e := by
  intro hmem
  simp only [nsDeclOK, Bool.or_eq_true] at h
  simp only [renderNsDecl] at hmem
  split at hmem
  · rcases List.mem_append.mp hmem with hm | hm
    · rcases List.mem_append.mp hm with hm | hm
      · exact absurd hm (by decide)
      · exact escAttr_not_mem _ hm
    · exact absurd hm (by decide)
  · next hne =>
    have hg : goodNC e.1 = true := by
      rcases h with h | h
      · exact absurd h (by simpa using hne)
      · exact h
    rcases List.mem_append.mp hmem with hm | hm
    · rcases List.mem_append.mp hm with hm | hm
      · rcases List.mem_append.mp hm with hm | hm
        · exact absurd hm (by decide)
        · exact (goodNC_not_mem hg).1 hm
      · rcases List.mem_cons.mp hm with hm | hm
        · exact absurd hm (by decide)
        · rcases List.mem_cons.mp hm with hm | hm
          · exact absurd hm (by decide)
          · exact escAttr_not_mem _ hm
    · exact absurd hm (by decide)

theorem renderAttr_not_mem {e : Str × XAttr} (h : goodQ e.2.name = true) :
    '<' ∉ renderAttr e := by
  intro hmem
  simp only [renderAttr] at hmem
  rcases List.mem_append.mp hmem with hm | hm
  · rcases List.mem_append.mp hm with hm | hm
    · rcases List.mem_cons.mp hm with hm | hm
      · exact absurd hm (by decide)
      · exact (goodQ_qnameStr_not_mem h).1 hm
    · rcases List.mem_cons.mp hm with hm | hm
      · exact absurd hm (by decide)
      · rcases List.mem_cons.mp hm with hm | hm
        · exact absurd hm (by decide)
        · exact escAttr_not_mem _ hm
  · exact absurd hm (by decide)

theorem mem_dedupKeepFirst {l : List (Str × Str)} {e : Str × Str}
    (h : e ∈ dedupKeepFirst l) : e ∈ l := by
  induction l with
  | nil => simp [dedupKeepFirst] at h
  | cons a as ih =>
    simp only [dedupKeepFirst, List.mem_cons] at h
    rcases h with rfl | h
    · simp
    · exact List.mem_cons_of_mem _ (ih (List.mem_of_mem_filter h))

theorem mem_nsToRender {m : CanonicalizationMode} {i : List Str} {scope ctx : List (Str × Str)}
    {name : QName} {attrs : List XAttr} {e : Str × Str}
    (h : e ∈ nsToRender m i scope ctx name attrs) : e ∈ scope := by
  cases m with
  | ExclusiveCanonical1_0 =>
    simp only [nsToRender] at h
    exact mem_dedupKeepFirst (List.mem_of_mem_filter h)
  | Canonical1_0 =>
    simp only [nsToRender] at h
    exact mem_dedupKeepFirst (List.mem_of_mem_filter h)
  | Canonical1_1 =>
    simp only [nsToRender] at h
    exact mem_dedupKeepFirst (List.mem_of_mem_filter h)

theorem resolveAttrs_ok_mem_rev {scope : List (Str × Str)} {attrs : List XAttr}
    {akeys : List (Str × XAttr)} (h : resolveAttrs scope attrs = .ok akeys)
    {k : Str × XAttr} (hk : k ∈ akeys) : k.2 ∈ attrs := by
  induction attrs generalizing akeys with
  | nil =>
    simp only [resolveAttrs] at h
    cases h
    simp at hk
  | cons b bs ih =>
    simp only [resolveAttrs, bind, Except.bind] at h
    cases hb : resolveAttrPfx scope b with
    | error e => rw [hb] at h; exact Except.noConfusion h
    | ok k0 =>
      rw [hb] at h
      cases hbs : resolveAttrs scope bs with
      | error e => rw [hbs] at h; exact Except.noConfusion h
      | ok ks =>
        rw [hbs] at h
        simp only [pure, Except.pure, Except.ok.injEq] at h
        subst h
        rcases List.mem_cons.mp hk with rfl | hk'
        · cases hpfx : b.name.pfx with
          | none =>
            simp only [resolveAttrPfx, hpfx] at hb
            cases hb
            simp
          | some p =>
            simp only [resolveAttrPfx, hpfx] at hb
            cases hl : lookupPfx scope p with
            | none =>
              simp only [hl] at hb
              exact Except.noConfusion hb
            | some u =>
              simp only [hl] at hb
              cases hb
              simp
        · exact List.mem_cons_of_mem _ (ih hbs hk')

theorem serList_ok_mem_rev {m : CanonicalizationMode} {kc : Bool} {i : List Str}
    {scope ctx : List (Str × Str)} {cs : List XNode} {outs : List Str}
    (h : serList m kc i scope ctx cs = .ok outs) {o : Str} (ho : o ∈ outs) :
    ∃ c ∈ cs, serNode m kc i scope ctx c = .ok o := by
  induction cs generalizing outs with
  | nil =>
    simp only [serList] at h
    cases h
    simp at ho
  | cons b bs ih =>
    simp only [serList, bind, Except.bind] at h
    cases hb : serNode m kc i scope ctx b with
    | error e => rw [hb] at h; exact Except.noConfusion h
    | ok o0 =>
      rw [hb] at h
      cases hbs : serList m kc i scope ctx bs with
      | error e => rw [hbs] at h; exact Except.noConfusion h
      | ok os =>
        rw [hbs] at h
        simp only [pure, Except.pure, Except.ok.injEq] at h
        subst h
        rcases List.mem_cons.mp ho with rfl | ho'
        · exact ⟨b, by simp, hb⟩
        · obtain ⟨c, hc, hser⟩ := ih hbs ho'
          exact ⟨c, by simp [hc], hser⟩

theorem flatten_ltBangFree {outs : List Str}
    (h : ∀ o ∈ outs, ltBangFree o = true ∧ o.getLast? ≠ some '<') :
    ltBangFree outs.flatten = true ∧ outs.flatten.getLast? ≠ some '<' := by
  induction outs with
  | nil => exact ⟨rfl, by simp⟩
  | cons o os ih =>
    have ho := h o (by simp)
    have hos := ih (fun o' ho' => h o' (by simp [ho']))
    rw [List.flatten_cons]
    constructor
    · exact ltBangFree_append ho.1 hos.1 (fun hl => absurd hl ho.2)
    · rw [List.getLast?_append]
      cases hfl : os.flatten.getLast? with
      | none => simpa [Option.or] using ho.2
      | some a =>
        intro hco
        simp only [Option.or, hfl] at hco
        rw [hco] at hfl
        exact hos.2 hfl

theorem serNode_ltBangFree (m : CanonicalizationMode) (i : List Str) :
    ∀ x, nodeWf x = true → nodePiFree x = true →
      ∀ scope ctx out, (∀ e ∈ scope, nsDeclOK e = true) →
        serNode m false i scope ctx x = .ok out →
        ltBangFree out = true ∧ out.getLast? ≠ some '<' := by
  intro x
  induction x using XNode.strongInd with
  | htext s =>
    intro _ _ scope ctx out _ h
    simp only [serNode, Except.ok.injEq] at h
    subst h
    exact ⟨ltBangFree_of_not_mem (escText_not_mem s), getLast?_ne_of_not_mem (escText_not_mem s)⟩
  | hcomment s =>
    intro _ _ scope ctx out _ h
    simp only [serNode, Bool.false_eq_true, if_false, Except.ok.injEq] at h
    subst h
    exact ⟨rfl, by simp⟩
  | hpi t d =>
    intro _ hpf scope ctx out _ h
    simp [nodePiFree] at hpf
  | helem name nsd attrs children ih =>
    intro hwf hpf scope ctx out hscope h
    obtain ⟨akeys, childOuts, hak, hcl, hout⟩ := serNode_elem_ok h
    simp only [nodeWf, Bool.and_eq_true] at hwf
    obtain ⟨⟨⟨hq, hns⟩, hattrs⟩, hch⟩ := hwf
    simp only [nodePiFree] at hpf
    have hscope' : ∀ e ∈ nsd ++ scope, nsDeclOK e = true := by
      intro e he
      rcases List.mem_append.mp he with he | he
      · exact List.all_eq_true.mp hns e he
      · exact hscope e he
    obtain ⟨qc, qr, hqeq, hqstart⟩ := goodQ_qnameStr_head hq
    have hQnm : '<' ∉ qnameStr name := (goodQ_qnameStr_not_mem hq).1
    have hNS : '<' ∉ ((sortLe nsLe (nsToRender m i (nsd ++ scope) ctx name attrs)).map
        renderNsDecl).flatten := by
      intro hm
      obtain ⟨piece, hpiece, hcm⟩ := List.mem_flatten.mp hm
      obtain ⟨e, he, rfl⟩ := List.mem_map.mp hpiece
      have he' := (mem_sortLe nsLe _ e).mp he
      exact renderNsDecl_not_mem (hscope' e (mem_nsToRender he')) hcm
    have hAT : '<' ∉ ((sortLe attrLe akeys).map renderAttr).flatten := by
      intro hm
      obtain ⟨piece, hpiece, hcm⟩ := List.mem_flatten.mp hm
      obtain ⟨k, hk, rfl⟩ := List.mem_map.mp hpiece
      have hk' := (mem_sortLe attrLe _ k).mp hk
      have hka : k.2 ∈ attrs := resolveAttrs_ok_mem_rev hak hk'
      exact renderAttr_not_mem (List.all_eq_true.mp hattrs _ hka) hcm
    have hF : ltBangFree childOuts.flatten = true ∧ childOuts.flatten.getLast? ≠ some '<' := by
      apply flatten_ltBangFree
      intro o ho
      obtain ⟨c, hc, hser⟩ := serList_ok_mem_rev hcl ho
      exact ih c hc (listWf_iff_mem.mp hch c hc) (listPiFree_iff_mem.mp hpf c hc) _ _ o
        hscope' hser
    refine ⟨?_, ?_⟩
    · have hshape : out = ['<'] ++ (qnameStr name
        ++ (((sortLe nsLe (nsToRender m i (nsd ++ scope) ctx name attrs)).map
              renderNsDecl).flatten
          ++ (((sortLe attrLe akeys).map renderAttr).flatten
            ++ (['>'] ++ (childOuts.flatten
              ++ (['<', '/'] ++ (qnameStr name ++ ['>']))))))) := by
        rw [hout]
        simp [List.append_assoc]
      rw [hshape]
      have t1 : ltBangFree (qnameStr name ++ ['>']) = true :=
        ltBangFree_append_noLt hQnm (by decide)
      have t2 : ltBangFree (['<', '/'] ++ (qnameStr name ++ ['>'])) = true :=
        ltBangFree_append (by decide) t1 (fun hl => absurd hl (by decide))
      have t3 : ltBangFree (childOuts.flatten ++ (['<', '/'] ++ (qnameStr name ++ ['>'])))
          = true := ltBangFree_append hF.1 t2 (fun hl => absurd hl hF.2)
      have t4 : ltBangFree (['>'] ++ (childOuts.flatten
          ++ (['<', '/'] ++ (qnameStr name ++ ['>'])))) = true :=
        ltBangFree_append_noLt (by decide) t3
      have t5 := ltBangFree_append_noLt hAT t4
      have t6 := ltBangFree_append_noLt hNS t5
      have t7 := ltBangFree_append_noLt hQnm t6
      refine ltBangFree_append (by decide) t7 ?_
      intro _
      rw [List.head?_append_of_ne_nil _ (by rw [hqeq]; exact List.cons_ne_nil _ _), hqeq]
      simp only [List.head?_cons, ne_eq, Option.some.injEq]
      intro hc
      exact (isNCStart_ne hqstart).2 hc
    · rw [hout]
      rw [List.getLast?_concat]
      simp

theorem initNsEnv_ok : ∀ e ∈ initNsEnv, nsDeclOK e = true := by decide

theorem canonicalizeDoc_ltBangFree {options : CanonicalizationOptions} {d : XmlDoc} {l : Str}
    (hkc : options.keep_comments = false) (hwf : docWf d = true) (hpf : docPiFree d = true)
    (h : canonicalizeDoc options d = .ok l) : ltBangFree l = true := by
  obtain ⟨pres, r, posts, h1, h2, h3, hl⟩ := canonicalizeDoc_ok_inv h
  rw [hkc] at h1 h2 h3
  simp only [docWf, Bool.and_eq_true] at hwf
  obtain ⟨⟨hwpre, hwroot⟩, hwpost⟩ := hwf
  simp only [docPiFree, Bool.and_eq_true] at hpf
  obtain ⟨⟨hppre, hproot⟩, hppost⟩ := hpf
  have hpres : ltBangFree pres.flatten = true ∧ pres.flatten.getLast? ≠ some '<' := by
    apply flatten_ltBangFree
    intro o ho
    obtain ⟨c, hc, hser⟩ := serList_ok_mem_rev h1 ho
    exact serNode_ltBangFree _ _ c (listWf_iff_mem.mp hwpre c hc)
      (listPiFree_iff_mem.mp hppre c hc) _ _ o initNsEnv_ok hser
  have hr : ltBangFree r = true ∧ r.getLast? ≠ some '<' :=
    serNode_ltBangFree _ _ d.root hwroot hproot _ _ r initNsEnv_ok h2
  have hposts : ltBangFree posts.flatten = true ∧ posts.flatten.getLast? ≠ some '<' := by
    apply flatten_ltBangFree
    intro o ho
    obtain ⟨c, hc, hser⟩ := serList_ok_mem_rev h3 ho
    exact serNode_ltBangFree _ _ c (listWf_iff_mem.mp hwpost c hc)
      (listPiFree_iff_mem.mp hppost c hc) _ _ o initNsEnv_ok hser
  rw [hl, List.append_assoc]
  refine ltBangFree_append hpres.1 ?_ (fun hlast => absurd hlast hpres.2)
  exact ltBangFree_append hr.1 hposts.1 (fun hlast => absurd hlast hr.2)

/-! ## The parser produces well-formed documents -/

theorem readNCName_goodNC {cs n rest : Str} (h : readNCName cs = some (n, rest)) :
    goodNC n = true := by
  cases cs with
  | nil => simp [readNCName] at h
  | cons c r =>
    simp only [readNCName] at h
    split at h
    · next hstart =>
      cases h
      simp only [goodNC, Bool.and_eq_true]
      exact ⟨hstart, List.all_eq_true.mpr (fun x hx => List.mem_takeWhile_imp hx)⟩
    · exact Option.noConfusion h

theorem readQName_goodQ {cs : Str} {qn : QName} {rest : Str}
    (h : readQName cs = some (qn, rest)) : goodQ qn = true := by
  simp only [readQName, bind, Option.bind_eq_some] at h
  obtain ⟨⟨n1, cs1⟩, h1, h⟩ := h
  have hg1 := readNCName_goodNC h1
  split at h
  · next rest2 =>
    simp only [bind, Option.bind_eq_some] at h
    obtain ⟨⟨n2, cs2⟩, h2, h⟩ := h
    have hg2 := readNCName_goodNC h2
    simp only [Option.pure_def, Option.some.injEq, Prod.mk.injEq] at h
    obtain ⟨hqn, -⟩ := h
    rw [← hqn]
    simp only [goodQ, Bool.and_eq_true]
    exact ⟨hg1, hg2⟩
  · simp only [Option.pure_def, Option.some.injEq, Prod.mk.injEq] at h
    obtain ⟨hqn, -⟩ := h
    rw [← hqn]
    simp only [goodQ, Bool.and_eq_true]
    exact ⟨trivial, hg1⟩

theorem pPI_wf {fuel : Nat} {cs : Str} {x : XNode} {rest : Str}
    (h : pPI fuel cs = some (x, rest)) : nodeWf x = true := by
  simp only [pPI, bind, Option.bind_eq_some] at h
  obtain ⟨⟨t, cs1⟩, h1, h⟩ := h
  have hg := readNCName_goodNC h1
  split at h
  · exact Option.noConfusion h
  split at h
  · simp only [Option.pure_def, Option.some.injEq, Prod.mk.injEq] at h
    obtain ⟨hx, -⟩ := h
    rw [← hx]
    simpa [nodeWf] using hg
  · split at h
    · simp only [bind, Option.bind_eq_some] at h
      obtain ⟨⟨d, cs2⟩, h2, h⟩ := h
      simp only [Option.pure_def, Option.some.injEq, Prod.mk.injEq] at h
      obtain ⟨hx, -⟩ := h
      rw [← hx]
      simpa [nodeWf] using hg
    · exact Option.noConfusion h
  · exact Option.noConfusion h

theorem declOf_nsDeclOK {qn : QName} {p : Str} (h : declOf qn = some p)
    (hq : goodQ qn = true) (v : Str) : nsDeclOK (p, v) = true := by
  simp only [goodQ, Bool.and_eq_true] at hq
  cases hpfx : qn.pfx with
  | none =>
    simp only [declOf, hpfx] at h
    by_cases hx : qn.localName = "xmlns".data
    · rw [if_pos hx] at h
      cases h
      rfl
    · rw [if_neg hx] at h
      exact Option.noConfusion h
  | some px =>
    simp only [declOf, hpfx] at h
    by_cases hx : px = "xmlns".data
    · rw [if_pos hx] at h
      cases h
      simp only [nsDeclOK, Bool.or_eq_true]
      exact Or.inr hq.2
    · rw [if_neg hx] at h
      exact Option.noConfusion h

theorem pAttrs_wf : ∀ (fuel : Nat) (ns0 : List (Str × Str)) (attrs0 : List XAttr) (cs : Str)
    (ns : List (Str × Str)) (attrs : List XAttr) (sc : Bool) (rest : Str),
    pAttrs fuel ns0 attrs0 cs = some (ns, attrs, sc, rest) →
    ns0.all nsDeclOK = true → attrs0.all (fun a => goodQ a.name) = true →
    ns.all nsDeclOK = true ∧ attrs.all (fun a => goodQ a.name) = true := by
  intro fuel
  induction fuel with
  | zero =>
    intro ns0 attrs0 cs ns attrs sc rest h _ _
    simp [pAttrs] at h
  | succ fuel ih =>
    intro ns0 attrs0 cs ns attrs sc rest h hns0 hattrs0
    simp only [pAttrs] at h
    split at h
    · simp only [Option.some.injEq, Prod.mk.injEq] at h
      obtain ⟨hn, ha, -, -⟩ := h
      rw [← hn, ← ha, List.all_reverse, List.all_reverse]
      exact ⟨hns0, hattrs0⟩
    · simp only [Option.some.injEq, Prod.mk.injEq] at h
      obtain ⟨hn, ha, -, -⟩ := h
      rw [← hn, ← ha, List.all_reverse, List.all_reverse]
      exact ⟨hns0, hattrs0⟩
    · simp only [bind, Option.bind_eq_some] at h
      obtain ⟨⟨qn, cs1⟩, h1, h⟩ := h
      have hq := readQName_goodQ h1
      split at h
      · split at h
        · split at h
          · simp only [bind, Option.bind_eq_some] at h
            obtain ⟨⟨v, cs6⟩, h2, h⟩ := h
            split at h
            · next p hdecl =>
              split at h
              · exact Option.noConfusion h
              · split at h
                · exact Option.noConfusion h
                · refine ih _ _ _ _ _ _ _ h ?_ hattrs0
                  simp only [List.all_cons, Bool.and_eq_true]
                  exact ⟨declOf_nsDeclOK hdecl hq v, hns0⟩
            · split at h
              · exact Option.noConfusion h
              · refine ih _ _ _ _ _ _ _ h hns0 ?_
                simp only [List.all_cons, Bool.and_eq_true]
                exact ⟨hq, hattrs0⟩
          · exact Option.noConfusion h
        · exact Option.noConfusion h
      · exact Option.noConfusion h

theorem listWf_append {a b : List XNode} :
    listWf (a ++ b) = true ↔ listWf a = true ∧ listWf b = true := by
  simp only [listWf_iff_mem, List.mem_append]
  constructor
  · intro h
    exact ⟨fun c hc => h c (Or.inl hc), fun c hc => h c (Or.inr hc)⟩
  · rintro ⟨h1, h2⟩ c (hc | hc)
    · exact h1 c hc
    · exact h2 c hc

theorem pElemContent_wf : ∀ fuel : Nat,
    (∀ cs x rest, pElement fuel cs = some (x, rest) → nodeWf x = true) ∧
    (∀ cs xs rest, pContent fuel cs = some (xs, rest) → listWf xs = true) := by
  intro fuel
  induction fuel with
  | zero =>
    constructor
    · intro cs x rest h
      simp [pElement] at h
    · intro cs xs rest h
      simp [pContent] at h
  | succ fuel ih =>
    obtain ⟨ihE, ihC⟩ := ih
    constructor
    · intro cs x rest h
      simp only [pElement, bind, Option.bind_eq_some] at h
      obtain ⟨⟨qn, cs1⟩, h1, h⟩ := h
      obtain ⟨⟨ns, attrs, sc, cs2⟩, h2, h⟩ := h
      have hq := readQName_goodQ h1
      obtain ⟨hns, hattrs⟩ := pAttrs_wf _ _ _ _ _ _ _ _ h2 rfl rfl
      split at h
      · simp only [Option.pure_def, Option.some.injEq, Prod.mk.injEq] at h
        obtain ⟨hx, -⟩ := h
        rw [← hx]
        simp only [nodeWf, Bool.and_eq_true]
        exact ⟨⟨⟨hq, hns⟩, hattrs⟩, rfl⟩
      · simp only [bind, Option.bind_eq_some] at h
        obtain ⟨⟨children, cs3⟩, h3, h⟩ := h
        obtain ⟨⟨qn2, cs4⟩, h4, h⟩ := h
        have hch := ihC _ _ _ h3
        split at h
        · split at h
          · simp only [Option.pure_def, Option.some.injEq, Prod.mk.injEq] at h
            obtain ⟨hx, -⟩ := h
            rw [← hx]
            simp only [nodeWf, Bool.and_eq_true]
            exact ⟨⟨⟨hq, hns⟩, hattrs⟩, hch⟩
          · exact Option.noConfusion h
        · exact Option.noConfusion h
    · intro cs xs rest h
      simp only [pContent, bind, Option.bind_eq_some] at h
      obtain ⟨⟨txt, cs1⟩, h1, h⟩ := h
      have hpre : listWf (if txt.isEmpty then [] else [XNode.text txt]) = true := by
        split <;> simp [listWf, nodeWf]
      split at h
      · simp only [Option.pure_def, Option.some.injEq, Prod.mk.injEq] at h
        obtain ⟨hx, -⟩ := h
        rw [← hx]
        exact hpre
      · simp only [bind, Option.bind_eq_some] at h
        obtain ⟨⟨cm, cs2⟩, h2, h⟩ := h
        obtain ⟨⟨more, cs3⟩, h3, h⟩ := h
        simp only [Option.pure_def, Option.some.injEq, Prod.mk.injEq] at h
        obtain ⟨hx, -⟩ := h
        rw [← hx]
        rw [listWf_append]
        refine ⟨hpre, ?_⟩
        rw [show listWf (XNode.comment cm :: more) = (nodeWf (XNode.comment cm) && listWf more)
          from rfl]
        simp only [nodeWf, Bool.true_and]
        exact ihC _ _ _ h3
      · simp only [bind, Option.bind_eq_some] at h
        obtain ⟨⟨pn, cs2⟩, h2, h⟩ := h
        obtain ⟨⟨more, cs3⟩, h3, h⟩ := h
        simp only [Option.pure_def, Option.some.injEq, Prod.mk.injEq] at h
        obtain ⟨hx, -⟩ := h
        rw [← hx]
        rw [listWf_append]
        refine ⟨hpre, ?_⟩
        rw [show listWf (pn :: more) = (nodeWf pn && listWf more) from rfl]
        simp only [Bool.and_eq_true]
        exact ⟨pPI_wf h2, ihC _ _ _ h3⟩
      · simp only [bind, Option.bind_eq_some] at h
        obtain ⟨⟨el, cs2⟩, h2, h⟩ := h
        obtain ⟨⟨more, cs3⟩, h3, h⟩ := h
        simp only [Option.pure_def, Option.some.injEq, Prod.mk.injEq] at h
        obtain ⟨hx, -⟩ := h
        rw [← hx]
        rw [listWf_append]
        refine ⟨hpre, ?_⟩
        rw [show listWf (el :: more) = (nodeWf el && listWf more) from rfl]
        simp only [Bool.and_eq_true]
        exact ⟨ihE _ _ _ h2, ihC _ _ _ h3⟩
      · exact Option.noConfusion h

theorem pMiscStar_wf : ∀ (fuel : Nat) (acc : List XNode) (cs : Str) (out : List XNode)
    (rest : Str), pMiscStar fuel acc cs = some (out, rest) → listWf acc = true →
    listWf out = true := by
  intro fuel
  induction fuel with
  | zero =>
    intro acc cs out rest h _
    simp [pMiscStar] at h
  | succ fuel ih =>
    intro acc cs out rest h hacc
    simp only [pMiscStar] at h
    split at h
    · simp only [bind, Option.bind_eq_some] at h
      obtain ⟨⟨cm, cs2⟩, h2, h⟩ := h
      refine ih _ _ _ _ h ?_
      rw [show listWf (XNode.comment cm :: acc) = (nodeWf (XNode.comment cm) && listWf acc)
        from rfl]
      simpa [nodeWf] using hacc
    · simp only [bind, Option.bind_eq_some] at h
      obtain ⟨⟨pn, cs2⟩, h2, h⟩ := h
      refine ih _ _ _ _ h ?_
      rw [show listWf (pn :: acc) = (nodeWf pn && listWf acc) from rfl]
      simp only [Bool.and_eq_true]
      exact ⟨pPI_wf h2, hacc⟩
    · simp only [Option.some.injEq, Prod.mk.injEq] at h
      obtain ⟨hx, -⟩ := h
      rw [← hx]
      simpa [List.all_reverse, listWf_iff_mem, List.mem_reverse] using
        listWf_iff_mem.mp hacc

theorem parseDocument_wf {s : String} {d : XmlDoc} (h : parseDocument s = some d) :
    docWf d = true := by
  simp only [parseDocument, bind, Option.bind_eq_some] at h
  obtain ⟨cs1, h1, h⟩ := h
  obtain ⟨⟨pre, cs2⟩, h2, h⟩ := h
  have hpre := pMiscStar_wf _ _ _ _ _ h2 rfl
  split at h
  · simp only [bind, Option.bind_eq_some] at h
    obtain ⟨⟨root, cs3⟩, h3, h⟩ := h
    obtain ⟨⟨post, cs4⟩, h4, h⟩ := h
    have hroot := (pElemContent_wf _).1 _ _ _ h3
    have hpost := pMiscStar_wf _ _ _ _ _ h4 rfl
    split at h
    · simp only [Option.pure_def, Option.some.injEq] at h
      rw [← h]
      simp only [docWf, Bool.and_eq_true]
      exact ⟨⟨hpre, hroot⟩, hpost⟩
    · exact Option.noConfusion h
  · exact Option.noConfusion h

theorem canonicalizeDoc_comment_present {options : CanonicalizationOptions} {d : XmlDoc} {l : Str}
    (hkc : options.keep_comments = true) (h : canonicalizeDoc options d = .ok l)
    {s : Str} (hs : s ∈ docComments d) : ("<!--".data ++ s ++ "-->".data) <:+: l := by
  obtain ⟨pres, r, posts, h1, h2, h3, hl⟩ := canonicalizeDoc_ok_inv h
  rw [hkc] at h1 h2 h3
  simp only [docComments, List.mem_append] at hs
  rcases hs with (hs | hs) | hs
  · obtain ⟨c, hc, hsc⟩ := mem_listComments.mp hs
    obtain ⟨o, ho, hser⟩ := serList_ok_mem h1 hc
    have := (serNode_comment_present _ _ c _ _ o hser s hsc).trans
      (List.infix_of_mem_flatten ho)
    refine this.trans ⟨[], r ++ posts.flatten, ?_⟩
    simp [hl]
  · have := serNode_comment_present _ _ d.root _ _ r h2 s hs
    refine this.trans ⟨pres.flatten, posts.flatten, ?_⟩
    simp [hl]
  · obtain ⟨c, hc, hsc⟩ := mem_listComments.mp hs
    obtain ⟨o, ho, hser⟩ := serList_ok_mem h3 hc
    have := (serNode_comment_present _ _ c _ _ o hser s hsc).trans
      (List.infix_of_mem_flatten ho)
    refine this.trans ⟨pres.flatten ++ r, [], ?_⟩
    simp [hl]

/-- C4 counterexample: with keep_comments=false, an input whose
processing-instruction data contains the comment opener still puts the
characters of the opener in the successful output, since PI data is
emitted verbatim; so the unqualified "no comment opener ever appears"
claim fails. -/
theorem comment_opener_via_pi :
    canonicalize_xml "<a><?p <!--?></a>" ⟨.Canonical1_0, false, []⟩ =
      some (.ok "<a><?p <!--?></a>") ∧
    "<!--".data <:+: ("<a><?p <!--?></a>" : String).data := by
  refine ⟨rfl, ⟨"<a><?p ".data, "?></a>".data, ?_⟩⟩
  rfl

/-- C4 (amended): with keep_comments=false, for every input whose parsed
document contains no processing instruction, the successful output never
contains the comment opener; with keep_comments=true, every comment of
the parsed document appears verbatim in the output between the comment
delimiters.  (Processing-instruction data is emitted verbatim and can
itself contain the opener, hence the restriction of the first part.) -/
theorem comment_toggling :
    (∀ (input : String) (options : CanonicalizationOptions) (out : String) (doc : XmlDoc),
      canonicalize_xml input options = some (.ok out) →
      options.keep_comments = false →
      read_document input = some doc → docPiFree doc = true →
      ¬ ("<!--".data <:+: out.data)) ∧
    (∀ (input : String) (options : CanonicalizationOptions) (out : String) (doc : XmlDoc)
      (s : Str), canonicalize_xml input options = some (.ok out) →
      options.keep_comments = true → read_document input = some doc →
      s ∈ docComments doc → ("<!--".data ++ s ++ "-->".data) <:+: out.data) := by
  constructor
  · intro input options out doc hok hkc hdoc hpf
    obtain ⟨doc', l, hdoc', hcd, hout⟩ := canonicalize_xml_ok_inv hok
    rw [hdoc] at hdoc'
    cases hdoc'
    have hwf : docWf doc = true := parseDocument_wf hdoc
    have hlb : ltBangFree l = true := canonicalizeDoc_ltBangFree hkc hwf hpf hcd
    have : out.data = l := by rw [hout]
    rw [this]
    exact comment_opener_absent hlb
  · intro input options out doc s hok hkc hdoc hs
    obtain ⟨doc', l, hdoc', hcd, hout⟩ := canonicalize_xml_ok_inv hok
    rw [hdoc] at hdoc'
    cases hdoc'
    have : out.data = l := by rw [hout]
    rw [this]
    exact canonicalizeDoc_comment_present hkc hcd hs

/-- C4 witness: on the spec's comment-toggling scenario, the
keep_comments=false output contains no comment opener and the
keep_comments=true output contains the comment verbatim. -/
theorem comment_toggling_witness :
    (¬ ("<!--".data <:+: ("<a><b></b></a>" : String).data)) ∧
      ("<!--".data ++ "c".data ++ "-->".data) <:+: ("<a><!--c--><b></b></a>" : String).data :=
  ⟨comment_toggling.1 "<a><!--c--><b/></a>" ⟨.Canonical1_0, false, []⟩ "<a><b></b></a>"
      ⟨[], .elem ⟨none, "a".data⟩ [] []
        [.comment "c".data, .elem ⟨none, "b".data⟩ [] [] []], []⟩
      rfl rfl rfl rfl,
    comment_toggling.2 "<a><!--c--><b/></a>" ⟨.Canonical1_0, true, []⟩ "<a><!--c--><b></b></a>"
      ⟨[], .elem ⟨none, "a".data⟩ [] []
        [.comment "c".data, .elem ⟨none, "b".data⟩ [] [] []], []⟩
      "c".data rfl rfl rfl (by simp [docComments, nodeComments, listComments])⟩

/-! ## Idempotence (C8): order theory for the deterministic sorts -/

theorem charListLt_trans : ∀ {a b c : Str}, charListLt a b = true → charListLt b c = true →
    charListLt a c = true
  | [], [], _, ha, _ => by simp [charListLt] at ha
  | [], _ :: _, [], _, hb => by simp [charListLt] at hb
  | [], _ :: _, _ :: _, _, _ => by simp [charListLt]
  | _ :: _, [], _, ha, _ => by simp [charListLt] at ha
  | _ :: _, _ :: _, [], _, hb => by simp [charListLt] at hb
  | x :: xs, y :: ys, z :: zs, ha, hb => by
    simp only [charListLt, Bool.or_eq_true, Bool.and_eq_true, decide_eq_true_eq] at ha hb ⊢
    rcases ha with ha | ⟨rfl, ha⟩
    · rcases hb with hb | ⟨rfl, hb⟩
      · exact Or.inl (lt_trans ha hb)
      · exact Or.inl ha
    · rcases hb with hb | ⟨rfl, hb⟩
      · exact Or.inl hb
      · exact Or.inr ⟨rfl, charListLt_trans ha hb⟩

theorem charListLt_total : ∀ a b : Str, charListLt a b = true ∨ a = b ∨ charListLt b a = true
  | [], [] => Or.inr (Or.inl rfl)
  | [], _ :: _ => Or.inl (by simp [charListLt])
  | _ :: _, [] => Or.inr (Or.inr (by simp [charListLt]))
  | x :: xs, y :: ys => by
    rcases lt_trichotomy x y with hxy | rfl | hxy
    · exact Or.inl (by simp [charListLt, hxy])
    · rcases charListLt_total xs ys with h | rfl | h
      · exact Or.inl (by simp [charListLt, h])
      · exact Or.inr (Or.inl rfl)
      · exact Or.inr (Or.inr (by simp [charListLt, h]))
    · exact Or.inr (Or.inr (by simp [charListLt, hxy]))

theorem charListLt_irrefl : ∀ a : Str, charListLt a a = false
  | [] => rfl
  | x :: xs => by simp [charListLt, charListLt_irrefl xs]

theorem charListLe_total (a b : Str) : charListLe a b = true ∨ charListLe b a = true := by
  rcases charListLt_total a b with h | rfl | h
  · exact Or.inl (by simp [charListLe, h])
  · exact Or.inl (by simp [charListLe])
  · exact Or.inr (by simp [charListLe, h])

theorem charListLe_trans {a b c : Str} (h1 : charListLe a b = true)
    (h2 : charListLe b c = true) : charListLe a c = true := by
  simp only [charListLe, Bool.or_eq_true, decide_eq_true_eq] at h1 h2 ⊢
  rcases h1 with h1 | rfl
  · rcases h2 with h2 | rfl
    · exact Or.inl (charListLt_trans h1 h2)
    · exact Or.inl h1
  · exact h2

theorem nsLe_total (a b : Str × Str) : nsLe a b = true ∨ nsLe b a = true :=
  charListLe_total a.1 b.1

theorem nsLe_trans {a b c : Str × Str} (h1 : nsLe a b = true) (h2 : nsLe b c = true) :
    nsLe a c = true := charListLe_trans h1 h2

theorem attrLe_total (a b : Str × XAttr) : attrLe a b = true ∨ attrLe b a = true := by
  simp only [attrLe, Bool.or_eq_true, Bool.and_eq_true, decide_eq_true_eq]
  rcases charListLt_total a.1 b.1 with h | he | h
  · exact Or.inl (Or.inl h)
  · rcases charListLe_total a.2.name.localName b.2.name.localName with h | h
    · exact Or.inl (Or.inr ⟨he, h⟩)
    · exact Or.inr (Or.inr ⟨he.symm, h⟩)
  · exact Or.inr (Or.inl h)

theorem attrLe_trans {a b c : Str × XAttr} (h1 : attrLe a b = true) (h2 : attrLe b c = true) :
    attrLe a c = true := by
  simp only [attrLe, Bool.or_eq_true, Bool.and_eq_true, decide_eq_true_eq] at h1 h2 ⊢
  rcases h1 with h1 | ⟨he1, h1⟩
  · rcases h2 with h2 | ⟨he2, h2⟩
    · exact Or.inl (charListLt_trans h1 h2)
    · exact Or.inl (he2 ▸ h1)
  · rcases h2 with h2 | ⟨he2, h2⟩
    · exact Or.inl (he1 ▸ h2)
    · exact Or.inr ⟨he1.trans he2, charListLe_trans h1 h2⟩

/-- Sortedness: each element is at most every later one. -/
def PairwiseLe {α : Type} (le : α → α → Bool) (l : List α) : Prop :=
  List.Pairwise (fun a b => le a b = true) l

theorem pairwiseLe_insLe {α : Type} {le : α → α → Bool}
    (htot : ∀ a b, le a b = true ∨ le b a = true)
    (htr : ∀ {a b c}, le a b = true → le b c = true → le a c = true)
    {l : List α} (a : α) (h : PairwiseLe le l) : PairwiseLe le (insLe le a l) := by
  induction l with
  | nil =>
    simp only [insLe]
    exact List.pairwise_cons.mpr ⟨by simp, h⟩
  | cons b bs ih =>
    rw [PairwiseLe, List.pairwise_cons] at h
    obtain ⟨hb, hbs⟩ := h
    simp only [insLe]
    split
    · next hab =>
      rw [PairwiseLe, List.pairwise_cons]
      refine ⟨?_, List.pairwise_cons.mpr ⟨hb, hbs⟩⟩
      intro x hx
      rcases List.mem_cons.mp hx with rfl | hx
      · exact hab
      · exact htr hab (hb x hx)
    · next hab =>
      rw [PairwiseLe, List.pairwise_cons]
      have hba : le b a = true := by
        rcases htot a b with h | h
        · exact absurd h hab
        · exact h
      refine ⟨?_, ih hbs⟩
      intro x hx
      rcases (mem_insLe le a x bs).mp hx with rfl | hx
      · exact hba
      · exact hb x hx

theorem pairwiseLe_sortLe {α : Type} {le : α → α → Bool}
    (htot : ∀ a b, le a b = true ∨ le b a = true)
    (htr : ∀ {a b c}, le a b = true → le b c = true → le a c = true)
    (l : List α) : PairwiseLe le (sortLe le l) := by
  induction l with
  | nil => exact List.Pairwise.nil
  | cons a as ih => exact pairwiseLe_insLe htot htr a ih

theorem sortLe_of_pairwiseLe {α : Type} {le : α → α → Bool} :
    ∀ {l : List α}, PairwiseLe le l → sortLe le l = l
  | [], _ => rfl
  | a :: l, h => by
    rw [PairwiseLe, List.pairwise_cons] at h
    obtain ⟨ha, hl⟩ := h
    simp only [sortLe, sortLe_of_pairwiseLe hl]
    cases l with
    | nil => rfl
    | cons b bs => simp [insLe, ha b (by simp)]

theorem sortLe_idem {α : Type} {le : α → α → Bool}
    (htot : ∀ a b, le a b = true ∨ le b a = true)
    (htr : ∀ {a b c}, le a b = true → le b c = true → le a c = true)
    (l : List α) : sortLe le (sortLe le l) = sortLe le l :=
  sortLe_of_pairwiseLe (pairwiseLe_sortLe htot htr l)

/-! ## Idempotence (C8): re-parsing serialized pieces -/

theorem takeWhile_dropWhile_append {p : Char → Bool} :
    ∀ {a : Str} {b : Str}, a.all p = true → (∀ c, b.head? = some c → p c = false) →
    (a ++ b).takeWhile p = a ∧ (a ++ b).dropWhile p = b
  | [], b, _, hb => by
    cases b with
    | nil => exact ⟨rfl, rfl⟩
    | cons c bs =>
      have := hb c rfl
      simp [List.takeWhile, List.dropWhile, this]
  | a :: as, b, ha, hb => by
    simp only [List.all_cons, Bool.and_eq_true] at ha
    have ih := takeWhile_dropWhile_append (a := as) (b := b) ha.2 hb
    simp [List.takeWhile, List.dropWhile, ha.1, ih.1, ih.2]

theorem readNCName_inv {n rest : Str} (hn : goodNC n = true)
    (hr : ∀ c, rest.head? = some c → isNCChar c = false) :
    readNCName (n ++ rest) = some (n, rest) := by
  cases n with
  | nil => exact absurd hn (by decide)
  | cons c r =>
    simp only [goodNC, Bool.and_eq_true] at hn
    obtain ⟨h1, h2⟩ := hn
    obtain ⟨ht, hd⟩ := takeWhile_dropWhile_append (p := isNCChar) h2 hr
    simp [readNCName, h1, ht, hd]

theorem readQName_inv {q : QName} {rest : Str} (hq : goodQ q = true)
    (hr : ∀ c, rest.head? = some c → isNCChar c = false ∧ c ≠ ':') :
    readQName (qnameStr q ++ rest) = some (q, rest) := by
  obtain ⟨pfx, localName⟩ := q
  cases pfx with
  | none =>
    simp only [goodQ, Bool.and_eq_true] at hq
    have h1 : readNCName (localName ++ rest) = some (localName, rest) :=
      readNCName_inv hq.2 (fun c hc => (hr c hc).1)
    simp only [qnameStr, readQName, bind, Option.bind, h1]
    split
    · exfalso
      exact (hr ':' rfl).2 rfl
    · rfl
  | some p =>
    simp only [goodQ, Bool.and_eq_true] at hq
    have h1 : readNCName (p ++ (':' :: (localName ++ rest))) =
        some (p, ':' :: (localName ++ rest)) :=
      readNCName_inv hq.1 (fun c hc => by cases hc; decide)
    have h2 : readNCName (localName ++ rest) = some (localName, rest) :=
      readNCName_inv hq.2 (fun c hc => (hr c hc).1)
    have hsh : qnameStr ⟨some p, localName⟩ ++ rest = p ++ (':' :: (localName ++ rest)) := by
      simp [qnameStr]
    rw [hsh]
    simp [readQName, bind, Option.bind, h1, h2]

theorem readRef_amp (r : Str) : readRef ("amp;".data ++ r) = some ('&', r) := rfl

theorem readRef_lt (r : Str) : readRef ("lt;".data ++ r) = some ('<', r) := rfl

theorem readRef_gt (r : Str) : readRef ("gt;".data ++ r) = some ('>', r) := rfl

theorem readRef_quot (r : Str) : readRef ("quot;".data ++ r) = some ('"', r) := rfl

theorem readRef_tab (r : Str) : readRef ("#9;".data ++ r) = some ('\t', r) := rfl

theorem readRef_lf (r : Str) : readRef ("#xA;".data ++ r) = some ('\n', r) := rfl

theorem readRef_cr (r : Str) : readRef ("#xD;".data ++ r) = some ('\r', r) := rfl

theorem pText_step {fuel : Nat} {acc : Str} {c : Char} {rest : Str}
    (h1 : c ≠ '<') (h2 : c ≠ '&') :
    pText (fuel + 1) acc (c :: rest) = pText fuel (c :: acc) rest := by
  simp [pText, h1, h2]

theorem pQuoted_step {fuel : Nat} {acc : Str} {c : Char} {rest : Str}
    (h1 : c ≠ '"') (h2 : c ≠ '<') (h3 : c ≠ '&') :
    pQuoted (fuel + 1) '"' acc (c :: rest) = pQuoted fuel '"' (c :: acc) rest := by
  simp [pQuoted, h1, h2, h3]

theorem pText_ref_step {f : Nat} {acc body R : Str} {c : Char}
    (h : readRef body = some (c, R)) :
    pText (f + 1) acc ('&' :: body) = pText f (c :: acc) R := by
  simp [pText, h]

theorem pQuoted_ref_step {f : Nat} {acc body R : Str} {c : Char}
    (h : readRef body = some (c, R)) :
    pQuoted (f + 1) '"' acc ('&' :: body) = pQuoted f '"' (c :: acc) R := by
  simp [pQuoted, h]

theorem pText_inv : ∀ (t : Str) (fuel : Nat) (acc rest : Str),
    rest.head? = some '<' → t.length + 1 ≤ fuel →
    pText fuel acc (escText t ++ rest) = some (acc.reverse ++ t, rest)
  | [], fuel, acc, rest, hr, hf => by
    cases fuel with
    | zero => omega
    | succ f =>
      cases rest with
      | nil => exact Option.noConfusion hr
      | cons c r =>
        have : c = '<' := by simpa using hr
        subst this
        simp [escText, pText]
  | c :: t', fuel, acc, rest, hr, hf => by
    cases fuel with
    | zero => simp at hf
    | succ f =>
      have hf' : t'.length + 1 ≤ f := by simp at hf; omega
      have hesc : escText (c :: t') ++ rest = escTextChar c ++ (escText t' ++ rest) := by
        simp [escText]
      rw [hesc]
      by_cases h1 : c = '&'
      · subst h1
        have hsh : escTextChar '&' ++ (escText t' ++ rest) =
            '&' :: ("amp;".data ++ (escText t' ++ rest)) := by simp [escTextChar]
        rw [hsh, pText_ref_step (readRef_amp _), pText_inv t' f ('&' :: acc) rest hr hf']
        simp
      · by_cases h2 : c = '<'
        · subst h2
          have hsh : escTextChar '<' ++ (escText t' ++ rest) =
              '&' :: ("lt;".data ++ (escText t' ++ rest)) := by simp [escTextChar]
          rw [hsh, pText_ref_step (readRef_lt _), pText_inv t' f ('<' :: acc) rest hr hf']
          simp
        · by_cases h3 : c = '>'
          · subst h3
            have hsh : escTextChar '>' ++ (escText t' ++ rest) =
                '&' :: ("gt;".data ++ (escText t' ++ rest)) := by simp [escTextChar]
            rw [hsh, pText_ref_step (readRef_gt _), pText_inv t' f ('>' :: acc) rest hr hf']
            simp
          · by_cases h4 : c = '\r'
            · subst h4
              have hsh : escTextChar '\r' ++ (escText t' ++ rest) =
                  '&' :: ("#xD;".data ++ (escText t' ++ rest)) := by simp [escTextChar]
              rw [hsh, pText_ref_step (readRef_cr _), pText_inv t' f ('\r' :: acc) rest hr hf']
              simp
            · have hsh : escTextChar c ++ (escText t' ++ rest) = c :: (escText t' ++ rest) := by
                simp [escTextChar, h1, h2, h3, h4]
              rw [hsh, pText_step h2 h1, pText_inv t' f (c :: acc) rest hr hf']
              simp

theorem pQuoted_inv : ∀ (v : Str) (fuel : Nat) (acc rest : Str),
    v.length + 1 ≤ fuel →
    pQuoted fuel '"' acc (escAttr v ++ '"' :: rest) = some (acc.reverse ++ v, rest)
  | [], fuel, acc, rest, hf => by
    cases fuel with
    | zero => omega
    | succ f => simp [escAttr, pQuoted]
  | c :: v', fuel, acc, rest, hf => by
    cases fuel with
    | zero => simp at hf
    | succ f =>
      have hf' : v'.length + 1 ≤ f := by simp at hf; omega
      have hesc : escAttr (c :: v') ++ '"' :: rest = escAttrChar c ++ (escAttr v' ++ '"' :: rest) := by
        simp [escAttr]
      rw [hesc]
      by_cases h1 : c = '&'
      · subst h1
        have hsh : escAttrChar '&' ++ (escAttr v' ++ '"' :: rest) =
            '&' :: ("amp;".data ++ (escAttr v' ++ '"' :: rest)) := by simp [escAttrChar]
        rw [hsh, pQuoted_ref_step (readRef_amp _), pQuoted_inv v' f ('&' :: acc) rest hf']
        simp
      · by_cases h2 : c = '<'
        · subst h2
          have hsh : escAttrChar '<' ++ (escAttr v' ++ '"' :: rest) =
              '&' :: ("lt;".data ++ (escAttr v' ++ '"' :: rest)) := by simp [escAttrChar]
          rw [hsh, pQuoted_ref_step (readRef_lt _), pQuoted_inv v' f ('<' :: acc) rest hf']
          simp
        · by_cases h3 : c = '"'
          · subst h3
            have hsh : escAttrChar '"' ++ (escAttr v' ++ '"' :: rest) =
                '&' :: ("quot;".data ++ (escAttr v' ++ '"' :: rest)) := by simp [escAttrChar]
            rw [hsh, pQuoted_ref_step (readRef_quot _), pQuoted_inv v' f ('"' :: acc) rest hf']
            simp
          · by_cases h4 : c = '\t'
            · subst h4
              have hsh : escAttrChar '\t' ++ (escAttr v' ++ '"' :: rest) =
                  '&' :: ("#9;".data ++ (escAttr v' ++ '"' :: rest)) := by simp [escAttrChar]
              rw [hsh, pQuoted_ref_step (readRef_tab _), pQuoted_inv v' f ('\t' :: acc) rest hf']
              simp
            · by_cases h5 : c = '\n'
              · subst h5
                have hsh : escAttrChar '\n' ++ (escAttr v' ++ '"' :: rest) =
                    '&' :: ("#xA;".data ++ (escAttr v' ++ '"' :: rest)) := by simp [escAttrChar]
                rw [hsh, pQuoted_ref_step (readRef_lf _),
                  pQuoted_inv v' f ('\n' :: acc) rest hf']
                simp
              · by_cases h6 : c = '\r'
                · subst h6
                  have hsh : escAttrChar '\r' ++ (escAttr v' ++ '"' :: rest) =
                      '&' :: ("#xD;".data ++ (escAttr v' ++ '"' :: rest)) := by simp [escAttrChar]
                  rw [hsh, pQuoted_ref_step (readRef_cr _),
                    pQuoted_inv v' f ('\r' :: acc) rest hf']
                  simp
                · have hsh : escAttrChar c ++ (escAttr v' ++ '"' :: rest) =
                      c :: (escAttr v' ++ '"' :: rest) := by
                    simp [escAttrChar, h1, h2, h3, h4, h5, h6]
                  rw [hsh, pQuoted_step h3 h2 h1, pQuoted_inv v' f (c :: acc) rest hf']
                  simp

/-- Whether the three-character pattern occurs as a contiguous block. -/
def hasSub3 (a b c : Char) : Str → Bool
  | x :: y :: z :: rest =>
    (decide (x = a) && decide (y = b) && decide (z = c)) || hasSub3 a b c (y :: z :: rest)
  | _ => false

/-- Whether the two-character pattern occurs as a contiguous block. -/
def hasSub2 (a b : Char) : Str → Bool
  | x :: y :: rest => (decide (x = a) && decide (y = b)) || hasSub2 a b (y :: rest)
  | _ => false

theorem pComment_step {f : Nat} {acc : Str} {x y z : Char} {rest : Str}
    (h : ¬(x = '-' ∧ y = '-' ∧ z = '>')) :
    pComment (f + 1) acc (x :: y :: z :: rest) = pComment f (x :: acc) (y :: z :: rest) := by
  by_cases hx : x = '-'
  · by_cases hy : y = '-'
    · by_cases hz : z = '>'
      · exact absurd ⟨hx, hy, hz⟩ h
      · subst hx; subst hy; simp [pComment, hz]
    · subst hx; simp [pComment, hy]
  · simp [pComment, hx]

theorem pComment_inv : ∀ (c : Str) (fuel : Nat) (acc r : Str),
    hasSub3 '-' '-' '>' c = false → c.length + 1 ≤ fuel →
    pComment fuel acc (c ++ '-' :: '-' :: '>' :: r) = some (acc.reverse ++ c, r)
  | [], fuel, acc, r, _, hf => by
    cases fuel with
    | zero => omega
    | succ f => simp [pComment]
  | x :: c', fuel, acc, r, hs, hf => by
    cases fuel with
    | zero => simp at hf
    | succ f =>
      have hf' : c'.length + 1 ≤ f := by simp at hf; omega
      have hstep : pComment (f + 1) acc (x :: (c' ++ '-' :: '-' :: '>' :: r)) =
          pComment f (x :: acc) (c' ++ '-' :: '-' :: '>' :: r) := by
        cases c' with
        | nil => exact pComment_step (by rintro ⟨-, -, h⟩; exact absurd h (by decide))
        | cons y c'' =>
          cases c'' with
          | nil => exact pComment_step (by rintro ⟨-, -, h⟩; exact absurd h (by decide))
          | cons z c''' =>
            refine pComment_step ?_
            rintro ⟨rfl, rfl, rfl⟩
            simp [hasSub3] at hs
      have hs' : hasSub3 '-' '-' '>' c' = false := by
        cases c' with
        | nil => rfl
        | cons y c'' =>
          cases c'' with
          | nil => rfl
          | cons z c''' =>
            simp only [hasSub3, Bool.or_eq_false_iff] at hs
            exact hs.2
      rw [List.cons_append, hstep, pComment_inv c' f (x :: acc) r hs' hf']
      simp

theorem pPITail_step {f : Nat} {acc : Str} {x y : Char} {rest : Str}
    (h : ¬(x = '?' ∧ y = '>')) :
    pPITail (f + 1) acc (x :: y :: rest) = pPITail f (x :: acc) (y :: rest) := by
  by_cases hx : x = '?'
  · by_cases hy : y = '>'
    · exact absurd ⟨hx, hy⟩ h
    · subst hx; simp [pPITail, hy]
  · simp [pPITail, hx]

theorem pPITail_inv : ∀ (d : Str) (fuel : Nat) (acc r : Str),
    hasSub2 '?' '>' d = false → d.length + 1 ≤ fuel →
    pPITail fuel acc (d ++ '?' :: '>' :: r) = some (acc.reverse ++ d, r)
  | [], fuel, acc, r, _, hf => by
    cases fuel with
    | zero => omega
    | succ f => simp [pPITail]
  | x :: d', fuel, acc, r, hs, hf => by
    cases fuel with
    | zero => simp at hf
    | succ f =>
      have hf' : d'.length + 1 ≤ f := by simp at hf; omega
      have hstep : pPITail (f + 1) acc (x :: (d' ++ '?' :: '>' :: r)) =
          pPITail f (x :: acc) (d' ++ '?' :: '>' :: r) := by
        cases d' with
        | nil => exact pPITail_step (by rintro ⟨-, h⟩; exact absurd h (by decide))
        | cons y d'' =>
          refine pPITail_step ?_
          rintro ⟨rfl, rfl⟩
          simp [hasSub2] at hs
      have hs' : hasSub2 '?' '>' d' = false := by
        cases d' with
        | nil => rfl
        | cons y d'' =>
          simp only [hasSub2, Bool.or_eq_false_iff] at hs
          exact hs.2
      rw [List.cons_append, hstep, pPITail_inv d' f (x :: acc) r hs' hf']
      simp

/-! ## Idempotence (C8): invariants established by the parser -/

/-- NUL-free character sequence. -/
def nulFreeL (s : Str) : Bool := !(s.contains nulChar)

/-- Namespace declaration lists with pairwise distinct pfxs. -/
def nodupKeysNs : List (Str × Str) → Bool
  | [] => true
  | e :: rest => !(rest.any (fun e2 => decide (e2.1 = e.1))) && nodupKeysNs rest

/-- Attribute lists with pairwise distinct qualified names. -/
def nodupQNames : List XAttr → Bool
  | [] => true
  | a :: rest => !(rest.any (fun b => decide (b.name = a.name))) && nodupQNames rest

/-- Whether a node is character data. -/
def isTextNode : XNode → Bool
  | .text _ => true
  | _ => false

/-- Whether a node may appear outside the root element. -/
def miscNode : XNode → Bool
  | .comment _ => true
  | .procInst _ _ => true
  | _ => false

/-- Whether a node is an element. -/
def isElemNode : XNode → Bool
  | .elem _ _ _ _ => true
  | _ => false

mutual

/-- Everything the parser guarantees about a node, as needed to re-parse
its canonical serialization: usable unique names, non-empty bindings for
non-default pfxs, NUL-free content, delimiter-free comment and
processing-instruction data, and non-empty text. -/
def nodeInv : XNode → Bool
  | .elem name ns attrs children =>
    goodQ name &&
    ns.all (fun e =>
      (e.1.isEmpty || goodNC e.1) && (e.1.isEmpty || !e.2.isEmpty) && nulFreeL e.2) &&
    nodupKeysNs ns &&
    attrs.all (fun a => goodQ a.name && (declOf a.name).isNone && nulFreeL a.value) &&
    nodupQNames attrs &&
    listInv children
  | .text t => !t.isEmpty && nulFreeL t
  | .comment s => !(hasSub3 '-' '-' '>' s) && !(s.contains '\r') && nulFreeL s
  | .procInst t d =>
    goodNC t && !(decide (t.map Char.toLower = "xml".data)) &&
    !(hasSub2 '?' '>' d) && !(d.contains '\r') && nulFreeL d &&
    (match d with | [] => true | c :: _ => !isXmlSpace c)

/-- Node-list invariant: each node satisfies its invariant and no two
adjacent nodes are both text (the parser reads maximal text runs). -/
def listInv : List XNode → Bool
  | [] => true
  | [c] => nodeInv c
  | c :: c' :: rest => nodeInv c && !(isTextNode c && isTextNode c') && listInv (c' :: rest)

end

/-- Invariant of the node lists outside the root element. -/
def miscInv (l : List XNode) : Bool := l.all (fun c => miscNode c && nodeInv c)

/-- Document-level parser invariant. -/
def docInv (d : XmlDoc) : Bool :=
  miscInv d.preMisc && nodeInv d.root && isElemNode d.root && miscInv d.postMisc

theorem normalizeEol_no_cr (l : Str) : '\r' ∉ normalizeEol l := by
  induction l using normalizeEol.induct with
  | case1 => simp [normalizeEol]
  | case2 rest ih =>
    simp only [normalizeEol, List.mem_cons, not_or]
    exact ⟨by decide, ih⟩
  | case3 rest hne ih =>
    rw [show normalizeEol ('\r' :: rest) = '\n' :: normalizeEol rest from by
      cases rest with
      | nil => rfl
      | cons c2 r2 =>
        by_cases h2 : c2 = '\n'
        · subst h2
          exact absurd rfl (by exact fun h => hne r2 h)
        · simp [normalizeEol, h2]]
    simp only [List.mem_cons, not_or]
    exact ⟨by decide, ih⟩
  | case4 c rest hne1 hne2 ih =>
    rw [show normalizeEol (c :: rest) = c :: normalizeEol rest from by
      have hc : c ≠ '\r' := fun h => hne2 h
      cases rest with
      | nil => simp [normalizeEol, hc]
      | cons c2 r2 => simp [normalizeEol, hc]]
    simp only [List.mem_cons, not_or]
    exact ⟨fun h => hne2 h.symm, ih⟩

theorem mem_normalizeEol {c : Char} : ∀ {l : Str}, c ∈ normalizeEol l → c ∈ l ∨ c = '\n' := by
  intro l
  induction l using normalizeEol.induct with
  | case1 => intro h; simp [normalizeEol] at h
  | case2 rest ih =>
    intro h
    simp only [normalizeEol, List.mem_cons] at h
    rcases h with rfl | h
    · exact Or.inr rfl
    · rcases ih h with h | h
      · exact Or.inl (by simp [h])
      · exact Or.inr h
  | case3 rest hne ih =>
    intro h
    rw [show normalizeEol ('\r' :: rest) = '\n' :: normalizeEol rest from by
      cases rest with
      | nil => rfl
      | cons c2 r2 =>
        by_cases h2 : c2 = '\n'
        · subst h2
          exact absurd rfl (by exact fun h => hne r2 h)
        · simp [normalizeEol, h2]] at h
    rcases List.mem_cons.mp h with rfl | h
    · exact Or.inr rfl
    · rcases ih h with h | h
      · exact Or.inl (by simp [h])
      · exact Or.inr h
  | case4 c2 rest hne1 hne2 ih =>
    intro h
    rw [show normalizeEol (c2 :: rest) = c2 :: normalizeEol rest from by
      have hc : c2 ≠ '\r' := fun h => hne2 h
      cases rest with
      | nil => simp [normalizeEol, hc]
      | cons c3 r3 => simp [normalizeEol, hc]] at h
    rcases List.mem_cons.mp h with rfl | h
    · exact Or.inl (by simp)
    · rcases ih h with h | h
      · exact Or.inl (by simp [h])
      · exact Or.inr h

theorem toNat_charOfNat {n : Nat} (h : n.isValidChar) : (Char.ofNat n).toNat = n := by
  simp [Char.ofNat, h, Char.ofNatAux, Char.toNat]
  rfl

theorem refChar_ne_nul {n : Nat} {c : Char} (h : refChar n = some c) : c ≠ nulChar := by
  simp only [refChar] at h
  split at h
  · next hcond =>
    cases h
    simp only [Bool.or_eq_true, Bool.and_eq_true, decide_eq_true_eq] at hcond
    have hval : n.isValidChar := by
      simp only [Nat.isValidChar]
      rcases hcond with ((((h | h) | h) | ⟨h1, h2⟩) | ⟨h1, h2⟩) | ⟨h1, h2⟩ <;> omega
    intro hc
    have h9 : 9 ≤ n := by
      rcases hcond with ((((h | h) | h) | ⟨h1, h2⟩) | ⟨h1, h2⟩) | ⟨h1, h2⟩ <;> omega
    have := toNat_charOfNat hval
    rw [hc] at this
    have h0 : nulChar.toNat = 0 := rfl
    omega
  · exact Option.noConfusion h

theorem readRef_ne_nul {cs rest : Str} {c : Char} (h : readRef cs = some (c, rest)) :
    c ≠ nulChar := by
  simp only [readRef] at h
  split at h
  · split at h
    · simp only [Option.map_eq_some', Option.bind_eq_some] at h
      obtain ⟨c', hc', hceq⟩ := h
      obtain ⟨n, -, hn⟩ := hc'
      cases hceq
      exact refChar_ne_nul hn
    · simp only [Option.map_eq_some', Option.bind_eq_some] at h
      obtain ⟨c', hc', hceq⟩ := h
      obtain ⟨n, -, hn⟩ := hc'
      cases hceq
      exact refChar_ne_nul hn
    · next nm _ _ =>
      simp only [Option.map_eq_some'] at h
      obtain ⟨c', hc', hceq⟩ := h
      cases hceq
      simp only [namedEntity] at hc'
      split_ifs at hc' <;> (cases hc'; decide)
  · exact Option.noConfusion h

theorem readRef_sub {cs rest : Str} {c : Char} (h : readRef cs = some (c, rest)) :
    rest ⊆ cs := by
  simp only [readRef] at h
  split at h
  · next heq =>
    have hdrop : List.dropWhile (fun c => !decide (c = ';')) cs ⊆ cs :=
      fun x hx => List.dropWhile_subset _ hx
    split at h <;>
      (simp only [Option.map_eq_some', Option.bind_eq_some] at h
       obtain ⟨c', hc', hceq⟩ := h
       cases hceq
       intro x hx
       exact hdrop (by rw [heq]; exact List.mem_cons_of_mem _ hx))
  · exact Option.noConfusion h

theorem pText_no_nul : ∀ (fuel : Nat) (acc cs t rest : Str),
    pText fuel acc cs = some (t, rest) → nulChar ∉ acc → nulChar ∉ cs → nulChar ∉ t
  | 0, acc, cs, t, rest, h, _, _ => by simp [pText] at h
  | fuel + 1, acc, [], t, rest, h, hacc, hcs => by
    simp only [pText, Option.some.injEq, Prod.mk.injEq] at h
    obtain ⟨rfl, -⟩ := h
    simpa using hacc
  | fuel + 1, acc, c :: cs', t, rest, h, hacc, hcs => by
    by_cases h1 : c = '<'
    · subst h1
      simp only [pText, Option.some.injEq, Prod.mk.injEq] at h
      obtain ⟨rfl, -⟩ := h
      simpa using hacc
    · by_cases h2 : c = '&'
      · subst h2
        simp only [pText] at h
        cases hr : readRef cs' with
        | none => rw [hr] at h; exact Option.noConfusion h
        | some pr =>
          obtain ⟨ch, rest'⟩ := pr
          rw [hr] at h
          refine pText_no_nul fuel (ch :: acc) rest' t rest h ?_ ?_
          · intro hm
            rcases List.mem_cons.mp hm with rfl | hm
            · exact readRef_ne_nul hr rfl
            · exact hacc hm
          · intro hm
            refine hcs (List.mem_cons_of_mem _ ?_)
            exact readRef_sub hr hm
      · rw [pText_step h1 h2] at h
        refine pText_no_nul fuel (c :: acc) cs' t rest h ?_ (fun hm => hcs (by simp [hm]))
        intro hm
        rcases List.mem_cons.mp hm with rfl | hm
        · exact hcs (by simp)
        · exact hacc hm

theorem pQuoted_no_nul : ∀ (fuel : Nat) (q : Char) (acc cs v rest : Str),
    pQuoted fuel q acc cs = some (v, rest) → nulChar ∉ acc → nulChar ∉ cs → nulChar ∉ v
  | 0, q, acc, cs, v, rest, h, _, _ => by simp [pQuoted] at h
  | fuel + 1, q, acc, [], v, rest, h, _, _ => by simp [pQuoted] at h
  | fuel + 1, q, acc, c :: cs', v, rest, h, hacc, hcs => by
    simp only [pQuoted] at h
    split at h
    · simp only [Option.some.injEq, Prod.mk.injEq] at h
      obtain ⟨rfl, -⟩ := h
      simpa using hacc
    · split at h
      · exact Option.noConfusion h
      · split at h
        · cases hr : readRef cs' with
          | none => rw [hr] at h; exact Option.noConfusion h
          | some pr =>
            obtain ⟨ch, rest'⟩ := pr
            rw [hr] at h
            refine pQuoted_no_nul fuel q (ch :: acc) rest' v rest h ?_ ?_
            · intro hm
              rcases List.mem_cons.mp hm with rfl | hm
              · exact readRef_ne_nul hr rfl
              · exact hacc hm
            · exact fun hm => hcs (List.mem_cons_of_mem _ (readRef_sub hr hm))
        · refine pQuoted_no_nul fuel q (c :: acc) cs' v rest h ?_
            (fun hm => hcs (by simp [hm]))
          intro hm
          rcases List.mem_cons.mp hm with rfl | hm
          · exact hcs (by simp)
          · exact hacc hm

theorem pComment_nil (f : Nat) (acc : Str) : pComment f acc [] = none := by
  cases f <;> simp [pComment]

theorem pComment_fwd : ∀ (fuel : Nat) (acc cs out rest : Str),
    pComment fuel acc cs = some (out, rest) →
    ∃ c, out = acc.reverse ++ c ∧ cs = c ++ '-' :: '-' :: '>' :: rest ∧
      hasSub3 '-' '-' '>' c = false
  | 0, acc, cs, out, rest, h => by simp [pComment] at h
  | fuel + 1, acc, [], out, rest, h => by simp [pComment] at h
  | fuel + 1, acc, [x], out, rest, h => by
    rw [show pComment (fuel + 1) acc [x] = pComment fuel (x :: acc) [] from by
      simp [pComment], pComment_nil] at h
    exact Option.noConfusion h
  | fuel + 1, acc, [x, y], out, rest, h => by
    rw [show pComment (fuel + 1) acc [x, y] = pComment fuel (x :: acc) [y] from by
      simp [pComment]] at h
    cases fuel with
    | zero => simp [pComment] at h
    | succ f =>
      rw [show pComment (f + 1) (x :: acc) [y] = pComment f (y :: x :: acc) [] from by
        simp [pComment], pComment_nil] at h
      exact Option.noConfusion h
  | fuel + 1, acc, x :: y :: z :: w, out, rest, h => by
    by_cases hp : x = '-' ∧ y = '-' ∧ z = '>'
    · obtain ⟨rfl, rfl, rfl⟩ := hp
      simp only [pComment, Option.some.injEq, Prod.mk.injEq] at h
      obtain ⟨rfl, rfl⟩ := h
      exact ⟨[], by simp, rfl, rfl⟩
    · rw [pComment_step hp] at h
      obtain ⟨c', hout, heq, hsub⟩ := pComment_fwd fuel (x :: acc) (y :: z :: w) out rest h
      refine ⟨x :: c', by simp [hout], by simp [heq], ?_⟩
      cases c' with
      | nil => rfl
      | cons y' c'' =>
        cases c'' with
        | nil => rfl
        | cons z' c''' =>
          simp only [List.cons_append, List.cons.injEq] at heq
          obtain ⟨hy, hz, -⟩ := heq
          subst hy; subst hz
          simp only [hasSub3, hsub, Bool.or_false]
          rw [Bool.eq_false_iff]
          intro hT
          simp only [Bool.and_eq_true, decide_eq_true_eq] at hT
          exact hp ⟨hT.1.1, hT.1.2, hT.2⟩

theorem pPITail_nil (f : Nat) (acc : Str) : pPITail f acc [] = none := by
  cases f <;> simp [pPITail]

theorem pPITail_fwd : ∀ (fuel : Nat) (acc cs out rest : Str),
    pPITail fuel acc cs = some (out, rest) →
    ∃ d, out = acc.reverse ++ d ∧ cs = d ++ '?' :: '>' :: rest ∧
      hasSub2 '?' '>' d = false
  | 0, acc, cs, out, rest, h => by simp [pPITail] at h
  | fuel + 1, acc, [], out, rest, h => by simp [pPITail] at h
  | fuel + 1, acc, [x], out, rest, h => by
    rw [show pPITail (fuel + 1) acc [x] = pPITail fuel (x :: acc) [] from by
      simp [pPITail], pPITail_nil] at h
    exact Option.noConfusion h
  | fuel + 1, acc, x :: y :: w, out, rest, h => by
    by_cases hp : x = '?' ∧ y = '>'
    · obtain ⟨rfl, rfl⟩ := hp
      simp only [pPITail, Option.some.injEq, Prod.mk.injEq] at h
      obtain ⟨rfl, rfl⟩ := h
      exact ⟨[], by simp, rfl, rfl⟩
    · rw [pPITail_step hp] at h
      obtain ⟨d', hout, heq, hsub⟩ := pPITail_fwd fuel (x :: acc) (y :: w) out rest h
      refine ⟨x :: d', by simp [hout], by simp [heq], ?_⟩
      cases d' with
      | nil => rfl
      | cons y' d'' =>
        simp only [List.cons_append, List.cons.injEq] at heq
        obtain ⟨hy, -⟩ := heq
        subst hy
        simp only [hasSub2, hsub, Bool.or_false]
        rw [Bool.eq_false_iff]
        intro hT
        simp only [Bool.and_eq_true, decide_eq_true_eq] at hT
        exact hp ⟨hT.1, hT.2⟩

theorem dropWhile_head_false {p : Char → Bool} :
    ∀ {l : Str} {c : Char}, (l.dropWhile p).head? = some c → p c = false := by
  intro l
  induction l with
  | nil => intro c h; simp [List.dropWhile] at h
  | cons a l ih =>
    intro c h
    by_cases ha : p a
    · rw [List.dropWhile_cons_of_pos ha] at h
      exact ih h
    · rw [List.dropWhile_cons_of_neg ha] at h
      cases h
      exact Bool.eq_false_iff.mpr ha

theorem readNCName_sub {cs n rest : Str} (h : readNCName cs = some (n, rest)) : rest ⊆ cs := by
  cases cs with
  | nil => simp [readNCName] at h
  | cons c r =>
    simp only [readNCName] at h
    split at h
    · cases h
      exact fun x hx => List.mem_cons_of_mem _ (List.dropWhile_subset _ hx)
    · exact Option.noConfusion h

theorem pText_sub : ∀ (fuel : Nat) (acc cs t rest : Str),
    pText fuel acc cs = some (t, rest) → rest ⊆ cs
  | 0, acc, cs, t, rest, h => by simp [pText] at h
  | fuel + 1, acc, [], t, rest, h => by
    simp only [pText, Option.some.injEq, Prod.mk.injEq] at h
    obtain ⟨-, rfl⟩ := h
    exact fun x hx => hx
  | fuel + 1, acc, c :: cs', t, rest, h => by
    by_cases h1 : c = '<'
    · subst h1
      simp only [pText, Option.some.injEq, Prod.mk.injEq] at h
      obtain ⟨-, rfl⟩ := h
      exact fun x hx => hx
    · by_cases h2 : c = '&'
      · subst h2
        simp only [pText] at h
        cases hr : readRef cs' with
        | none => rw [hr] at h; exact Option.noConfusion h
        | some pr =>
          obtain ⟨ch, rest'⟩ := pr
          rw [hr] at h
          exact fun x hx => List.mem_cons_of_mem _
            (readRef_sub hr (pText_sub fuel (ch :: acc) rest' t rest h hx))
      · rw [pText_step h1 h2] at h
        exact fun x hx => List.mem_cons_of_mem _ (pText_sub fuel (c :: acc) cs' t rest h hx)

theorem pQuoted_sub : ∀ (fuel : Nat) (q : Char) (acc cs v rest : Str),
    pQuoted fuel q acc cs = some (v, rest) → rest ⊆ cs
  | 0, q, acc, cs, v, rest, h => by simp [pQuoted] at h
  | fuel + 1, q, acc, [], v, rest, h => by simp [pQuoted] at h
  | fuel + 1, q, acc, c :: cs', v, rest, h => by
    simp only [pQuoted] at h
    split at h
    · simp only [Option.some.injEq, Prod.mk.injEq] at h
      obtain ⟨-, rfl⟩ := h
      exact fun x hx => List.mem_cons_of_mem _ hx
    · split at h
      · exact Option.noConfusion h
      · split at h
        · cases hr : readRef cs' with
          | none => rw [hr] at h; exact Option.noConfusion h
          | some pr =>
            obtain ⟨ch, rest'⟩ := pr
            rw [hr] at h
            exact fun x hx => List.mem_cons_of_mem _
              (readRef_sub hr (pQuoted_sub fuel q (ch :: acc) rest' v rest h hx))
        · exact fun x hx => List.mem_cons_of_mem _
            (pQuoted_sub fuel q (c :: acc) cs' v rest h hx)



theorem readQName_sub {cs : Str} {qn : QName} {rest : Str}
    (h : readQName cs = some (qn, rest)) : rest ⊆ cs := by
  simp only [readQName, bind, Option.bind_eq_some] at h
  obtain ⟨⟨n1, cs1⟩, h1, h⟩ := h
  have hs1 := readNCName_sub h1
  split at h
  · next cs1' rst heq =>
    have heq' : cs1 = ':' :: rst := heq
    simp only [bind, Option.bind_eq_some] at h
    obtain ⟨⟨n2, cs2⟩, h2, h⟩ := h
    simp only [Option.pure_def, Option.some.injEq, Prod.mk.injEq] at h
    obtain ⟨-, rfl⟩ := h
    intro x hx
    exact hs1 (by rw [heq']; exact List.mem_cons_of_mem _ (readNCName_sub h2 hx))
  · next cs1' hne =>
    simp only [Option.pure_def, Option.some.injEq, Prod.mk.injEq] at h
    obtain ⟨-, hrest⟩ := h
    intro x hx
    have hc : cs1 = rest := hrest
    rw [hc] at hs1
    exact hs1 hx

theorem pPI_sub {fuel : Nat} {cs : Str} {x : XNode} {rest : Str}
    (h : pPI fuel cs = some (x, rest)) : rest ⊆ cs := by
  simp only [pPI, bind, Option.bind_eq_some] at h
  obtain ⟨⟨t, cs1⟩, h1, h⟩ := h
  have hs1 := readNCName_sub h1
  split at h
  · exact Option.noConfusion h
  split at h
  · next a b heq =>
    have heq' : cs1 = '?' :: '>' :: b := heq
    simp only [Option.pure_def, Option.some.injEq, Prod.mk.injEq] at h
    obtain ⟨-, rfl⟩ := h
    intro y hy
    exact hs1 (by rw [heq']; simp [hy])
  · next cs1' a b hne heq =>
    have heq' : cs1 = a :: b := heq
    split at h
    · simp only [bind, Option.bind_eq_some] at h
      obtain ⟨⟨d, cs2⟩, h2, h⟩ := h
      simp only [Option.pure_def, Option.some.injEq, Prod.mk.injEq] at h
      obtain ⟨-, rfl⟩ := h
      obtain ⟨d', -, heq2, -⟩ := pPITail_fwd _ _ _ _ _ h2
      intro y hy
      refine hs1 ?_
      rw [heq']
      refine List.dropWhile_subset isXmlSpace ?_
      rw [heq2]
      simp [hy]
    · exact Option.noConfusion h
  · exact Option.noConfusion h

theorem pAttrs_sub : ∀ (fuel : Nat) (ns0 : List (Str × Str)) (attrs0 : List XAttr) (cs : Str)
    (ns : List (Str × Str)) (attrs : List XAttr) (sc : Bool) (rest : Str),
    pAttrs fuel ns0 attrs0 cs = some (ns, attrs, sc, rest) → rest ⊆ cs
  | 0, ns0, attrs0, cs, ns, attrs, sc, rest, h => by simp [pAttrs] at h
  | fuel + 1, ns0, attrs0, cs, ns, attrs, sc, rest, h => by
    simp only [pAttrs] at h
    split at h
    · next r1 heq =>
      simp only [Option.some.injEq, Prod.mk.injEq] at h
      obtain ⟨-, -, -, rfl⟩ := h
      intro x hx
      exact List.dropWhile_subset isXmlSpace (by rw [heq]; exact List.mem_cons_of_mem _ hx)
    · next r1 heq =>
      simp only [Option.some.injEq, Prod.mk.injEq] at h
      obtain ⟨-, -, -, rfl⟩ := h
      intro x hx
      exact List.dropWhile_subset isXmlSpace (by
        rw [heq]; exact List.mem_cons_of_mem _ (List.mem_cons_of_mem _ hx))
    · next cs' hne1 hne2 =>
      simp only [bind, Option.bind_eq_some] at h
      obtain ⟨⟨qn, cs1⟩, h1, h⟩ := h
      have hs1 : cs1 ⊆ cs := (readQName_sub h1).trans (List.dropWhile_subset isXmlSpace)
      split at h
      · next cs3 heq3 =>
        have hs3 : cs3 ⊆ cs1 := by
          intro x hx
          exact List.dropWhile_subset isXmlSpace (by rw [heq3]; exact List.mem_cons_of_mem _ hx)
        split at h
        · next q cs5 heq5 =>
          have hs5 : cs5 ⊆ cs3 := by
            intro x hx
            exact List.dropWhile_subset isXmlSpace (by
              rw [heq5]; exact List.mem_cons_of_mem _ hx)
          split at h
          · simp only [bind, Option.bind_eq_some] at h
            obtain ⟨⟨v, cs6⟩, h2, h⟩ := h
            have hs6 : cs6 ⊆ cs5 := pQuoted_sub _ _ _ _ _ _ h2
            have hchain : cs6 ⊆ cs := hs6.trans (hs5.trans (hs3.trans hs1))
            split at h
            · split at h
              · exact Option.noConfusion h
              · split at h
                · exact Option.noConfusion h
                · exact (pAttrs_sub fuel _ _ _ _ _ _ _ h).trans hchain
            · split at h
              · exact Option.noConfusion h
              · exact (pAttrs_sub fuel _ _ _ _ _ _ _ h).trans hchain
          · exact Option.noConfusion h
        · exact Option.noConfusion h
      · exact Option.noConfusion h

theorem nodupKeysNs_iff {l : List (Str × Str)} :
    nodupKeysNs l = true ↔ l.Pairwise (fun a b => ¬(b.1 = a.1)) := by
  induction l with
  | nil => simp [nodupKeysNs]
  | cons e rest ih =>
    simp only [nodupKeysNs, Bool.and_eq_true, Bool.not_eq_true', List.any_eq_false,
      List.pairwise_cons, ih, decide_eq_false_iff_not, decide_eq_true_eq]

theorem nodupKeysNs_reverse {l : List (Str × Str)} :
    nodupKeysNs l.reverse = true ↔ nodupKeysNs l = true := by
  rw [nodupKeysNs_iff, nodupKeysNs_iff, List.pairwise_reverse]
  constructor
  · intro h
    exact h.imp (fun hab => fun he => hab he.symm)
  · intro h
    exact h.imp (fun hab => fun he => hab he.symm)

theorem nodupQNames_iff {l : List XAttr} :
    nodupQNames l = true ↔ l.Pairwise (fun a b => ¬(b.name = a.name)) := by
  induction l with
  | nil => simp [nodupQNames]
  | cons e rest ih =>
    simp only [nodupQNames, Bool.and_eq_true, Bool.not_eq_true', List.any_eq_false,
      List.pairwise_cons, ih, decide_eq_false_iff_not, decide_eq_true_eq]

theorem nodupQNames_reverse {l : List XAttr} :
    nodupQNames l.reverse = true ↔ nodupQNames l = true := by
  rw [nodupQNames_iff, nodupQNames_iff, List.pairwise_reverse]
  constructor
  · intro h
    exact h.imp (fun hab => fun he => hab he.symm)
  · intro h
    exact h.imp (fun hab => fun he => hab he.symm)

theorem nulFreeL_of_not_mem {s : Str} (h : nulChar ∉ s) : nulFreeL s = true := by
  simp [nulFreeL]
  exact h

theorem not_mem_of_nulFreeL {s : Str} (h : nulFreeL s = true) : nulChar ∉ s := by
  simpa [nulFreeL] using h

/-- The per-entry invariant of a parsed namespace declaration. -/
def nsEntryInv (e : Str × Str) : Bool :=
  (e.1.isEmpty || goodNC e.1) && (e.1.isEmpty || !e.2.isEmpty) && nulFreeL e.2

/-- The per-attribute invariant of a parsed attribute. -/
def attrEntryInv (a : XAttr) : Bool :=
  goodQ a.name && (declOf a.name).isNone && nulFreeL a.value

theorem pAttrs_inv_fwd : ∀ (fuel : Nat) (ns0 : List (Str × Str)) (attrs0 : List XAttr)
    (cs : Str) (ns : List (Str × Str)) (attrs : List XAttr) (sc : Bool) (rest : Str),
    pAttrs fuel ns0 attrs0 cs = some (ns, attrs, sc, rest) → nulChar ∉ cs →
    (∀ e ∈ ns0, nsEntryInv e = true) → (∀ a ∈ attrs0, attrEntryInv a = true) →
    nodupKeysNs ns0 = true → nodupQNames attrs0 = true →
    (∀ e ∈ ns, nsEntryInv e = true) ∧ (∀ a ∈ attrs, attrEntryInv a = true) ∧
    nodupKeysNs ns = true ∧ nodupQNames attrs = true
  | 0, ns0, attrs0, cs, ns, attrs, sc, rest, h, _, _, _, _, _ => by simp [pAttrs] at h
  | fuel + 1, ns0, attrs0, cs, ns, attrs, sc, rest, h, hnul, hns0, hattrs0, hnd, hnq => by
    simp only [pAttrs] at h
    split at h
    · simp only [Option.some.injEq, Prod.mk.injEq] at h
      obtain ⟨hn, ha, -, -⟩ := h
      subst hn; subst ha
      refine ⟨fun e he => hns0 e (List.mem_reverse.mp he),
        fun a ha => hattrs0 a (List.mem_reverse.mp ha),
        nodupKeysNs_reverse.mpr hnd, nodupQNames_reverse.mpr hnq⟩
    · simp only [Option.some.injEq, Prod.mk.injEq] at h
      obtain ⟨hn, ha, -, -⟩ := h
      subst hn; subst ha
      refine ⟨fun e he => hns0 e (List.mem_reverse.mp he),
        fun a ha => hattrs0 a (List.mem_reverse.mp ha),
        nodupKeysNs_reverse.mpr hnd, nodupQNames_reverse.mpr hnq⟩
    · next cs' hne1 hne2 =>
      simp only [bind, Option.bind_eq_some] at h
      obtain ⟨⟨qn, cs1⟩, h1, h⟩ := h
      have hq := readQName_goodQ h1
      have hs1 : cs1 ⊆ cs := (readQName_sub h1).trans (List.dropWhile_subset isXmlSpace)
      split at h
      · next cs3 heq3 =>
        have hs3 : cs3 ⊆ cs1 := by
          intro x hx
          exact List.dropWhile_subset isXmlSpace (by rw [heq3]; exact List.mem_cons_of_mem _ hx)
        split at h
        · next q cs5 heq5 =>
          have hs5 : cs5 ⊆ cs3 := by
            intro x hx
            exact List.dropWhile_subset isXmlSpace (by
              rw [heq5]; exact List.mem_cons_of_mem _ hx)
          split at h
          · simp only [bind, Option.bind_eq_some] at h
            obtain ⟨⟨v, cs6⟩, h2, h⟩ := h
            have hnul5 : nulChar ∉ cs5 := fun hx => hnul (hs1 (hs3 (hs5 hx)))
            have hvnul : nulChar ∉ v := pQuoted_no_nul _ _ _ _ _ _ h2 (by simp) hnul5
            have hnul6 : nulChar ∉ cs6 := fun hx => hnul5 (pQuoted_sub _ _ _ _ _ _ h2 hx)
            split at h
            · next p hdecl =>
              split at h
              · exact Option.noConfusion h
              · next hdup =>
                split at h
                · exact Option.noConfusion h
                · next hemp =>
                  refine pAttrs_inv_fwd fuel _ _ _ _ _ _ _ h hnul6 ?_ hattrs0 ?_ hnq
                  · intro e he
                    rcases List.mem_cons.mp he with rfl | he'
                    · have hok : nsDeclOK (p, v) = true := declOf_nsDeclOK hdecl hq v
                      have hev : (!p.isEmpty && v.isEmpty) = false := by
                        rw [Bool.eq_false_iff]
                        intro hT
                        exact hemp hT
                      have hev' : (p.isEmpty || !v.isEmpty) = true := by
                        rw [show (p.isEmpty || !v.isEmpty) = !(!p.isEmpty && v.isEmpty) from by
                          cases p.isEmpty <;> cases v.isEmpty <;> rfl, hev]
                        rfl
                      simp only [nsEntryInv, Bool.and_eq_true]
                      exact ⟨⟨hok, hev'⟩, nulFreeL_of_not_mem hvnul⟩
                    · exact hns0 e he'
                  · have hdup' : (ns0.any fun e => decide (e.1 = p)) = false := by
                      rw [Bool.eq_false_iff]
                      intro hT
                      exact hdup hT
                    simp only [nodupKeysNs, Bool.and_eq_true]
                    exact ⟨by simpa using hdup', hnd⟩
            · next hdecl =>
              split at h
              · exact Option.noConfusion h
              · next hdup =>
                refine pAttrs_inv_fwd fuel _ _ _ _ _ _ _ h hnul6 hns0 ?_ hnd ?_
                · intro a ha
                  rcases List.mem_cons.mp ha with rfl | ha'
                  · simp only [attrEntryInv, Bool.and_eq_true]
                    refine ⟨⟨hq, ?_⟩, nulFreeL_of_not_mem hvnul⟩
                    rw [hdecl]
                    rfl
                  · exact hattrs0 a ha'
                · have hdup' : (attrs0.any fun a => decide (a.name = qn)) = false := by
                    rw [Bool.eq_false_iff]
                    intro hT
                    exact hdup hT
                  simp only [nodupQNames, Bool.and_eq_true]
                  exact ⟨by simpa using hdup', hnq⟩
          · exact Option.noConfusion h
        · exact Option.noConfusion h
      · exact Option.noConfusion h

theorem char_contains_eq_false {c : Char} {s : Str} (h : c ∉ s) : s.contains c = false := by
  simpa using h

theorem pPI_inv_fwd {fuel : Nat} {cs : Str} {x : XNode} {rest : Str}
    (h : pPI fuel cs = some (x, rest)) (hnul : nulChar ∉ cs) (hcr : '\r' ∉ cs) :
    nodeInv x = true := by
  simp only [pPI, bind, Option.bind_eq_some] at h
  obtain ⟨⟨t, cs1⟩, h1, h⟩ := h
  have ht := readNCName_goodNC h1
  have hs1 := readNCName_sub h1
  split at h
  · exact Option.noConfusion h
  next hxml =>
  split at h
  · next a b heq =>
    simp only [Option.pure_def, Option.some.injEq, Prod.mk.injEq] at h
    obtain ⟨rfl, -⟩ := h
    simp [nodeInv, ht, hxml, nulFreeL, show hasSub2 '?' '>' [] = false from rfl]
  · next cs1' a b hne heq =>
    have heq' : cs1 = a :: b := heq
    split at h
    · next hsp =>
      simp only [bind, Option.bind_eq_some] at h
      obtain ⟨⟨d, cs2⟩, h2, h⟩ := h
      simp only [Option.pure_def, Option.some.injEq, Prod.mk.injEq] at h
      obtain ⟨rfl, -⟩ := h
      obtain ⟨d0, hout, heq2, hsub⟩ := pPITail_fwd _ _ _ _ _ h2
      simp only [List.reverse_nil, List.nil_append] at hout
      subst hout
      have hdsub : d ⊆ cs := by
        intro y hy
        refine hs1 ?_
        rw [heq']
        refine List.dropWhile_subset isXmlSpace ?_
        rw [heq2]
        simp [hy]
      have hdcr : (d.contains '\r') = false := char_contains_eq_false (fun hm => hcr (hdsub hm))
      simp only [nodeInv, Bool.and_eq_true]
      refine ⟨⟨⟨⟨⟨ht, by simp [hxml]⟩, by simp [hsub]⟩, by simpa using hdcr⟩,
        nulFreeL_of_not_mem (fun hm => hnul (hdsub hm))⟩, ?_⟩
      clear hsub hdsub hdcr h2
      cases d with
      | nil => rfl
      | cons c d1 =>
        have hhead : ((a :: b).dropWhile isXmlSpace).head? = some c := by
          rw [heq2]
          rfl
        simp only [Bool.not_eq_true']
        exact dropWhile_head_false hhead
    · exact Option.noConfusion h
  · exact Option.noConfusion h

theorem listInv_cons {c : XNode} {l : List XNode} (hc : nodeInv c = true)
    (hl : listInv l = true)
    (h : ∀ c', l.head? = some c' → (isTextNode c && isTextNode c') = false) :
    listInv (c :: l) = true := by
  cases l with
  | nil => exact hc
  | cons c' l' =>
    rw [show listInv (c :: c' :: l') =
      (nodeInv c && !(isTextNode c && isTextNode c') && listInv (c' :: l')) from rfl]
    simp [hc, hl, h c' rfl]


theorem pPI_procInst {fuel : Nat} {cs : Str} {x : XNode} {rest : Str}
    (h : pPI fuel cs = some (x, rest)) : ∃ t d, x = XNode.procInst t d := by
  simp only [pPI, bind, Option.bind_eq_some] at h
  obtain ⟨⟨t, cs1⟩, h1, h⟩ := h
  split at h
  · exact Option.noConfusion h
  split at h
  · simp only [Option.pure_def, Option.some.injEq, Prod.mk.injEq] at h
    exact ⟨t, [], h.1.symm⟩
  · split at h
    · simp only [bind, Option.bind_eq_some] at h
      obtain ⟨⟨d, cs2⟩, h2, h⟩ := h
      simp only [Option.pure_def, Option.some.injEq, Prod.mk.injEq] at h
      exact ⟨t, d, h.1.symm⟩
    · exact Option.noConfusion h
  · exact Option.noConfusion h

theorem pElemContent_inv : ∀ fuel : Nat,
    (∀ cs x rest, nulChar ∉ cs → '\r' ∉ cs → pElement fuel cs = some (x, rest) →
      (nodeInv x = true ∧ isElemNode x = true) ∧ rest ⊆ cs) ∧
    (∀ cs xs rest, nulChar ∉ cs → '\r' ∉ cs → pContent fuel cs = some (xs, rest) →
      listInv xs = true ∧ rest ⊆ cs) := by
  intro fuel
  induction fuel with
  | zero =>
    constructor
    · intro cs x rest _ _ h
      simp [pElement] at h
    · intro cs xs rest _ _ h
      simp [pContent] at h
  | succ fuel ih =>
    obtain ⟨ihE, ihC⟩ := ih
    constructor
    · intro cs x rest hnul hcr h
      simp only [pElement, bind, Option.bind_eq_some] at h
      obtain ⟨⟨qn, cs1⟩, h1, h⟩ := h
      obtain ⟨⟨ns, attrs, sc, cs2⟩, h2, h⟩ := h
      have hq := readQName_goodQ h1
      have hs1 : cs1 ⊆ cs := readQName_sub h1
      have hnul1 : nulChar ∉ cs1 := fun hm => hnul (hs1 hm)
      obtain ⟨hnsI, hatI, hnsD, hatD⟩ :=
        pAttrs_inv_fwd _ _ _ _ _ _ _ _ h2 hnul1 (by simp) (by simp) rfl rfl
      have hs2 : cs2 ⊆ cs := (pAttrs_sub _ _ _ _ _ _ _ _ h2).trans hs1
      have hnsI' : (ns.all fun e =>
          (e.1.isEmpty || goodNC e.1) && (e.1.isEmpty || !e.2.isEmpty) && nulFreeL e.2) = true := by
        rw [List.all_eq_true]
        intro e he
        simpa [nsEntryInv] using hnsI e he
      have hatI' : (attrs.all fun a =>
          goodQ a.name && (declOf a.name).isNone && nulFreeL a.value) = true := by
        rw [List.all_eq_true]
        intro a ha
        simpa [attrEntryInv] using hatI a ha
      split at h
      · simp only [Option.pure_def, Option.some.injEq, Prod.mk.injEq] at h
        obtain ⟨hx, hr⟩ := h
        subst hr
        rw [← hx]
        refine ⟨⟨?_, rfl⟩, hs2⟩
        simp only [nodeInv, Bool.and_eq_true]
        exact ⟨⟨⟨⟨⟨hq, hnsI'⟩, hnsD⟩, hatI'⟩, hatD⟩, rfl⟩
      · simp only [bind, Option.bind_eq_some] at h
        obtain ⟨⟨children, cs3⟩, h3, h⟩ := h
        obtain ⟨⟨qn2, cs4⟩, h4, h⟩ := h
        have hcr2 : '\r' ∉ cs2 := fun hm => hcr (hs2 hm)
        obtain ⟨hch, hs3⟩ := ihC _ _ _ (fun hm => hnul (hs2 hm)) hcr2 h3
        have hs4 : cs4 ⊆ cs := ((readQName_sub h4).trans hs3).trans hs2
        split at h
        · next r5 heq5 =>
          split at h
          · simp only [Option.pure_def, Option.some.injEq, Prod.mk.injEq] at h
            obtain ⟨hx, hr⟩ := h
            subst hr
            rw [← hx]
            refine ⟨⟨?_, rfl⟩, ?_⟩
            · simp only [nodeInv, Bool.and_eq_true]
              exact ⟨⟨⟨⟨⟨hq, hnsI'⟩, hnsD⟩, hatI'⟩, hatD⟩, hch⟩
            · intro y hy
              exact hs4 (List.dropWhile_subset isXmlSpace (by
                rw [heq5]; exact List.mem_cons_of_mem _ hy))
          · exact Option.noConfusion h
        · exact Option.noConfusion h
    · intro cs xs rest hnul hcr h
      simp only [pContent, bind, Option.bind_eq_some] at h
      obtain ⟨⟨txt, cs1⟩, h1, h⟩ := h
      have hs1 : cs1 ⊆ cs := pText_sub _ _ _ _ _ h1
      have htn : nulChar ∉ txt := pText_no_nul _ _ _ _ _ h1 (by simp) hnul
      have hpre : listInv (if txt.isEmpty then [] else [XNode.text txt]) = true := by
        split
        · rfl
        · next hne =>
          rw [show listInv [XNode.text txt] = nodeInv (XNode.text txt) from rfl]
          simp only [nodeInv, Bool.and_eq_true]
          exact ⟨by simpa using hne, nulFreeL_of_not_mem htn⟩
      split at h
      · next r1 heq =>
        have heq' : cs1 = '<' :: '/' :: r1 := heq
        simp only [Option.pure_def, Option.some.injEq, Prod.mk.injEq] at h
        obtain ⟨hx, hr⟩ := h
        subst hr
        rw [← hx]
        refine ⟨hpre, fun y hy => hs1 ?_⟩
        rw [heq']
        exact List.mem_cons_of_mem _ (List.mem_cons_of_mem _ hy)
      · next r2 heq =>
        have heq' : cs1 = '<' :: '!' :: '-' :: '-' :: r2 := heq
        simp only [bind, Option.bind_eq_some] at h
        obtain ⟨⟨cm, cs2⟩, h2, h⟩ := h
        obtain ⟨⟨more, cs3⟩, h3, h⟩ := h
        simp only [Option.pure_def, Option.some.injEq, Prod.mk.injEq] at h
        obtain ⟨hx, hr⟩ := h
        subst hr
        obtain ⟨c', hout, heqc, hsubc⟩ := pComment_fwd _ _ _ _ _ h2
        simp only [List.reverse_nil, List.nil_append] at hout
        subst hout
        have hcsub : ∀ y, y ∈ cm ∨ y ∈ cs2 → y ∈ cs := by
          intro y hy
          refine hs1 ?_
          rw [heq']
          refine List.mem_cons_of_mem _ (List.mem_cons_of_mem _ (List.mem_cons_of_mem _
            (List.mem_cons_of_mem _ ?_)))
          rw [heqc]
          rcases hy with hy | hy
          · simp [hy]
          · simp [hy]
        have hnul2 : nulChar ∉ cs2 := fun hm => hnul (hcsub _ (Or.inr hm))
        have hcr2 : '\r' ∉ cs2 := fun hm => hcr (hcsub _ (Or.inr hm))
        obtain ⟨hmore, hs3⟩ := ihC _ _ _ hnul2 hcr2 h3
        have hcmInv : nodeInv (XNode.comment cm) = true := by
          simp only [nodeInv, Bool.and_eq_true]
          refine ⟨⟨by simp [hsubc], ?_⟩,
            nulFreeL_of_not_mem (fun hm => hnul (hcsub _ (Or.inl hm)))⟩
          simp only [Bool.not_eq_true']
          exact char_contains_eq_false (fun hm => hcr (hcsub _ (Or.inl hm)))
        rw [← hx]
        refine ⟨?_, fun y hy => hcsub y (Or.inr (hs3 hy))⟩
        by_cases he : txt.isEmpty
        · simp only [he, if_true, List.nil_append]
          refine listInv_cons hcmInv hmore ?_
          intro c' _
          rfl
        · simp only [he, Bool.false_eq_true, if_false]
          rw [show (if (txt.isEmpty : Bool) then ([] : List XNode) else [XNode.text txt])
            = [XNode.text txt] from by simp [he]] at hpre
          rw [show [XNode.text txt] ++ XNode.comment cm :: more
            = XNode.text txt :: XNode.comment cm :: more from rfl]
          refine listInv_cons hpre (listInv_cons hcmInv hmore ?_) ?_
          · intro c' _
            rfl
          · intro c' hc'
            cases hc'
            rfl
      · next r3 heq =>
        have heq' : cs1 = '<' :: '?' :: r3 := heq
        simp only [bind, Option.bind_eq_some] at h
        obtain ⟨⟨pn, cs2⟩, h2, h⟩ := h
        obtain ⟨⟨more, cs3⟩, h3, h⟩ := h
        simp only [Option.pure_def, Option.some.injEq, Prod.mk.injEq] at h
        obtain ⟨hx, hr⟩ := h
        subst hr
        have hr3sub : ∀ y, y ∈ r3 → y ∈ cs := by
          intro y hy
          refine hs1 ?_
          rw [heq']
          exact List.mem_cons_of_mem _ (List.mem_cons_of_mem _ hy)
        have hpisub : ∀ y, y ∈ cs2 → y ∈ cs := fun y hy => hr3sub _ (pPI_sub h2 hy)
        have hnulp : nulChar ∉ cs2 := fun hm => hnul (hpisub _ hm)
        have hcrp : '\r' ∉ cs2 := fun hm => hcr (hpisub _ hm)
        obtain ⟨hmore, hs3⟩ := ihC _ _ _ hnulp hcrp h3
        have hpiInv : nodeInv pn = true :=
          pPI_inv_fwd h2 (fun hm => hnul (hr3sub _ hm)) (fun hm => hcr (hr3sub _ hm))
        have hpiT : isTextNode pn = false := by
          obtain ⟨t, d, rfl⟩ := pPI_procInst h2
          rfl
        rw [← hx]
        refine ⟨?_, fun y hy => hpisub _ (hs3 hy)⟩
        by_cases he : txt.isEmpty
        · simp only [he, if_true, List.nil_append]
          refine listInv_cons hpiInv hmore ?_
          intro c' _
          simp [hpiT]
        · simp only [he, Bool.false_eq_true, if_false]
          rw [show (if (txt.isEmpty : Bool) then ([] : List XNode) else [XNode.text txt])
            = [XNode.text txt] from by simp [he]] at hpre
          rw [show [XNode.text txt] ++ pn :: more = XNode.text txt :: pn :: more from rfl]
          refine listInv_cons hpre (listInv_cons hpiInv hmore ?_) ?_
          · intro c' _
            simp [hpiT]
          · intro c' hc'
            cases hc'
            simp [hpiT]
      · next a hn1 hn2 hn3 heq =>
        have heq' : cs1 = '<' :: a := heq
        simp only [bind, Option.bind_eq_some] at h
        obtain ⟨⟨el, cs2⟩, h2, h⟩ := h
        obtain ⟨⟨more, cs3⟩, h3, h⟩ := h
        simp only [Option.pure_def, Option.some.injEq, Prod.mk.injEq] at h
        obtain ⟨hx, hr⟩ := h
        subst hr
        have hasub : ∀ y, y ∈ a → y ∈ cs := by
          intro y hy
          refine hs1 ?_
          rw [heq']
          exact List.mem_cons_of_mem _ hy
        obtain ⟨⟨helInv, helE⟩, hsE⟩ := ihE _ _ _ (fun hm => hnul (hasub _ hm))
          (fun hm => hcr (hasub _ hm)) h2
        have hnul2 : nulChar ∉ cs2 := fun hm => hnul (hasub _ (hsE hm))
        have hcr2 : '\r' ∉ cs2 := fun hm => hcr (hasub _ (hsE hm))
        obtain ⟨hmore, hs3⟩ := ihC _ _ _ hnul2 hcr2 h3
        have helT : isTextNode el = false := by
          cases el with
          | text s => simp [isElemNode] at helE
          | elem n d a c => rfl
          | comment s => simp [isElemNode] at helE
          | procInst t d => rfl
        rw [← hx]
        refine ⟨?_, fun y hy => hasub _ (hsE (hs3 hy))⟩
        by_cases he : txt.isEmpty
        · simp only [he, if_true, List.nil_append]
          refine listInv_cons helInv hmore ?_
          intro c' _
          simp [helT]
        · simp only [he, Bool.false_eq_true, if_false]
          rw [show (if (txt.isEmpty : Bool) then ([] : List XNode) else [XNode.text txt])
            = [XNode.text txt] from by simp [he]] at hpre
          rw [show [XNode.text txt] ++ el :: more = XNode.text txt :: el :: more from rfl]
          refine listInv_cons hpre (listInv_cons helInv hmore ?_) ?_
          · intro c' _
            simp [helT]
          · intro c' hc'
            cases hc'
            simp [helT]
      · exact Option.noConfusion h

theorem pMiscStar_inv : ∀ (fuel : Nat) (acc : List XNode) (cs : Str) (out : List XNode)
    (rest : Str), pMiscStar fuel acc cs = some (out, rest) →
    nulChar ∉ cs → '\r' ∉ cs →
    (∀ c ∈ acc, (miscNode c && nodeInv c) = true) →
    (∀ c ∈ out, (miscNode c && nodeInv c) = true) ∧ rest ⊆ cs
  | 0, acc, cs, out, rest, h, _, _, _ => by simp [pMiscStar] at h
  | fuel + 1, acc, cs, out, rest, h, hnul, hcr, hacc => by
    simp only [pMiscStar] at h
    split at h
    · next r2 heq =>
      simp only [bind, Option.bind_eq_some] at h
      obtain ⟨⟨cm, cs2⟩, h2, h⟩ := h
      obtain ⟨c', hout, heqc, hsubc⟩ := pComment_fwd _ _ _ _ _ h2
      simp only [List.reverse_nil, List.nil_append] at hout
      subst hout
      have hsub : ∀ y, y ∈ cm ∨ y ∈ cs2 → y ∈ cs := by
        intro y hy
        refine List.dropWhile_subset isXmlSpace ?_
        rw [heq]
        refine List.mem_cons_of_mem _ (List.mem_cons_of_mem _ (List.mem_cons_of_mem _
          (List.mem_cons_of_mem _ ?_)))
        rw [heqc]
        rcases hy with hy | hy
        · simp [hy]
        · simp [hy]
      have hcmInv : (miscNode (XNode.comment cm) && nodeInv (XNode.comment cm)) = true := by
        simp only [miscNode, nodeInv, Bool.true_and, Bool.and_eq_true]
        refine ⟨⟨by simp [hsubc], ?_⟩,
          nulFreeL_of_not_mem (fun hm => hnul (hsub _ (Or.inl hm)))⟩
        simp only [Bool.not_eq_true']
        exact char_contains_eq_false (fun hm => hcr (hsub _ (Or.inl hm)))
      obtain ⟨ho, hr⟩ := pMiscStar_inv fuel _ _ _ _ h
        (fun hm => hnul (hsub _ (Or.inr hm))) (fun hm => hcr (hsub _ (Or.inr hm)))
        (by
          intro c hc
          rcases List.mem_cons.mp hc with rfl | hc'
          · exact hcmInv
          · exact hacc c hc')
      exact ⟨ho, fun y hy => hsub _ (Or.inr (hr hy))⟩
    · next r3 heq =>
      simp only [bind, Option.bind_eq_some] at h
      obtain ⟨⟨pn, cs2⟩, h2, h⟩ := h
      have hr3sub : ∀ y, y ∈ r3 → y ∈ cs := by
        intro y hy
        refine List.dropWhile_subset isXmlSpace ?_
        rw [heq]
        exact List.mem_cons_of_mem _ (List.mem_cons_of_mem _ hy)
      have hpisub : ∀ y, y ∈ cs2 → y ∈ cs := fun y hy => hr3sub _ (pPI_sub h2 hy)
      have hpiInv : nodeInv pn = true :=
        pPI_inv_fwd h2 (fun hm => hnul (hr3sub _ hm)) (fun hm => hcr (hr3sub _ hm))
      have hpiM : miscNode pn = true := by
        obtain ⟨t, d, rfl⟩ := pPI_procInst h2
        rfl
      obtain ⟨ho, hr⟩ := pMiscStar_inv fuel _ _ _ _ h
        (fun hm => hnul (hpisub _ hm)) (fun hm => hcr (hpisub _ hm))
        (by
          intro c hc
          rcases List.mem_cons.mp hc with rfl | hc'
          · simp [hpiM, hpiInv]
          · exact hacc c hc')
      exact ⟨ho, fun y hy => hpisub _ (hr hy)⟩
    · simp only [Option.some.injEq, Prod.mk.injEq] at h
      obtain ⟨hx, hr⟩ := h
      subst hr
      refine ⟨?_, List.dropWhile_subset isXmlSpace⟩
      rw [← hx]
      intro c hc
      exact hacc c (List.mem_reverse.mp hc)

theorem skipXmlDecl_sub {cs rest : Str} (h : skipXmlDecl cs = some rest) : rest ⊆ cs := by
  simp only [skipXmlDecl] at h
  split at h
  · next c r =>
    split at h
    · simp only [Option.map_eq_some'] at h
      obtain ⟨⟨d, rr⟩, hd, hr⟩ := h
      obtain ⟨d0, -, heq, -⟩ := pPITail_fwd _ _ _ _ _ hd
      subst hr
      intro y hy
      refine List.mem_cons_of_mem _ (List.mem_cons_of_mem _ (List.mem_cons_of_mem _
        (List.mem_cons_of_mem _ (List.mem_cons_of_mem _ ?_))))
      rw [heq]
      simp [hy]
    · cases h
      exact fun y hy => hy
  · cases h
    exact fun y hy => hy

theorem normalizeEol_nul_free {l : Str} (h : nulChar ∉ l) : nulChar ∉ normalizeEol l := by
  intro hm
  rcases mem_normalizeEol hm with hm' | hm'
  · exact h hm'
  · exact absurd hm' (by decide)

theorem parseDocument_inv {s : String} {d : XmlDoc} (hnul : nulChar ∉ s.data)
    (h : parseDocument s = some d) : docInv d = true := by
  simp only [parseDocument, bind, Option.bind_eq_some] at h
  obtain ⟨cs1, h1, h⟩ := h
  have hnul0 : nulChar ∉ normalizeEol s.data := normalizeEol_nul_free hnul
  have hcr0 : '\r' ∉ normalizeEol s.data := normalizeEol_no_cr _
  have hs1 := skipXmlDecl_sub h1
  have hnul1 : nulChar ∉ cs1 := fun hm => hnul0 (hs1 hm)
  have hcr1 : '\r' ∉ cs1 := fun hm => hcr0 (hs1 hm)
  obtain ⟨⟨pre, cs2⟩, h2, h⟩ := h
  obtain ⟨hpre, hs2⟩ := pMiscStar_inv _ _ _ _ _ h2 hnul1 hcr1 (by simp)
  split at h
  · next r heq =>
    have heq' : cs2 = '<' :: r := heq
    simp only [bind, Option.bind_eq_some] at h
    obtain ⟨⟨root, cs3⟩, h3, h⟩ := h
    obtain ⟨⟨post, cs4⟩, h4, h⟩ := h
    have hrsub : ∀ y, y ∈ r → y ∈ cs1 := by
      intro y hy
      refine hs2 ?_
      rw [heq']
      exact List.mem_cons_of_mem _ hy
    obtain ⟨⟨hrootI, hrootE⟩, hs3⟩ := (pElemContent_inv _).1 _ _ _
      (fun hm => hnul1 (hrsub _ hm)) (fun hm => hcr1 (hrsub _ hm)) h3
    obtain ⟨hpost, hs4⟩ := pMiscStar_inv _ _ _ _ _ h4
      (fun hm => hnul1 (hrsub _ (hs3 hm))) (fun hm => hcr1 (hrsub _ (hs3 hm))) (by simp)
    split at h
    · simp only [Option.pure_def, Option.some.injEq] at h
      rw [← h]
      simp only [docInv, Bool.and_eq_true]
      refine ⟨⟨⟨?_, hrootI⟩, hrootE⟩, ?_⟩
      · simp only [miscInv, List.all_eq_true]
        exact hpre
      · simp only [miscInv, List.all_eq_true]
        exact hpost
    · exact Option.noConfusion h
  · exact Option.noConfusion h

/-! ## Idempotence (C8): namespace-context algebra -/

theorem insLe_perm {α : Type} (le : α → α → Bool) (a : α) :
    ∀ l : List α, (insLe le a l).Perm (a :: l)
  | [] => List.Perm.refl _
  | b :: bs => by
    simp only [insLe]
    split
    · exact List.Perm.refl _
    · exact ((insLe_perm le a bs).cons b).trans (List.Perm.swap a b bs)

theorem sortLe_perm {α : Type} (le : α → α → Bool) :
    ∀ l : List α, (sortLe le l).Perm l
  | [] => List.Perm.refl _
  | a :: as => (insLe_perm le a (sortLe le as)).trans ((sortLe_perm le as).cons a)

theorem nodupKeysNs_of_perm {l l' : List (Str × Str)} (hp : l.Perm l')
    (h : nodupKeysNs l = true) : nodupKeysNs l' = true := by
  rw [nodupKeysNs_iff] at h ⊢
  exact (List.Perm.pairwise_iff (fun hab => fun he => hab he.symm) hp).mp h

theorem lookupPfx_dedup (l : List (Str × Str)) (p : Str) :
    lookupPfx (dedupKeepFirst l) p = lookupPfx l p := by
  induction l with
  | nil => rfl
  | cons e rest ih =>
    by_cases hp : e.1 = p
    · simp [lookupPfx, dedupKeepFirst, List.find?, hp]
    · have h1 : lookupPfx (e :: rest) p = lookupPfx rest p := by
        simp [lookupPfx, List.find?, hp]
      have h2 : lookupPfx (dedupKeepFirst (e :: rest)) p =
          lookupPfx ((dedupKeepFirst rest).filter (fun e2 => !decide (e2.1 = e.1))) p := by
        simp [lookupPfx, dedupKeepFirst, List.find?, hp]
      rw [h1, h2, ← ih]
      simp only [lookupPfx]
      congr 1
      induction dedupKeepFirst rest with
      | nil => rfl
      | cons x xs ihx =>
        by_cases hx : x.1 = e.1
        · have hxp : ¬(x.1 = p) := by rw [hx]; exact hp
          simp [List.filter, hx, List.find?, hxp, hp, ihx]
        · by_cases hxp : x.1 = p
          · have hpe : ¬(p = e.1) := by rw [← hxp]; exact hx
            simp [List.filter, List.find?, hxp, hpe]
          · simp [List.filter, hx, List.find?, hxp, hp, ihx]

theorem mem_dedupKeepFirst_lookup : ∀ {l : List (Str × Str)} {e : Str × Str},
    e ∈ dedupKeepFirst l → lookupPfx l e.1 = some e.2
  | [], e, h => by simp [dedupKeepFirst] at h
  | x :: rest, e, h => by
    simp only [dedupKeepFirst, List.mem_cons] at h
    rcases h with rfl | h
    · simp [lookupPfx, List.find?]
    · have hmem := List.mem_filter.mp h
      have hne : ¬(e.1 = x.1) := by simpa using hmem.2
      have := mem_dedupKeepFirst_lookup hmem.1
      simp only [lookupPfx, List.find?, show (decide (x.1 = e.1)) = false from by
        simp; intro hx; exact hne hx.symm]
      exact this

theorem nodupKeysNs_dedupKeepFirst : ∀ l : List (Str × Str),
    nodupKeysNs (dedupKeepFirst l) = true
  | [] => rfl
  | x :: rest => by
    simp only [dedupKeepFirst, nodupKeysNs, Bool.and_eq_true]
    constructor
    · simp only [Bool.not_eq_true', List.any_eq_false]
      intro e he
      have := (List.mem_filter.mp he).2
      simpa using this
    · have hrest := nodupKeysNs_dedupKeepFirst rest
      rw [nodupKeysNs_iff] at hrest ⊢
      exact List.Pairwise.filter _ hrest

theorem dedupKeepFirst_append_nodup : ∀ {a b : List (Str × Str)}, nodupKeysNs a = true →
    ∃ z, dedupKeepFirst (a ++ b) = a ++ z ∧ ∀ e ∈ z, e ∈ dedupKeepFirst b
  | [], b, _ => ⟨dedupKeepFirst b, rfl, fun e he => he⟩
  | x :: a', b, h => by
    simp only [nodupKeysNs, Bool.and_eq_true, Bool.not_eq_true', List.any_eq_false] at h
    obtain ⟨hx, ha'⟩ := h
    obtain ⟨z, hz, hzm⟩ := dedupKeepFirst_append_nodup (a := a') (b := b) ha'
    refine ⟨z.filter (fun e2 => !decide (e2.1 = x.1)), ?_, ?_⟩
    · have hfa : List.filter (fun e2 => !decide (e2.1 = x.1)) a' = a' := by
        rw [List.filter_eq_self]
        intro e he
        simpa using hx e he
      rw [List.cons_append]
      rw [show dedupKeepFirst (x :: (a' ++ b))
        = x :: (dedupKeepFirst (a' ++ b)).filter (fun e2 => !decide (e2.1 = x.1)) from rfl]
      rw [hz, List.filter_append, hfa, List.cons_append]
    · intro e he
      exact hzm e (List.mem_filter.mp he).1

theorem lookupPfx_append_left {ns ctx : List (Str × Str)} {p u : Str}
    (hmem : (p, u) ∈ ns) (hnd : nodupKeysNs ns = true) :
    lookupPfx (ns ++ ctx) p = some u := by
  induction ns with
  | nil => simp at hmem
  | cons e rest ih =>
    simp only [nodupKeysNs, Bool.and_eq_true, Bool.not_eq_true', List.any_eq_false] at hnd
    obtain ⟨hx, hrest⟩ := hnd
    rcases List.mem_cons.mp hmem with rfl | hmem'
    · simp [lookupPfx, List.find?]
    · have hep : ¬(e.1 = p) := by
        intro hc
        have := hx _ hmem'
        simp at this
        exact this hc.symm
      simp only [List.cons_append, lookupPfx, List.find?,
        show (decide (e.1 = p)) = false from by simpa using hep]
      exact ih hmem' hrest

theorem lookupPfx_append_right {ns ctx : List (Str × Str)} {p : Str}
    (h : ∀ e ∈ ns, ¬(e.1 = p)) :
    lookupPfx (ns ++ ctx) p = lookupPfx ctx p := by
  induction ns with
  | nil => rfl
  | cons e rest ih =>
    simp only [List.cons_append, lookupPfx, List.find?,
      show (decide (e.1 = p)) = false from by simpa using h e (by simp)]
    exact ih (fun x hx => h x (List.mem_cons_of_mem _ hx))

theorem lookupPfx_eq_some_mem {l : List (Str × Str)} {p u : Str}
    (h : lookupPfx l p = some u) : (p, u) ∈ l := by
  simp only [lookupPfx, Option.map_eq_some'] at h
  obtain ⟨e, he, hu⟩ := h
  have h1 := List.find?_some he
  have h2 := List.mem_of_find?_eq_some he
  simp only [decide_eq_true_eq] at h1
  have : e = (p, u) := by
    obtain ⟨e1, e2⟩ := e
    simp only at h1 hu
    rw [h1, hu]
  rwa [this] at h2

theorem mem_nsToRender_iff {m : CanonicalizationMode} {incl : List Str}
    {scope ctx : List (Str × Str)} {name : QName} {attrs : List XAttr} {e : Str × Str} :
    e ∈ nsToRender m incl scope ctx name attrs ↔
    e ∈ dedupKeepFirst scope ∧
    ¬((lookupPfx ctx e.1).getD [] = e.2) ∧
    (m = CanonicalizationMode.ExclusiveCanonical1_0 →
      ((utilizedPfxs name attrs).contains e.1 || incl.contains e.1) = true) := by
  cases m with
  | ExclusiveCanonical1_0 =>
    simp only [nsToRender, List.mem_filter, Bool.and_eq_true, Bool.not_eq_true',
      decide_eq_false_iff_not]
    tauto
  | Canonical1_0 =>
    simp only [nsToRender, List.mem_filter, Bool.not_eq_true', decide_eq_false_iff_not]
    constructor
    · rintro ⟨h1, h2⟩
      exact ⟨h1, h2, by rintro ⟨⟩⟩
    · rintro ⟨h1, h2, -⟩
      exact ⟨h1, h2⟩
  | Canonical1_1 =>
    simp only [nsToRender, List.mem_filter, Bool.not_eq_true', decide_eq_false_iff_not]
    constructor
    · rintro ⟨h1, h2⟩
      exact ⟨h1, h2, by rintro ⟨⟩⟩
    · rintro ⟨h1, h2, -⟩
      exact ⟨h1, h2⟩

theorem nodupKeysNs_nsToRender {m : CanonicalizationMode} {incl : List Str}
    {scope ctx : List (Str × Str)} {name : QName} {attrs : List XAttr} :
    nodupKeysNs (nsToRender m incl scope ctx name attrs) = true := by
  have hd := nodupKeysNs_dedupKeepFirst scope
  rw [nodupKeysNs_iff] at hd ⊢
  cases m with
  | ExclusiveCanonical1_0 => exact List.Pairwise.filter _ hd
  | Canonical1_0 => exact List.Pairwise.filter _ hd
  | Canonical1_1 => exact List.Pairwise.filter _ hd

theorem nodupKeysNs_sorted_nsToRender {m : CanonicalizationMode} {incl : List Str}
    {scope ctx : List (Str × Str)} {name : QName} {attrs : List XAttr} :
    nodupKeysNs (sortLe nsLe (nsToRender m incl scope ctx name attrs)) = true :=
  nodupKeysNs_of_perm (sortLe_perm nsLe _).symm nodupKeysNs_nsToRender

theorem lookupPfx_render_transfer {m : CanonicalizationMode} {incl : List Str}
    {scope ctx : List (Str × Str)} {name : QName} {attrs : List XAttr} {p u : Str}
    (hlk : lookupPfx scope p = some u) (hu : ¬u = [])
    (hused : m = CanonicalizationMode.ExclusiveCanonical1_0 →
      ((utilizedPfxs name attrs).contains p || incl.contains p) = true) :
    lookupPfx (sortLe nsLe (nsToRender m incl scope ctx name attrs) ++ ctx) p = some u := by
  have hdl : lookupPfx (dedupKeepFirst scope) p = some u := by
    rw [lookupPfx_dedup]
    exact hlk
  have hmem : (p, u) ∈ dedupKeepFirst scope := lookupPfx_eq_some_mem hdl
  have huniq : ∀ e ∈ dedupKeepFirst scope, e.1 = p → e = (p, u) := by
    intro e he hep
    have hl := mem_dedupKeepFirst_lookup he
    rw [hep, hlk] at hl
    obtain ⟨e1, e2⟩ := e
    simp only at hep
    simp only [Option.some.injEq] at hl
    rw [hep, hl]
  by_cases hc : (lookupPfx ctx p).getD [] = u
  · have hctx : lookupPfx ctx p = some u := by
      cases hl : lookupPfx ctx p with
      | none =>
        rw [hl] at hc
        simp only [Option.getD_none] at hc
        exact absurd hc.symm hu
      | some w =>
        rw [hl] at hc
        simp only [Option.getD_some] at hc
        rw [hc]
    have hnone : ∀ e ∈ sortLe nsLe (nsToRender m incl scope ctx name attrs), ¬(e.1 = p) := by
      intro e he hep
      obtain ⟨h1, h2, -⟩ := mem_nsToRender_iff.mp ((mem_sortLe _ _ _).mp he)
      have := huniq e h1 hep
      subst this
      exact h2 hc
    rw [lookupPfx_append_right hnone]
    exact hctx
  · have hcond : (p, u) ∈ nsToRender m incl scope ctx name attrs :=
      mem_nsToRender_iff.mpr ⟨hmem, hc, hused⟩
    exact lookupPfx_append_left ((mem_sortLe _ _ _).mpr hcond) nodupKeysNs_sorted_nsToRender

theorem filterNs_roundtrip {cond : Str × Str → Bool} {ns ctx : List (Str × Str)}
    (hnd : nodupKeysNs ns = true)
    (hkeep : ∀ e ∈ ns, cond e = true)
    (hdrop : ∀ e, lookupPfx ctx e.1 = some e.2 → cond e = false) :
    (dedupKeepFirst (ns ++ ctx)).filter cond = ns := by
  obtain ⟨z, hz, hzm⟩ := dedupKeepFirst_append_nodup hnd
  rw [hz, List.filter_append, List.filter_eq_self.mpr hkeep]
  have hzn : z.filter cond = [] := by
    rw [List.filter_eq_nil_iff]
    intro e he
    simp [hdrop e (mem_dedupKeepFirst_lookup (hzm e he))]
  rw [hzn, List.append_nil]

theorem nsToRender_roundtrip {m : CanonicalizationMode} {incl : List Str}
    {scope ctx : List (Str × Str)} {name : QName} {attrs attrs2 : List XAttr}
    (hused : ∀ q, (utilizedPfxs name attrs2).contains q = (utilizedPfxs name attrs).contains q) :
    sortLe nsLe (nsToRender m incl
      (sortLe nsLe (nsToRender m incl scope ctx name attrs) ++ ctx) ctx name attrs2)
    = sortLe nsLe (nsToRender m incl scope ctx name attrs) := by
  have hnd : nodupKeysNs (sortLe nsLe (nsToRender m incl scope ctx name attrs)) = true :=
    nodupKeysNs_sorted_nsToRender
  have hmem1 : ∀ e ∈ sortLe nsLe (nsToRender m incl scope ctx name attrs),
      ¬((lookupPfx ctx e.1).getD [] = e.2) ∧
      (m = CanonicalizationMode.ExclusiveCanonical1_0 →
        ((utilizedPfxs name attrs).contains e.1 || incl.contains e.1) = true) := by
    intro e he
    obtain ⟨-, h2, h3⟩ := mem_nsToRender_iff.mp ((mem_sortLe _ _ _).mp he)
    exact ⟨h2, h3⟩
  have hsorted : sortLe nsLe (sortLe nsLe (nsToRender m incl scope ctx name attrs)) =
      sortLe nsLe (nsToRender m incl scope ctx name attrs) :=
    sortLe_of_pairwiseLe (pairwiseLe_sortLe nsLe_total (fun h1 h2 => nsLe_trans h1 h2) _)
  cases m with
  | ExclusiveCanonical1_0 =>
    rw [show nsToRender CanonicalizationMode.ExclusiveCanonical1_0 incl
        (sortLe nsLe (nsToRender CanonicalizationMode.ExclusiveCanonical1_0 incl
          scope ctx name attrs) ++ ctx) ctx name attrs2
      = (dedupKeepFirst (sortLe nsLe (nsToRender CanonicalizationMode.ExclusiveCanonical1_0 incl
          scope ctx name attrs) ++ ctx)).filter (fun e =>
        ((utilizedPfxs name attrs2).contains e.1 || incl.contains e.1) &&
          !decide ((lookupPfx ctx e.1).getD [] = e.2)) from rfl]
    rw [filterNs_roundtrip hnd ?hkeep ?hdrop]
    · exact hsorted
    case hkeep =>
      intro e he
      obtain ⟨h2, h3⟩ := hmem1 e he
      rw [Bool.and_eq_true]
      refine ⟨?_, by simp [h2]⟩
      rw [hused e.1]
      exact h3 rfl
    case hdrop =>
      intro e hl
      rw [hl]
      simp
  | Canonical1_0 =>
    rw [show nsToRender CanonicalizationMode.Canonical1_0 incl
        (sortLe nsLe (nsToRender CanonicalizationMode.Canonical1_0 incl
          scope ctx name attrs) ++ ctx) ctx name attrs2
      = (dedupKeepFirst (sortLe nsLe (nsToRender CanonicalizationMode.Canonical1_0 incl
          scope ctx name attrs) ++ ctx)).filter (fun e =>
        !decide ((lookupPfx ctx e.1).getD [] = e.2)) from rfl]
    rw [filterNs_roundtrip hnd ?hkeep2 ?hdrop2]
    · exact hsorted
    case hkeep2 =>
      intro e he
      simp [(hmem1 e he).1]
    case hdrop2 =>
      intro e hl
      rw [hl]
      simp
  | Canonical1_1 =>
    rw [show nsToRender CanonicalizationMode.Canonical1_1 incl
        (sortLe nsLe (nsToRender CanonicalizationMode.Canonical1_1 incl
          scope ctx name attrs) ++ ctx) ctx name attrs2
      = (dedupKeepFirst (sortLe nsLe (nsToRender CanonicalizationMode.Canonical1_1 incl
          scope ctx name attrs) ++ ctx)).filter (fun e =>
        !decide ((lookupPfx ctx e.1).getD [] = e.2)) from rfl]
    rw [filterNs_roundtrip hnd ?hkeep3 ?hdrop3]
    · exact hsorted
    case hkeep3 =>
      intro e he
      simp [(hmem1 e he).1]
    case hdrop3 =>
      intro e hl
      rw [hl]
      simp

/-- Scope lists whose every entry has a usable key and binds every
non-default pfx to a non-empty URI. -/
def scopeOK (l : List (Str × Str)) : Bool :=
  l.all (fun e => (e.1.isEmpty || goodNC e.1) && (e.1.isEmpty || !e.2.isEmpty))

theorem scopeOK_append {a b : List (Str × Str)} (ha : scopeOK a = true)
    (hb : scopeOK b = true) : scopeOK (a ++ b) = true := by
  simp only [scopeOK, List.all_append, Bool.and_eq_true]
  exact ⟨ha, hb⟩

theorem scopeOK_initNsEnv : scopeOK initNsEnv = true := by decide

theorem lookupPfx_scopeOK {scope : List (Str × Str)} {p u : Str}
    (hok : scopeOK scope = true) (h : lookupPfx scope p = some u) (hp : ¬p = []) :
    ¬u = [] := by
  have hmem := lookupPfx_eq_some_mem h
  have := (List.all_eq_true.mp hok) _ hmem
  simp only [Bool.and_eq_true, Bool.or_eq_true] at this
  rcases this.2 with h1 | h1
  · exact absurd (by simpa [List.isEmpty_iff] using h1) hp
  · intro hu
    rw [hu] at h1
    simp at h1

theorem scopeOK_sorted_nsToRender {m : CanonicalizationMode} {incl : List Str}
    {scope ctx : List (Str × Str)} {name : QName} {attrs : List XAttr}
    (hok : scopeOK scope = true) :
    scopeOK (sortLe nsLe (nsToRender m incl scope ctx name attrs)) = true := by
  simp only [scopeOK, List.all_eq_true]
  intro e he
  have : e ∈ scope := mem_nsToRender ((mem_sortLe _ _ _).mp he)
  exact (List.all_eq_true.mp hok) _ this

theorem contains_eq_true_of_mem {l : List Str} {a : Str} (h : a ∈ l) :
    l.contains a = true := by
  simpa using h

theorem resolveAttrPfx_shape {scope : List (Str × Str)} {a : XAttr} {k : Str × XAttr}
    (h : resolveAttrPfx scope a = .ok k) : k.2 = a := by
  simp only [resolveAttrPfx] at h
  split at h
  · cases h
    rfl
  · split at h
    · cases h
      rfl
    · exact Except.noConfusion h

theorem resolveAttrs_ok_eq {scope : List (Str × Str)} : ∀ {attrs : List XAttr}
    {ks : List (Str × XAttr)}, resolveAttrs scope attrs = .ok ks →
    ks.map (fun e => e.2) = attrs ∧ ∀ e ∈ ks, resolveAttrPfx scope e.2 = .ok e
  | [], ks, h => by
    simp only [resolveAttrs, Except.ok.injEq] at h
    subst h
    exact ⟨rfl, by simp⟩
  | a :: as, ks, h => by
    simp only [resolveAttrs, bind, Except.bind] at h
    cases hk : resolveAttrPfx scope a with
    | error e => rw [hk] at h; exact Except.noConfusion h
    | ok k =>
      rw [hk] at h
      cases hks : resolveAttrs scope as with
      | error e => rw [hks] at h; exact Except.noConfusion h
      | ok ks' =>
        rw [hks] at h
        simp only [Except.ok.injEq] at h
        subst h
        obtain ⟨hmap, hpt⟩ := resolveAttrs_ok_eq hks
        have hsh := resolveAttrPfx_shape hk
        refine ⟨by simp [hmap, hsh], ?_⟩
        intro e he
        rcases List.mem_cons.mp he with rfl | he'
        · rw [hsh]
          exact hk
        · exact hpt e he'

theorem resolveAttrs_of_pointwise {scope2 : List (Str × Str)} : ∀ {ks : List (Str × XAttr)},
    (∀ e ∈ ks, resolveAttrPfx scope2 e.2 = .ok e) →
    resolveAttrs scope2 (ks.map (fun e => e.2)) = .ok ks
  | [], _ => rfl
  | k :: ks', h => by
    have hk := h k (by simp)
    have hks := resolveAttrs_of_pointwise (fun e he => h e (List.mem_cons_of_mem _ he))
    simp only [List.map_cons, resolveAttrs, bind, Except.bind, hk, hks]

/-! ## Idempotence (C8): re-parsing serialized element tags -/

theorem escAttr_length (v : Str) : v.length ≤ (escAttr v).length := by
  induction v with
  | nil => simp [escAttr]
  | cons c v' ih =>
    have hc : 1 ≤ (escAttrChar c).length := by
      simp only [escAttrChar]
      split_ifs <;> simp
    calc (c :: v').length = v'.length + 1 := by simp
    _ ≤ (escAttr v').length + (escAttrChar c).length := by omega
    _ = (escAttr (c :: v')).length := by simp [escAttr]; omega

theorem escText_length (v : Str) : v.length ≤ (escText v).length := by
  induction v with
  | nil => simp [escText]
  | cons c v' ih =>
    have hc : 1 ≤ (escTextChar c).length := by
      simp only [escTextChar]
      split_ifs <;> simp
    calc (c :: v').length = v'.length + 1 := by simp
    _ ≤ (escText v').length + (escTextChar c).length := by omega
    _ = (escText (c :: v')).length := by simp [escText]; omega

theorem escAttrChar_no_quot (c : Char) : '"' ∉ escAttrChar c := by
  simp only [escAttrChar]
  split_ifs with h1 h2 h3 h4 h5 h6
  · decide
  · decide
  · decide
  · decide
  · decide
  · decide
  · intro hm
    rcases List.mem_singleton.mp hm with rfl
    exact h3 rfl

theorem escAttr_no_quot (v : Str) : '"' ∉ escAttr v := by
  intro hm
  simp only [escAttr, List.mem_flatten] at hm
  obtain ⟨l, hl, hml⟩ := hm
  obtain ⟨c, -, rfl⟩ := List.mem_map.mp hl
  exact escAttrChar_no_quot c hml

theorem escText_append (a b : Str) : escText (a ++ b) = escText a ++ escText b := by
  simp [escText]

theorem pAttrs_step {fuel : Nat} {ns : List (Str × Str)} {attrs : List XAttr} {cs : Str}
    {c : Char} {cs0 : Str} (hdrop : cs.dropWhile isXmlSpace = c :: cs0)
    (h1 : ¬c = '>') (h2 : ¬c = '/') :
    pAttrs (fuel + 1) ns attrs cs = (do
      let (qn, cs1) ← readQName (c :: cs0)
      match cs1.dropWhile isXmlSpace with
      | '=' :: cs3 =>
        match cs3.dropWhile isXmlSpace with
        | q :: cs5 =>
          if q = '"' || q = Char.ofNat 39 then do
            let (v, cs6) ← pQuoted (cs5.length + 1) q [] cs5
            match declOf qn with
            | some p =>
              if ns.any (fun e => decide (e.1 = p)) then none
              else if !p.isEmpty && v.isEmpty then none
              else pAttrs fuel ((p, v) :: ns) attrs cs6
            | none =>
              if attrs.any (fun a => decide (a.name = qn)) then none
              else pAttrs fuel ns (⟨qn, v⟩ :: attrs) cs6
          else none
        | [] => none
      | _ => none) := by
  simp only [pAttrs, hdrop]
  split
  · next rest heq =>
    exact absurd (List.cons.inj heq).1 h1
  · next rest heq =>
    exact absurd (List.cons.inj heq).1 h2
  · next cs' hne1 hne2 =>
    rfl

theorem isNCStart_not_space {c : Char} (h : isNCStart c = true) : isXmlSpace c = false := by
  rw [Bool.eq_false_iff]
  intro hT
  simp only [isXmlSpace, Bool.or_eq_true, decide_eq_true_eq] at hT
  rcases hT with ((rfl | rfl) | rfl) | rfl <;> exact absurd h (by decide)

theorem isNCStart_ne_tag {c : Char} (h : isNCStart c = true) : ¬c = '>' ∧ ¬c = '/' := by
  constructor <;> rintro rfl <;> exact absurd h (by decide)

theorem pAttrs_done {f : Nat} {ns : List (Str × Str)} {acc : List XAttr} {Y : Str} :
    pAttrs (f + 1) ns acc ('>' :: Y) = some (ns.reverse, acc.reverse, false, Y) := by
  simp only [pAttrs]
  rw [List.dropWhile_cons_of_neg (by decide)]
  split
  · next rest heq =>
    obtain ⟨-, hy⟩ := List.cons.inj heq
    rw [hy]
  · next rest heq =>
    exact absurd (List.cons.inj heq).1 (by decide)
  · next cs' hne1 hne2 =>
    exact absurd rfl (hne1 Y)

theorem pAttrs_attr_step {f : Nat} {ns : List (Str × Str)} {acc : List XAttr}
    {n : QName} {v : Str} {R : Str} (hq : goodQ n = true) (hd : declOf n = none) :
    pAttrs (f + 1) ns acc (' ' :: (qnameStr n ++ '=' :: '"' :: (escAttr v ++ '"' :: R)))
      = if acc.any (fun a => decide (a.name = n)) then none
        else pAttrs f ns (⟨n, v⟩ :: acc) R := by
  obtain ⟨c0, r0, hqn, hstart⟩ := goodQ_qnameStr_head hq
  obtain ⟨hne1, hne2⟩ := isNCStart_ne_tag hstart
  have hdrop : (' ' :: (qnameStr n ++ '=' :: '"' :: (escAttr v ++ '"' :: R))).dropWhile
      isXmlSpace = c0 :: (r0 ++ '=' :: '"' :: (escAttr v ++ '"' :: R)) := by
    rw [List.dropWhile_cons_of_pos (by decide), hqn, List.cons_append,
      List.dropWhile_cons_of_neg (by simp [isNCStart_not_space hstart])]
  rw [pAttrs_step hdrop hne1 hne2]
  have hq1 : readQName (c0 :: (r0 ++ '=' :: '"' :: (escAttr v ++ '"' :: R)))
      = some (n, '=' :: '"' :: (escAttr v ++ '"' :: R)) := by
    rw [show c0 :: (r0 ++ '=' :: '"' :: (escAttr v ++ '"' :: R))
      = qnameStr n ++ ('=' :: '"' :: (escAttr v ++ '"' :: R)) from by rw [hqn]; rfl]
    refine readQName_inv hq ?_
    intro c hc
    cases hc
    exact ⟨by decide, by decide⟩
  rw [hq1]
  simp only [bind, Option.some_bind]
  rw [List.dropWhile_cons_of_neg (by decide : ¬isXmlSpace '=' = true)]
  have hquot : pQuoted ((escAttr v ++ '"' :: R).length + 1) '"' [] (escAttr v ++ '"' :: R)
      = some (v, R) := by
    have := pQuoted_inv v ((escAttr v ++ '"' :: R).length + 1) [] R (by
      have := escAttr_length v
      simp only [List.length_append, List.length_cons]
      omega)
    simpa using this
  split
  · next cs3 heq =>
    obtain ⟨-, hc3⟩ := List.cons.inj heq
    subst hc3
    rw [List.dropWhile_cons_of_neg (by decide : ¬isXmlSpace '"' = true)]
    split
    · next q cs5 heq2 =>
      obtain ⟨hq5, hc5⟩ := List.cons.inj heq2
      subst hq5
      subst hc5
      rw [if_pos (by decide), hquot]
      simp only [bind, Option.some_bind]
      rw [hd]
    · next heq2 =>
      exact List.noConfusion heq2
  · next x hc =>
    exact (hc _ rfl).elim

theorem pAttrs_nsitem_step {f : Nat} {ns : List (Str × Str)} {acc : List XAttr}
    {n : QName} {p u : Str} {R : Str} (hq : goodQ n = true) (hd : declOf n = some p) :
    pAttrs (f + 1) ns acc (' ' :: (qnameStr n ++ '=' :: '"' :: (escAttr u ++ '"' :: R)))
      = if ns.any (fun e => decide (e.1 = p)) then none
        else if !p.isEmpty && u.isEmpty then none
        else pAttrs f ((p, u) :: ns) acc R := by
  obtain ⟨c0, r0, hqn, hstart⟩ := goodQ_qnameStr_head hq
  obtain ⟨hne1, hne2⟩ := isNCStart_ne_tag hstart
  have hdrop : (' ' :: (qnameStr n ++ '=' :: '"' :: (escAttr u ++ '"' :: R))).dropWhile
      isXmlSpace = c0 :: (r0 ++ '=' :: '"' :: (escAttr u ++ '"' :: R)) := by
    rw [List.dropWhile_cons_of_pos (by decide), hqn, List.cons_append,
      List.dropWhile_cons_of_neg (by simp [isNCStart_not_space hstart])]
  rw [pAttrs_step hdrop hne1 hne2]
  have hq1 : readQName (c0 :: (r0 ++ '=' :: '"' :: (escAttr u ++ '"' :: R)))
      = some (n, '=' :: '"' :: (escAttr u ++ '"' :: R)) := by
    rw [show c0 :: (r0 ++ '=' :: '"' :: (escAttr u ++ '"' :: R))
      = qnameStr n ++ ('=' :: '"' :: (escAttr u ++ '"' :: R)) from by rw [hqn]; rfl]
    refine readQName_inv hq ?_
    intro c hc
    cases hc
    exact ⟨by decide, by decide⟩
  rw [hq1]
  simp only [bind, Option.some_bind]
  rw [List.dropWhile_cons_of_neg (by decide : ¬isXmlSpace '=' = true)]
  have hquot : pQuoted ((escAttr u ++ '"' :: R).length + 1) '"' [] (escAttr u ++ '"' :: R)
      = some (u, R) := by
    have := pQuoted_inv u ((escAttr u ++ '"' :: R).length + 1) [] R (by
      have := escAttr_length u
      simp only [List.length_append, List.length_cons]
      omega)
    simpa using this
  split
  · next cs3 heq =>
    obtain ⟨-, hc3⟩ := List.cons.inj heq
    subst hc3
    rw [List.dropWhile_cons_of_neg (by decide : ¬isXmlSpace '"' = true)]
    split
    · next q cs5 heq2 =>
      obtain ⟨hq5, hc5⟩ := List.cons.inj heq2
      subst hq5
      subst hc5
      rw [if_pos (by decide), hquot]
      simp only [bind, Option.some_bind]
      rw [hd]
    · next heq2 =>
      exact List.noConfusion heq2
  · next x hc =>
    exact (hc _ rfl).elim

theorem pAttrs_ns_step {f : Nat} {ns : List (Str × Str)} {acc : List XAttr}
    {p u : Str} {R : Str} (hp : p = [] ∨ goodNC p = true) :
    pAttrs (f + 1) ns acc (renderNsDecl (p, u) ++ R)
      = if ns.any (fun e => decide (e.1 = p)) then none
        else if !p.isEmpty && u.isEmpty then none
        else pAttrs f ((p, u) :: ns) acc R := by
  rcases hp with rfl | hgood
  · have hsh : renderNsDecl (([] : Str), u) ++ R
        = ' ' :: (qnameStr ⟨none, "xmlns".data⟩ ++ '=' :: '"' :: (escAttr u ++ '"' :: R)) := by
      simp [renderNsDecl, qnameStr]
    rw [hsh, pAttrs_nsitem_step (by decide) (by rfl)]
  · have hne : p.isEmpty = false := by
      cases p with
      | nil => exact absurd hgood (by decide)
      | cons c r => rfl
    have hsh : renderNsDecl (p, u) ++ R
        = ' ' :: (qnameStr ⟨some "xmlns".data, p⟩ ++ '=' :: '"' :: (escAttr u ++ '"' :: R)) := by
      simp [renderNsDecl, qnameStr, hne]
    rw [hsh, pAttrs_nsitem_step (by simp [goodQ, hgood]; decide) (by rfl)]

theorem pAttrs_inv_attrs : ∀ (aL : List (Str × XAttr)) (fuel : Nat)
    (ns0 : List (Str × Str)) (acc0 : List XAttr) (Y : Str),
    (∀ e ∈ aL, goodQ e.2.name = true ∧ declOf e.2.name = none) →
    (∀ e ∈ aL, ∀ b ∈ acc0, ¬(b.name = e.2.name)) →
    nodupQNames (aL.map (fun e => e.2)) = true →
    aL.length + 1 ≤ fuel →
    pAttrs fuel ns0 acc0 ((aL.map renderAttr).flatten ++ '>' :: Y)
      = some (ns0.reverse, acc0.reverse ++ aL.map (fun e => e.2), false, Y)
  | [], fuel, ns0, acc0, Y, _, _, _, hf => by
    cases fuel with
    | zero => omega
    | succ f =>
      rw [show ((([] : List (Str × XAttr)).map renderAttr).flatten ++ '>' :: Y) = '>' :: Y
        from by simp]
      rw [pAttrs_done]
      simp
  | e :: aL', fuel, ns0, acc0, Y, hgq, hacc, hnq, hf => by
    cases fuel with
    | zero => simp at hf
    | succ f =>
      have hsh : (((e :: aL').map renderAttr).flatten ++ '>' :: Y)
          = ' ' :: (qnameStr e.2.name ++ '=' :: '"' :: (escAttr e.2.value ++
              '"' :: ((aL'.map renderAttr).flatten ++ '>' :: Y))) := by
        simp [renderAttr]
      rw [hsh, pAttrs_attr_step (hgq e (by simp)).1 (hgq e (by simp)).2]
      rw [if_neg ?hneg]
      case hneg =>
        intro hT
        simp only [List.any_eq_true, decide_eq_true_eq] at hT
        obtain ⟨b, hb, hbe⟩ := hT
        exact hacc e (by simp) b hb hbe
      rw [show (⟨e.2.name, e.2.value⟩ : XAttr) = e.2 from rfl]
      rw [pAttrs_inv_attrs aL' f ns0 (e.2 :: acc0) Y
        (fun x hx => hgq x (List.mem_cons_of_mem _ hx)) ?hacc2 ?hnq2 (by simp at hf ⊢; omega)]
      case hacc2 =>
        intro x hx b hb
        rcases List.mem_cons.mp hb with rfl | hb'
        · simp only [nodupQNames, List.map_cons, Bool.and_eq_true, Bool.not_eq_true',
            List.any_eq_false, decide_eq_false_iff_not] at hnq
          intro hT
          exact hnq.1 x.2 (List.mem_map.mpr ⟨x, hx, rfl⟩) (by simpa using hT.symm)
        · exact hacc x (List.mem_cons_of_mem _ hx) b hb'
      case hnq2 =>
        simp only [nodupQNames, List.map_cons, Bool.and_eq_true] at hnq
        exact hnq.2
      simp

theorem pAttrs_inv_render : ∀ (nsL : List (Str × Str)) (aL : List (Str × XAttr)) (fuel : Nat)
    (ns0 : List (Str × Str)) (Y : Str),
    (∀ e ∈ nsL, (e.1 = [] ∨ goodNC e.1 = true) ∧ (e.1.isEmpty || !e.2.isEmpty) = true) →
    (∀ e ∈ nsL, ∀ b ∈ ns0, ¬(b.1 = e.1)) →
    nodupKeysNs nsL = true →
    (∀ e ∈ aL, goodQ e.2.name = true ∧ declOf e.2.name = none) →
    nodupQNames (aL.map (fun e => e.2)) = true →
    nsL.length + aL.length + 1 ≤ fuel →
    pAttrs fuel ns0 [] ((nsL.map renderNsDecl).flatten ++
        ((aL.map renderAttr).flatten ++ '>' :: Y))
      = some (ns0.reverse ++ nsL, aL.map (fun e => e.2), false, Y)
  | [], aL, fuel, ns0, Y, _, _, _, hgq, hnq, hf => by
    rw [show ((([] : List (Str × Str)).map renderNsDecl).flatten ++
        ((aL.map renderAttr).flatten ++ '>' :: Y))
      = ((aL.map renderAttr).flatten ++ '>' :: Y) from by simp]
    rw [pAttrs_inv_attrs aL fuel ns0 [] Y hgq (by simp) hnq (by omega)]
    simp
  | e :: nsL', aL, fuel, ns0, Y, hns, hnd0, hnd, hgq, hnq, hf => by
    cases fuel with
    | zero => simp at hf
    | succ f =>
      have hsh : (((e :: nsL').map renderNsDecl).flatten ++
          ((aL.map renderAttr).flatten ++ '>' :: Y))
          = renderNsDecl e ++ ((nsL'.map renderNsDecl).flatten ++
              ((aL.map renderAttr).flatten ++ '>' :: Y)) := by
        simp
      rw [hsh]
      rw [show renderNsDecl e = renderNsDecl (e.1, e.2) from rfl]
      rw [pAttrs_ns_step (hns e (by simp)).1]
      rw [if_neg ?hneg1]
      case hneg1 =>
        intro hT
        simp only [List.any_eq_true, decide_eq_true_eq] at hT
        obtain ⟨b, hb, hbe⟩ := hT
        exact hnd0 e (by simp) b hb hbe
      rw [if_neg ?hneg2]
      case hneg2 =>
        have := (hns e (by simp)).2
        intro hT
        rw [Bool.and_eq_true] at hT
        rcases Bool.or_eq_true_iff.mp this with h1 | h1
        · rw [h1] at hT
          simp at hT
        · rw [hT.2] at h1
          simp at h1
      rw [show ((e.1, e.2) :: ns0) = (e :: ns0) from rfl]
      rw [pAttrs_inv_render nsL' aL f (e :: ns0) Y
        (fun x hx => hns x (List.mem_cons_of_mem _ hx)) ?hnd0' ?hnd' hgq hnq
        (by simp at hf ⊢; omega)]
      · simp
      case hnd0' =>
        intro x hx b hb
        rcases List.mem_cons.mp hb with hbe | hb'
        · simp only [nodupKeysNs, Bool.and_eq_true, Bool.not_eq_true',
            List.any_eq_false] at hnd
          rw [hbe]
          intro hT
          have hx1 : ¬(x.1 = e.1) := by simpa using hnd.1 x hx
          exact hx1 hT.symm
        · exact hnd0 x (List.mem_cons_of_mem _ hx) b hb'
      case hnd' =>
        simp only [nodupKeysNs, Bool.and_eq_true] at hnd
        exact hnd.2

theorem pPI_inv {fuel : Nat} {t d : Str} {R : Str}
    (ht : goodNC t = true) (hxml : ¬(t.map Char.toLower = "xml".data))
    (hsub : hasSub2 '?' '>' d = false)
    (hhead : ∀ c r, d = c :: r → isXmlSpace c = false)
    (hf : d.length + 1 ≤ fuel) :
    pPI fuel (t ++ ((if d.isEmpty then [] else ' ' :: d) ++ '?' :: '>' :: R))
      = some (XNode.procInst t d, R) := by
  have hn : readNCName (t ++ ((if d.isEmpty then [] else ' ' :: d) ++ '?' :: '>' :: R))
      = some (t, (if d.isEmpty then [] else ' ' :: d) ++ '?' :: '>' :: R) := by
    refine readNCName_inv ht ?_
    intro c hc
    cases d with
    | nil =>
      simp only [List.isEmpty_nil, if_true, List.nil_append] at hc
      cases hc
      decide
    | cons c0 d' =>
      simp only [List.isEmpty_cons, if_false] at hc
      cases hc
      decide
  simp only [pPI, bind, hn, Option.some_bind]
  rw [if_neg hxml]
  cases d with
  | nil =>
    simp only [List.isEmpty_nil, if_true, List.nil_append]
    rfl
  | cons c0 d' =>
    simp only [List.isEmpty_cons, if_false]
    have hc0 : isXmlSpace c0 = false := hhead c0 d' rfl
    split
    · next a b heq =>
      exact absurd (List.cons.inj heq).1 (by decide)
    · next x a b hne heq =>
      obtain ⟨ha, hb⟩ := List.cons.inj heq
      subst ha
      rw [if_pos (by decide)]
      have hb' : (c0 :: d') ++ '?' :: '>' :: R = b := hb
      rw [← hb']
      have hdr : (' ' :: ((c0 :: d') ++ '?' :: '>' :: R)).dropWhile isXmlSpace
          = (c0 :: d') ++ '?' :: '>' :: R := by
        rw [List.cons_append]
        rw [List.dropWhile_cons_of_pos (by decide), List.dropWhile_cons_of_neg (by simp [hc0]),
          ← List.cons_append]
      rw [hdr]
      have hpt := pPITail_inv (c0 :: d') fuel [] R hsub hf
      rw [hpt]
      simp [bind]
    · next hne => simp at hne

/-- Whether a node is a comment. -/
def isComment : XNode → Bool
  | .comment _ => true
  | _ => false

/-- Merge adjacent text nodes (the parser reads maximal text runs, so a
re-parse of output whose comments were dropped sees merged text). -/
def mergeTexts : List XNode → List XNode
  | [] => []
  | .text a :: .text b :: rest => mergeTexts (.text (a ++ b) :: rest)
  | c :: rest => c :: mergeTexts rest
termination_by l => l.length

/-- The node list the re-parse of a serialized child list produces:
unchanged when comments are kept, otherwise comments vanish and the
adjacent text runs merge. -/
def normCh (kc : Bool) (l : List XNode) : List XNode :=
  if kc then l else mergeTexts (l.filter (fun c => !isComment c))

theorem listInv_mem : ∀ {l : List XNode}, listInv l = true → ∀ c ∈ l, nodeInv c = true
  | [], _, c, hc => by simp at hc
  | [x], h, c, hc => by
    rcases List.mem_singleton.mp hc with rfl
    exact h
  | x :: y :: r, h, c, hc => by
    rw [show listInv (x :: y :: r) =
      (nodeInv x && !(isTextNode x && isTextNode y) && listInv (y :: r)) from rfl] at h
    simp only [Bool.and_eq_true] at h
    rcases List.mem_cons.mp hc with rfl | hc'
    · exact h.1.1
    · exact listInv_mem h.2 c hc'

theorem mergeTexts_head : ∀ {l : List XNode} {x : XNode},
    (mergeTexts l).head? = some x → ∃ y, l.head? = some y ∧ isTextNode x = isTextNode y
  | [], x, h => by simp [mergeTexts] at h
  | .text a :: .text b :: rest, x, h => by
    rw [show mergeTexts (.text a :: .text b :: rest)
      = mergeTexts (.text (a ++ b) :: rest) from by simp [mergeTexts]] at h
    obtain ⟨y, hy, hxy⟩ := mergeTexts_head h
    simp only [List.head?_cons, Option.some.injEq] at hy
    refine ⟨.text a, rfl, ?_⟩
    rw [hxy, ← hy]
    rfl
  | .text a :: [], x, h => by
    rw [show mergeTexts [XNode.text a] = [XNode.text a] from by simp [mergeTexts]] at h
    simp only [List.head?_cons, Option.some.injEq] at h
    exact ⟨.text a, rfl, by rw [h]⟩
  | .text a :: .elem n d at' ch :: rest, x, h => by
    rw [show mergeTexts (XNode.text a :: XNode.elem n d at' ch :: rest)
      = XNode.text a :: mergeTexts (XNode.elem n d at' ch :: rest) from by
        simp [mergeTexts]] at h
    simp only [List.head?_cons, Option.some.injEq] at h
    exact ⟨.text a, rfl, by rw [h]⟩
  | .text a :: .comment s :: rest, x, h => by
    rw [show mergeTexts (XNode.text a :: XNode.comment s :: rest)
      = XNode.text a :: mergeTexts (XNode.comment s :: rest) from by simp [mergeTexts]] at h
    simp only [List.head?_cons, Option.some.injEq] at h
    exact ⟨.text a, rfl, by rw [h]⟩
  | .text a :: .procInst t dt :: rest, x, h => by
    rw [show mergeTexts (XNode.text a :: XNode.procInst t dt :: rest)
      = XNode.text a :: mergeTexts (XNode.procInst t dt :: rest) from by simp [mergeTexts]] at h
    simp only [List.head?_cons, Option.some.injEq] at h
    exact ⟨.text a, rfl, by rw [h]⟩
  | .elem n d at' ch :: rest, x, h => by
    rw [show mergeTexts (XNode.elem n d at' ch :: rest)
      = XNode.elem n d at' ch :: mergeTexts rest from by simp [mergeTexts]] at h
    simp only [List.head?_cons, Option.some.injEq] at h
    exact ⟨.elem n d at' ch, rfl, by rw [h]⟩
  | .comment s :: rest, x, h => by
    rw [show mergeTexts (XNode.comment s :: rest)
      = XNode.comment s :: mergeTexts rest from by simp [mergeTexts]] at h
    simp only [List.head?_cons, Option.some.injEq] at h
    exact ⟨.comment s, rfl, by rw [h]⟩
  | .procInst t dt :: rest, x, h => by
    rw [show mergeTexts (XNode.procInst t dt :: rest)
      = XNode.procInst t dt :: mergeTexts rest from by simp [mergeTexts]] at h
    simp only [List.head?_cons, Option.some.injEq] at h
    exact ⟨.procInst t dt, rfl, by rw [h]⟩
termination_by l => l.length

theorem mergeTexts_cons_nontext {c : XNode} {rest : List XNode} (hc : isTextNode c = false)
    (hall : ∀ x ∈ c :: rest, nodeInv x = true)
    (hrest : listInv (mergeTexts rest) = true) :
    listInv (mergeTexts (c :: rest)) = true := by
  have hstep : mergeTexts (c :: rest) = c :: mergeTexts rest := by
    cases c with
    | text s => simp [isTextNode] at hc
    | elem n d a ch => cases rest <;> simp [mergeTexts]
    | comment s => cases rest <;> simp [mergeTexts]
    | procInst t d => cases rest <;> simp [mergeTexts]
  rw [hstep]
  refine listInv_cons (hall c (by simp)) hrest ?_
  intro x _
  simp [hc]

theorem mergeTexts_listInv : ∀ {l : List XNode}, (∀ c ∈ l, nodeInv c = true) →
    listInv (mergeTexts l) = true
  | [], _ => by rw [show mergeTexts [] = [] from by simp [mergeTexts]]; rfl
  | .text a :: .text b :: rest, hall => by
    rw [show mergeTexts (.text a :: .text b :: rest)
      = mergeTexts (.text (a ++ b) :: rest) from by simp [mergeTexts]]
    refine mergeTexts_listInv ?_
    intro c hc
    rcases List.mem_cons.mp hc with rfl | hc'
    · have ha := hall (.text a) (by simp)
      have hb := hall (.text b) (by simp)
      simp only [nodeInv, Bool.and_eq_true] at ha hb
      have hna : nulChar ∉ a := not_mem_of_nulFreeL ha.2
      have hnb : nulChar ∉ b := not_mem_of_nulFreeL hb.2
      have hae : ¬(a = []) := by
        intro hc0
        rw [hc0] at ha
        simp at ha
      simp only [nodeInv, Bool.and_eq_true]
      constructor
      · cases a with
        | nil => exact absurd rfl hae
        | cons x xs => rfl
      · refine nulFreeL_of_not_mem ?_
        intro hm
        rcases List.mem_append.mp hm with hm | hm
        · exact hna hm
        · exact hnb hm
    · exact hall c (List.mem_cons_of_mem _ (List.mem_cons_of_mem _ hc'))
  | .text a :: [], hall => by
    rw [show mergeTexts [XNode.text a] = [XNode.text a] from by simp [mergeTexts]]
    exact hall (.text a) (by simp)
  | .text a :: .elem n d at' ch :: rest, hall => by
    rw [show mergeTexts (XNode.text a :: XNode.elem n d at' ch :: rest)
      = XNode.text a :: mergeTexts (XNode.elem n d at' ch :: rest) from by simp [mergeTexts]]
    refine listInv_cons (hall _ (by simp)) (mergeTexts_listInv (fun c hc =>
      hall c (List.mem_cons_of_mem _ hc))) ?_
    intro x hx
    obtain ⟨y, hy, hxy⟩ := mergeTexts_head hx
    simp only [List.head?_cons, Option.some.injEq] at hy
    rw [show isTextNode (XNode.text a) = true from rfl, hxy, ← hy]
    rfl
  | .text a :: .comment s :: rest, hall => by
    rw [show mergeTexts (XNode.text a :: XNode.comment s :: rest)
      = XNode.text a :: mergeTexts (XNode.comment s :: rest) from by simp [mergeTexts]]
    refine listInv_cons (hall _ (by simp)) (mergeTexts_listInv (fun c hc =>
      hall c (List.mem_cons_of_mem _ hc))) ?_
    intro x hx
    obtain ⟨y, hy, hxy⟩ := mergeTexts_head hx
    simp only [List.head?_cons, Option.some.injEq] at hy
    rw [show isTextNode (XNode.text a) = true from rfl, hxy, ← hy]
    rfl
  | .text a :: .procInst t dt :: rest, hall => by
    rw [show mergeTexts (XNode.text a :: XNode.procInst t dt :: rest)
      = XNode.text a :: mergeTexts (XNode.procInst t dt :: rest) from by simp [mergeTexts]]
    refine listInv_cons (hall _ (by simp)) (mergeTexts_listInv (fun c hc =>
      hall c (List.mem_cons_of_mem _ hc))) ?_
    intro x hx
    obtain ⟨y, hy, hxy⟩ := mergeTexts_head hx
    simp only [List.head?_cons, Option.some.injEq] at hy
    rw [show isTextNode (XNode.text a) = true from rfl, hxy, ← hy]
    rfl
  | .elem n d at' ch :: rest, hall =>
    mergeTexts_cons_nontext rfl hall (mergeTexts_listInv (fun c hc =>
      hall c (List.mem_cons_of_mem _ hc)))
  | .comment s :: rest, hall =>
    mergeTexts_cons_nontext rfl hall (mergeTexts_listInv (fun c hc =>
      hall c (List.mem_cons_of_mem _ hc)))
  | .procInst t dt :: rest, hall =>
    mergeTexts_cons_nontext rfl hall (mergeTexts_listInv (fun c hc =>
      hall c (List.mem_cons_of_mem _ hc)))
termination_by l => l.length

theorem listInv_tail : ∀ {c : XNode} {l : List XNode}, listInv (c :: l) = true →
    listInv l = true
  | c, [], _ => rfl
  | c, x :: r, h => by
    rw [show listInv (c :: x :: r) =
      (nodeInv c && !(isTextNode c && isTextNode x) && listInv (x :: r)) from rfl] at h
    simp only [Bool.and_eq_true] at h
    exact h.2

theorem serList_cons_ok {m : CanonicalizationMode} {kc : Bool} {i : List Str}
    {s c : List (Str × Str)} {x : XNode} {xs : List XNode} {outs : List Str}
    (h : serList m kc i s c (x :: xs) = .ok outs) :
    ∃ o os, serNode m kc i s c x = .ok o ∧ serList m kc i s c xs = .ok os ∧
      outs = o :: os := by
  simp only [serList, bind, Except.bind] at h
  cases h1 : serNode m kc i s c x with
  | error e => rw [h1] at h; exact Except.noConfusion h
  | ok o =>
    rw [h1] at h
    cases h2 : serList m kc i s c xs with
    | error e => rw [h2] at h; exact Except.noConfusion h
    | ok os =>
      rw [h2] at h
      simp only [pure, Except.pure, Except.ok.injEq] at h
      exact ⟨o, os, rfl, rfl, h.symm⟩

theorem serList_cons_of {m : CanonicalizationMode} {kc : Bool} {i : List Str}
    {s c : List (Str × Str)} {x : XNode} {xs : List XNode} {o : Str} {os : List Str}
    (h1 : serNode m kc i s c x = .ok o) (h2 : serList m kc i s c xs = .ok os) :
    serList m kc i s c (x :: xs) = .ok (o :: os) := by
  simp only [serList, bind, Except.bind, h1, h2]

theorem serList_mergeTexts {m : CanonicalizationMode} {kc : Bool} {i : List Str}
    {s c : List (Str × Str)} : ∀ {l : List XNode} {outs : List Str},
    serList m kc i s c l = .ok outs →
    ∃ outs', serList m kc i s c (mergeTexts l) = .ok outs' ∧
      outs'.flatten = outs.flatten
  | [], outs, h => by
    rw [show mergeTexts [] = [] from by simp [mergeTexts]]
    exact ⟨outs, h, rfl⟩
  | .text a :: .text b :: rest, outs, h => by
    obtain ⟨o1, os1, h1, h2, rfl⟩ := serList_cons_ok h
    obtain ⟨o2, os2, h3, h4, rfl⟩ := serList_cons_ok h2
    rw [show mergeTexts (.text a :: .text b :: rest)
      = mergeTexts (.text (a ++ b) :: rest) from by simp [mergeTexts]]
    obtain ⟨outs', h5, h6⟩ := serList_mergeTexts
      (serList_cons_of (show serNode m kc i s c (.text (a ++ b)) = .ok (escText (a ++ b))
        from rfl) h4)
    refine ⟨outs', h5, ?_⟩
    rw [h6]
    have ha : o1 = escText a := by
      simp only [serNode, Except.ok.injEq] at h1
      exact h1.symm
    have hb : o2 = escText b := by
      simp only [serNode, Except.ok.injEq] at h3
      exact h3.symm
    simp [ha, hb, escText_append]
  | .text a :: [], outs, h => by
    rw [show mergeTexts [XNode.text a] = [XNode.text a] from by simp [mergeTexts]]
    exact ⟨outs, h, rfl⟩
  | .text a :: .elem n d at' ch :: rest, outs, h => by
    obtain ⟨o1, os1, h1, h2, rfl⟩ := serList_cons_ok h
    obtain ⟨outs', h5, h6⟩ := serList_mergeTexts h2
    rw [show mergeTexts (XNode.text a :: XNode.elem n d at' ch :: rest)
      = XNode.text a :: mergeTexts (XNode.elem n d at' ch :: rest) from by simp [mergeTexts]]
    exact ⟨o1 :: outs', serList_cons_of h1 h5, by simp [h6]⟩
  | .text a :: .comment cm :: rest, outs, h => by
    obtain ⟨o1, os1, h1, h2, rfl⟩ := serList_cons_ok h
    obtain ⟨outs', h5, h6⟩ := serList_mergeTexts h2
    rw [show mergeTexts (XNode.text a :: XNode.comment cm :: rest)
      = XNode.text a :: mergeTexts (XNode.comment cm :: rest) from by simp [mergeTexts]]
    exact ⟨o1 :: outs', serList_cons_of h1 h5, by simp [h6]⟩
  | .text a :: .procInst t dt :: rest, outs, h => by
    obtain ⟨o1, os1, h1, h2, rfl⟩ := serList_cons_ok h
    obtain ⟨outs', h5, h6⟩ := serList_mergeTexts h2
    rw [show mergeTexts (XNode.text a :: XNode.procInst t dt :: rest)
      = XNode.text a :: mergeTexts (XNode.procInst t dt :: rest) from by simp [mergeTexts]]
    exact ⟨o1 :: outs', serList_cons_of h1 h5, by simp [h6]⟩
  | .elem n d at' ch :: rest, outs, h => by
    obtain ⟨o1, os1, h1, h2, rfl⟩ := serList_cons_ok h
    obtain ⟨outs', h5, h6⟩ := serList_mergeTexts h2
    rw [show mergeTexts (XNode.elem n d at' ch :: rest)
      = XNode.elem n d at' ch :: mergeTexts rest from by simp [mergeTexts]]
    exact ⟨o1 :: outs', serList_cons_of h1 h5, by simp [h6]⟩
  | .comment cm :: rest, outs, h => by
    obtain ⟨o1, os1, h1, h2, rfl⟩ := serList_cons_ok h
    obtain ⟨outs', h5, h6⟩ := serList_mergeTexts h2
    rw [show mergeTexts (XNode.comment cm :: rest)
      = XNode.comment cm :: mergeTexts rest from by simp [mergeTexts]]
    exact ⟨o1 :: outs', serList_cons_of h1 h5, by simp [h6]⟩
  | .procInst t dt :: rest, outs, h => by
    obtain ⟨o1, os1, h1, h2, rfl⟩ := serList_cons_ok h
    obtain ⟨outs', h5, h6⟩ := serList_mergeTexts h2
    rw [show mergeTexts (XNode.procInst t dt :: rest)
      = XNode.procInst t dt :: mergeTexts rest from by simp [mergeTexts]]
    exact ⟨o1 :: outs', serList_cons_of h1 h5, by simp [h6]⟩
termination_by l => l.length

theorem serList_filter_comments {m : CanonicalizationMode} {i : List Str}
    {s c : List (Str × Str)} : ∀ {l : List XNode} {outs : List Str},
    serList m false i s c l = .ok outs →
    ∃ outs', serList m false i s c (l.filter (fun x => !isComment x)) = .ok outs' ∧
      outs'.flatten = outs.flatten
  | [], outs, h => ⟨outs, h, rfl⟩
  | x :: xs, outs, h => by
    obtain ⟨o, os, h1, h2, rfl⟩ := serList_cons_ok h
    obtain ⟨outs', h3, h4⟩ := serList_filter_comments h2
    cases hx : isComment x with
    | true =>
      have ho : o = [] := by
        cases x with
        | comment cm =>
          simp only [serNode, if_neg (by simp : ¬false = true), Except.ok.injEq] at h1
          exact h1.symm
        | text t => simp [isComment] at hx
        | elem n d a ch => simp [isComment] at hx
        | procInst t d => simp [isComment] at hx
      rw [show (x :: xs).filter (fun x => !isComment x) = xs.filter (fun x => !isComment x)
        from by simp [List.filter, hx]]
      exact ⟨outs', h3, by simp [h4, ho]⟩
    | false =>
      rw [show (x :: xs).filter (fun x => !isComment x)
        = x :: xs.filter (fun x => !isComment x) from by simp [List.filter, hx]]
      exact ⟨o :: outs', serList_cons_of h1 h3, by simp [h4]⟩

theorem serList_normCh {m : CanonicalizationMode} {kc : Bool} {i : List Str}
    {s c : List (Str × Str)} {l : List XNode} {outs : List Str}
    (h : serList m kc i s c l = .ok outs) :
    ∃ outs', serList m kc i s c (normCh kc l) = .ok outs' ∧
      outs'.flatten = outs.flatten := by
  cases kc with
  | true => exact ⟨outs, by rwa [show normCh true l = l from rfl], rfl⟩
  | false =>
    rw [show normCh false l = mergeTexts (l.filter (fun x => !isComment x)) from rfl]
    obtain ⟨outs1, h1, h2⟩ := serList_filter_comments h
    obtain ⟨outs2, h3, h4⟩ := serList_mergeTexts h1
    exact ⟨outs2, h3, by rw [h4, h2]⟩

theorem mergeTexts_mem : ∀ {l : List XNode} {x : XNode}, x ∈ mergeTexts l →
    isTextNode x = true ∨ x ∈ l
  | [], x, h => by rw [show mergeTexts [] = [] from by simp [mergeTexts]] at h; simp at h
  | .text a :: .text b :: rest, x, h => by
    rw [show mergeTexts (.text a :: .text b :: rest)
      = mergeTexts (.text (a ++ b) :: rest) from by simp [mergeTexts]] at h
    rcases mergeTexts_mem h with h1 | h1
    · exact Or.inl h1
    · rcases List.mem_cons.mp h1 with rfl | h2
      · exact Or.inl rfl
      · exact Or.inr (by simp [h2])
  | .text a :: [], x, h => by
    rw [show mergeTexts [XNode.text a] = [XNode.text a] from by simp [mergeTexts]] at h
    exact Or.inr h
  | .text a :: .elem n d at' ch :: rest, x, h => by
    rw [show mergeTexts (XNode.text a :: XNode.elem n d at' ch :: rest)
      = XNode.text a :: mergeTexts (XNode.elem n d at' ch :: rest) from by
        simp [mergeTexts]] at h
    rcases List.mem_cons.mp h with rfl | h1
    · exact Or.inr (by simp)
    · rcases mergeTexts_mem h1 with h2 | h2
      · exact Or.inl h2
      · exact Or.inr (List.mem_cons_of_mem _ h2)
  | .text a :: .comment cm :: rest, x, h => by
    rw [show mergeTexts (XNode.text a :: XNode.comment cm :: rest)
      = XNode.text a :: mergeTexts (XNode.comment cm :: rest) from by simp [mergeTexts]] at h
    rcases List.mem_cons.mp h with rfl | h1
    · exact Or.inr (by simp)
    · rcases mergeTexts_mem h1 with h2 | h2
      · exact Or.inl h2
      · exact Or.inr (List.mem_cons_of_mem _ h2)
  | .text a :: .procInst t dt :: rest, x, h => by
    rw [show mergeTexts (XNode.text a :: XNode.procInst t dt :: rest)
      = XNode.text a :: mergeTexts (XNode.procInst t dt :: rest) from by
        simp [mergeTexts]] at h
    rcases List.mem_cons.mp h with rfl | h1
    · exact Or.inr (by simp)
    · rcases mergeTexts_mem h1 with h2 | h2
      · exact Or.inl h2
      · exact Or.inr (List.mem_cons_of_mem _ h2)
  | .elem n d at' ch :: rest, x, h => by
    rw [show mergeTexts (XNode.elem n d at' ch :: rest)
      = XNode.elem n d at' ch :: mergeTexts rest from by simp [mergeTexts]] at h
    rcases List.mem_cons.mp h with rfl | h1
    · exact Or.inr (by simp)
    · rcases mergeTexts_mem h1 with h2 | h2
      · exact Or.inl h2
      · exact Or.inr (List.mem_cons_of_mem _ h2)
  | .comment cm :: rest, x, h => by
    rw [show mergeTexts (XNode.comment cm :: rest)
      = XNode.comment cm :: mergeTexts rest from by simp [mergeTexts]] at h
    rcases List.mem_cons.mp h with rfl | h1
    · exact Or.inr (by simp)
    · rcases mergeTexts_mem h1 with h2 | h2
      · exact Or.inl h2
      · exact Or.inr (List.mem_cons_of_mem _ h2)
  | .procInst t dt :: rest, x, h => by
    rw [show mergeTexts (XNode.procInst t dt :: rest)
      = XNode.procInst t dt :: mergeTexts rest from by simp [mergeTexts]] at h
    rcases List.mem_cons.mp h with rfl | h1
    · exact Or.inr (by simp)
    · rcases mergeTexts_mem h1 with h2 | h2
      · exact Or.inl h2
      · exact Or.inr (List.mem_cons_of_mem _ h2)
termination_by l => l.length

theorem normCh_listInv {kc : Bool} {l : List XNode} (h : listInv l = true) :
    listInv (normCh kc l) = true := by
  cases kc with
  | true => exact h
  | false =>
    rw [show normCh false l = mergeTexts (l.filter (fun x => !isComment x)) from rfl]
    refine mergeTexts_listInv ?_
    intro c hc
    exact listInv_mem h c (List.mem_of_mem_filter hc)

theorem normCh_commentFree {l : List XNode} :
    ∀ c ∈ normCh false l, isComment c = false := by
  intro c hc
  rw [show normCh false l = mergeTexts (l.filter (fun x => !isComment x)) from rfl] at hc
  rcases mergeTexts_mem hc with h | h
  · cases c with
    | text s => rfl
    | elem n d a ch => rfl
    | comment s => simp [isTextNode] at h
    | procInst t d => rfl
  · simpa using (List.mem_filter.mp h).2

theorem normCh_elem_mem {kc : Bool} {l : List XNode} :
    ∀ c ∈ normCh kc l, isElemNode c = true → c ∈ l := by
  intro c hc he
  cases kc with
  | true => exact hc
  | false =>
    rw [show normCh false l = mergeTexts (l.filter (fun x => !isComment x)) from rfl] at hc
    rcases mergeTexts_mem hc with h | h
    · cases c with
      | elem n d a ch => simp [isTextNode] at h
      | text s => simp [isElemNode] at he
      | comment s => simp [isElemNode] at he
      | procInst t d => simp [isElemNode] at he
    · exact List.mem_of_mem_filter h

theorem nodupQNames_of_perm {l l' : List XAttr} (hp : l.Perm l')
    (h : nodupQNames l = true) : nodupQNames l' = true := by
  rw [nodupQNames_iff] at h ⊢
  exact (List.Perm.pairwise_iff (fun hab => fun he => hab he.symm) hp).mp h

theorem flatten_map_length_ge {α : Type} (f : α → Str) (h : ∀ x, 1 ≤ (f x).length) :
    ∀ l : List α, l.length ≤ ((l.map f).flatten).length
  | [] => by simp
  | x :: xs => by
    have := flatten_map_length_ge f h xs
    have hx := h x
    simp only [List.map_cons, List.flatten_cons, List.length_append, List.length_cons]
    omega

theorem utilizedPfxs_contains_congr {name : QName} {attrs attrs2 : List XAttr}
    (hperm : attrs2.Perm attrs) :
    ∀ q, (utilizedPfxs name attrs2).contains q = (utilizedPfxs name attrs).contains q := by
  intro q
  have hp : (utilizedPfxs name attrs2).Perm (utilizedPfxs name attrs) :=
    (hperm.filterMap _).cons _
  cases hq : (utilizedPfxs name attrs).contains q with
  | true =>
    have : q ∈ utilizedPfxs name attrs := by simpa using hq
    exact contains_eq_true_of_mem (hp.mem_iff.mpr this)
  | false =>
    have : q ∉ utilizedPfxs name attrs := by simpa using hq
    have h2 : q ∉ utilizedPfxs name attrs2 := fun hc => this (hp.mem_iff.mp hc)
    simpa using h2

theorem serNode_elem_name_ok {m : CanonicalizationMode} {kc : Bool} {i : List Str}
    {scope ctx : List (Str × Str)} {name : QName} {nsd : List (Str × Str)}
    {attrs : List XAttr} {children : List XNode} {out : Str}
    (h : serNode m kc i scope ctx (.elem name nsd attrs children) = .ok out) :
    ∀ p, name.pfx = some p → ∃ u, lookupPfx (nsd ++ scope) p = some u := by
  intro p hp
  simp only [serNode, bind, Except.bind, hp] at h
  cases hl : lookupPfx (nsd ++ scope) p with
  | none =>
    rw [hl] at h
    exact Except.noConfusion h
  | some u => exact ⟨u, rfl⟩

theorem serNode_head_lt {m : CanonicalizationMode} {kc : Bool} {i : List Str}
    {s c : List (Str × Str)} {x : XNode} {o : Str}
    (hx : isTextNode x = false) (hcf : isComment x = true → kc = true)
    (h : serNode m kc i s c x = .ok o) : ∃ tl, o = '<' :: tl := by
  cases x with
  | text t => simp [isTextNode] at hx
  | comment cm =>
    have hkc := hcf rfl
    subst hkc
    simp only [serNode, if_pos rfl, Except.ok.injEq] at h
    exact ⟨"!--".data ++ cm ++ "-->".data, by rw [← h]; rfl⟩
  | procInst t d =>
    simp only [serNode, Except.ok.injEq] at h
    exact ⟨'?' :: t ++ ((if d.isEmpty then [] else ' ' :: d) ++ ['?', '>']), by
      rw [← h]; simp⟩
  | elem name nsd attrs children =>
    obtain ⟨akeys, childOuts, -, -, hsh⟩ := serNode_elem_ok h
    exact ⟨_, hsh⟩

theorem trailer_head (nsL : List (Str × Str)) (aL : List (Str × XAttr)) (Z : Str) :
    ∀ ch, ((nsL.map renderNsDecl).flatten ++
      (((aL.map renderAttr).flatten) ++ '>' :: Z)).head? = some ch →
      isNCChar ch = false ∧ ¬ch = ':' := by
  intro ch hch
  have : ch = ' ' ∨ ch = '>' := by
    cases nsL with
    | cons e nsL' =>
      have hsh : ∃ t, renderNsDecl e = ' ' :: t := by
        simp only [renderNsDecl]
        split
        · exact ⟨_, rfl⟩
        · exact ⟨_, rfl⟩
      obtain ⟨t, ht⟩ := hsh
      simp only [List.map_cons, List.flatten_cons, ht] at hch
      simp only [List.cons_append, List.head?_cons, Option.some.injEq] at hch
      exact Or.inl hch.symm
    | nil =>
      simp only [List.map_nil, List.flatten_nil, List.nil_append] at hch
      cases aL with
      | cons e aL' =>
        simp only [List.map_cons, List.flatten_cons, renderAttr] at hch
        simp only [List.cons_append, List.head?_cons, Option.some.injEq] at hch
        exact Or.inl hch.symm
      | nil =>
        simp only [List.map_nil, List.flatten_nil, List.nil_append, List.head?_cons,
          Option.some.injEq] at hch
        exact Or.inr hch.symm
  rcases this with rfl | rfl
  · exact ⟨by decide, by decide⟩
  · exact ⟨by decide, by decide⟩

theorem pContent_step_end {f : Nat} {cs txt R : Str}
    (hT : pText (cs.length + 1) [] cs = some (txt, '<' :: '/' :: R)) :
    pContent (f + 1) cs = some ((if txt.isEmpty then [] else [XNode.text txt]), R) := by
  simp only [pContent, bind, hT, Option.some_bind, Option.pure_def]

theorem pContent_step_comment {f : Nat} {cs txt cm X : Str}
    (hT : pText (cs.length + 1) [] cs
      = some (txt, '<' :: '!' :: '-' :: '-' :: (cm ++ '-' :: '-' :: '>' :: X)))
    (hsub : hasSub3 '-' '-' '>' cm = false) :
    pContent (f + 1) cs = (pContent f X).bind (fun pr =>
      some ((if txt.isEmpty then [] else [XNode.text txt]) ++ XNode.comment cm :: pr.1,
        pr.2)) := by
  have hcm : pComment ((cm ++ '-' :: '-' :: '>' :: X).length + 1) [] (cm ++ '-' :: '-' :: '>' :: X)
      = some (cm, X) := by
    have := pComment_inv cm ((cm ++ '-' :: '-' :: '>' :: X).length + 1) [] X hsub (by
      simp only [List.length_append, List.length_cons]
      omega)
    simpa using this
  simp only [pContent, bind, hT, Option.some_bind, Option.pure_def, hcm]

theorem pContent_step_pi {f : Nat} {cs txt t d X : Str}
    (hT : pText (cs.length + 1) [] cs
      = some (txt, '<' :: '?' :: (t ++ ((if d.isEmpty then [] else ' ' :: d) ++
          '?' :: '>' :: X))))
    (ht : goodNC t = true) (hxml : ¬(t.map Char.toLower = "xml".data))
    (hsub : hasSub2 '?' '>' d = false)
    (hhead : ∀ c r, d = c :: r → isXmlSpace c = false) :
    pContent (f + 1) cs = (pContent f X).bind (fun pr =>
      some ((if txt.isEmpty then [] else [XNode.text txt]) ++ XNode.procInst t d :: pr.1,
        pr.2)) := by
  have hpi : pPI ((t ++ ((if d.isEmpty then [] else ' ' :: d) ++ '?' :: '>' :: X)).length + 1)
      (t ++ ((if d.isEmpty then [] else ' ' :: d) ++ '?' :: '>' :: X))
      = some (XNode.procInst t d, X) := by
    refine pPI_inv ht hxml hsub hhead ?_
    simp only [List.length_append, List.length_cons]
    cases d with
    | nil => simp
    | cons c0 d' =>
      simp only [List.isEmpty_cons, Bool.false_eq_true, if_false, List.length_cons]
      omega
  simp only [pContent, bind, hT, Option.some_bind, Option.pure_def, hpi]

theorem pContent_step_elem {f : Nat} {cs txt tl X : Str} {c0 : Char} {r0 : Str} {n2 : XNode}
    (hT : pText (cs.length + 1) [] cs = some (txt, '<' :: (tl ++ X)))
    (htl : tl = c0 :: r0) (hstart : isNCStart c0 = true)
    (hE : pElement f (tl ++ X) = some (n2, X)) :
    pContent (f + 1) cs = (pContent f X).bind (fun pr =>
      some ((if txt.isEmpty then [] else [XNode.text txt]) ++ n2 :: pr.1, pr.2)) := by
  subst htl
  have h1 : ¬c0 = '/' := by rintro rfl; exact absurd hstart (by decide)
  have h2 : ¬c0 = '!' := by rintro rfl; exact absurd hstart (by decide)
  have h3 : ¬c0 = '?' := by rintro rfl; exact absurd hstart (by decide)
  rw [List.cons_append] at hT hE
  simp only [pContent, bind, hT, Option.some_bind, Option.pure_def]
  split
  · next rest heq =>
    exact absurd (List.cons.inj heq).2 (fun hc => h1 (List.cons.inj hc).1)
  · next rest heq =>
    exact absurd (List.cons.inj heq).2 (fun hc => h2 (List.cons.inj hc).1)
  · next rest heq =>
    exact absurd (List.cons.inj heq).2 (fun hc => h3 (List.cons.inj hc).1)
  · next a hc1 hc2 hc3 heq =>
    obtain ⟨-, ha⟩ := List.cons.inj heq
    rw [← ha, hE]
    simp only [bind, Option.some_bind]
  · next hne =>
    exact (hne _ rfl).elim

theorem pText_at_lt (n : Nat) (rest : Str) :
    pText (n + 1) [] ('<' :: rest) = some ([], '<' :: rest) := by
  simp [pText]

theorem listInv_adj {a b : XNode} {r : List XNode} (h : listInv (a :: b :: r) = true) :
    (isTextNode a && isTextNode b) = false ∧ nodeInv a = true ∧ listInv (b :: r) = true := by
  rw [show listInv (a :: b :: r) =
    (nodeInv a && !(isTextNode a && isTextNode b) && listInv (b :: r)) from rfl] at h
  simp only [Bool.and_eq_true, Bool.not_eq_true'] at h
  exact ⟨h.1.2, h.1.1, h.2⟩

theorem serList_nil_ok {m : CanonicalizationMode} {kc : Bool} {i : List Str}
    {s c : List (Str × Str)} {outs : List Str} (h : serList m kc i s c [] = .ok outs) :
    outs = [] := by
  simp only [serList, Except.ok.injEq] at h
  exact h.symm

/-- The element round trip: a serialized element re-parses to an element
that re-serializes, against the rendered context as both scope and
context, to the same bytes. -/
def ElemRT (m : CanonicalizationMode) (kc : Bool) (incl : List Str) (n : XNode) : Prop :=
  ∀ (scope ctx : List (Str × Str)) (tl rest : Str) (fuel : Nat),
    nodeInv n = true → isElemNode n = true →
    scopeOK scope = true → scopeOK ctx = true →
    serNode m kc incl scope ctx n = .ok ('<' :: tl) →
    tl.length + rest.length < fuel →
    ∃ n2, pElement fuel (tl ++ rest) = some (n2, rest) ∧
      serNode m kc incl ctx ctx n2 = .ok ('<' :: tl)

theorem nodeInv_pi_fields {t d : Str} (h : nodeInv (.procInst t d) = true) :
    goodNC t = true ∧ ¬(t.map Char.toLower = "xml".data) ∧ hasSub2 '?' '>' d = false ∧
    (∀ c r, d = c :: r → isXmlSpace c = false) := by
  simp only [nodeInv, Bool.and_eq_true] at h
  obtain ⟨⟨⟨⟨⟨h1, h2⟩, h3⟩, -⟩, -⟩, h6⟩ := h
  refine ⟨h1, by simpa using h2, by simpa using h3, ?_⟩
  intro c r hd
  rw [hd] at h6
  simpa using h6

theorem nodeInv_comment_fields {s : Str} (h : nodeInv (.comment s) = true) :
    hasSub3 '-' '-' '>' s = false := by
  simp only [nodeInv, Bool.and_eq_true] at h
  simpa using h.1.1

theorem nodeInv_text_fields {s : Str} (h : nodeInv (.text s) = true) :
    s.isEmpty = false := by
  simp only [nodeInv, Bool.and_eq_true] at h
  simpa using h.1

theorem contentRT (m : CanonicalizationMode) (kc : Bool) (incl : List Str) :
    ∀ (l : List XNode) (scope ctx : List (Str × Str)) (outs : List Str) (R : Str) (fuel : Nat),
    listInv l = true →
    (∀ x ∈ l, isComment x = true → kc = true) →
    (∀ x ∈ l, isElemNode x = true → ElemRT m kc incl x) →
    scopeOK scope = true → scopeOK ctx = true →
    serList m kc incl scope ctx l = .ok outs →
    outs.flatten.length + R.length + 2 < fuel →
    ∃ l2 outs2, pContent fuel (outs.flatten ++ '<' :: '/' :: R) = some (l2, R) ∧
      serList m kc incl ctx ctx l2 = .ok outs2 ∧ outs2.flatten = outs.flatten
  | [], scope, ctx, outs, R, fuel, _, _, _, _, _, h, hf => by
    have ho := serList_nil_ok h
    subst ho
    cases fuel with
    | zero => simp at hf
    | succ f =>
      refine ⟨[], [], ?_, rfl, rfl⟩
      simp only [List.flatten_nil, List.nil_append]
      rw [pContent_step_end (pText_at_lt _ _)]
      rfl
  | [.text t], scope, ctx, outs, R, fuel, hinv, _, _, _, _, h, hf => by
    obtain ⟨o, os, h1, h2, rfl⟩ := serList_cons_ok h
    have ho := serList_nil_ok h2
    subst ho
    have h1' : o = escText t := by
      simp only [serNode, Except.ok.injEq] at h1
      exact h1.symm
    subst h1'
    have hte : t.isEmpty = false :=
      nodeInv_text_fields (listInv_mem hinv _ (by simp))
    cases fuel with
    | zero => simp at hf
    | succ f =>
      have hsh : ([escText t]).flatten ++ '<' :: '/' :: R = escText t ++ '<' :: '/' :: R := by
        simp
      have hT : pText ((escText t ++ '<' :: '/' :: R).length + 1) [] (escText t ++ '<' :: '/' :: R)
          = some (t, '<' :: '/' :: R) := by
        have := pText_inv t ((escText t ++ '<' :: '/' :: R).length + 1) [] ('<' :: '/' :: R)
          rfl (by
            have := escText_length t
            simp only [List.length_append, List.length_cons]
            omega)
        simpa using this
      refine ⟨[.text t], [escText t], ?_, serList_cons_of rfl rfl, rfl⟩
      rw [hsh, pContent_step_end hT]
      simp [hte]
  | .text t :: c :: l'', scope, ctx, outs, R, fuel, hinv, hcf, hel, hsc, hcc, h, hf => by
    obtain ⟨o, os0, h1, h2, rfl⟩ := serList_cons_ok h
    obtain ⟨oc, os, h3, h4, rfl⟩ := serList_cons_ok h2
    have h1' : o = escText t := by
      simp only [serNode, Except.ok.injEq] at h1
      exact h1.symm
    subst h1'
    have hte : t.isEmpty = false :=
      nodeInv_text_fields (listInv_mem hinv _ (by simp))
    obtain ⟨hadj, -, hinv'⟩ := listInv_adj hinv
    have hcinv : nodeInv c = true := listInv_mem hinv _ (by simp)
    cases fuel with
    | zero => simp at hf
    | succ f =>
      have hlen : os.flatten.length + R.length + 2 < f := by
        have hoc : 1 ≤ oc.length := by
          obtain ⟨tl, htl⟩ := serNode_head_lt (by
              cases c with
              | text s => exact absurd hadj (by simp [isTextNode])
              | elem nm nd na nch => rfl
              | comment cm => rfl
              | procInst pt pd => rfl)
            (fun hcm => hcf c (by simp) hcm) h3
          rw [htl]
          simp
        simp only [List.flatten_cons, List.length_append, List.length_cons] at hf ⊢
        omega
      obtain ⟨l2', outs2', hP, hS, hF⟩ := contentRT m kc incl l'' scope ctx os R f
        (listInv_tail hinv') (fun x hx => hcf x (by simp [hx]))
        (fun x hx => hel x (by simp [hx])) hsc hcc h4 hlen
      cases c with
      | text s => exact absurd hadj (by simp [isTextNode])
      | comment cm =>
        have hkc : kc = true := hcf (XNode.comment cm) (by simp) rfl
        subst hkc
        have hoc : oc = "<!--".data ++ cm ++ "-->".data := by
          simp only [serNode, if_pos rfl, Except.ok.injEq] at h3
          exact h3.symm
        subst hoc
        have hsub := nodeInv_comment_fields hcinv
        have hsh : (escText t :: ("<!--".data ++ cm ++ "-->".data) :: os).flatten
            ++ '<' :: '/' :: R
            = escText t ++ ('<' :: '!' :: '-' :: '-' ::
              (cm ++ '-' :: '-' :: '>' :: (os.flatten ++ '<' :: '/' :: R))) := by
          simp
        have hT : pText (((escText t ++ ('<' :: '!' :: '-' :: '-' ::
            (cm ++ '-' :: '-' :: '>' :: (os.flatten ++ '<' :: '/' :: R))))).length + 1) []
            (escText t ++ ('<' :: '!' :: '-' :: '-' ::
              (cm ++ '-' :: '-' :: '>' :: (os.flatten ++ '<' :: '/' :: R))))
            = some (t, '<' :: '!' :: '-' :: '-' ::
              (cm ++ '-' :: '-' :: '>' :: (os.flatten ++ '<' :: '/' :: R))) := by
          have := pText_inv t ((escText t ++ ('<' :: '!' :: '-' :: '-' ::
              (cm ++ '-' :: '-' :: '>' :: (os.flatten ++ '<' :: '/' :: R)))).length + 1) []
            ('<' :: '!' :: '-' :: '-' :: (cm ++ '-' :: '-' :: '>' ::
              (os.flatten ++ '<' :: '/' :: R))) rfl (by
              have := escText_length t
              simp only [List.length_append, List.length_cons]
              omega)
          simpa using this
        refine ⟨.text t :: .comment cm :: l2',
          escText t :: ("<!--".data ++ cm ++ "-->".data) :: outs2', ?_, ?_, ?_⟩
        · rw [hsh, pContent_step_comment hT hsub, hP]
          simp [hte]
        · exact serList_cons_of rfl (serList_cons_of rfl hS)
        · simp [hF]
      | procInst pt pd =>
        have hoc : oc = '<' :: '?' :: pt ++ ((if pd.isEmpty then [] else ' ' :: pd)
            ++ ['?', '>']) := by
          simp only [serNode, Except.ok.injEq] at h3
          rw [← h3]
          simp
        subst hoc
        obtain ⟨hgt, hxml, hsub2, hhead⟩ := nodeInv_pi_fields hcinv
        have hsh2 : (escText t :: ('<' :: '?' :: pt ++ ((if pd.isEmpty then [] else ' ' :: pd)
              ++ ['?', '>'])) :: os).flatten ++ '<' :: '/' :: R
            = escText t ++ ('<' :: '?' :: (pt ++ ((if pd.isEmpty then [] else ' ' :: pd)
              ++ '?' :: '>' :: (os.flatten ++ '<' :: '/' :: R)))) := by
          simp
        have hT : pText (((escText t ++ ('<' :: '?' :: (pt ++
            ((if pd.isEmpty then [] else ' ' :: pd) ++ '?' :: '>' ::
              (os.flatten ++ '<' :: '/' :: R)))))).length + 1) []
            (escText t ++ ('<' :: '?' :: (pt ++ ((if pd.isEmpty then [] else ' ' :: pd)
              ++ '?' :: '>' :: (os.flatten ++ '<' :: '/' :: R)))))
            = some (t, '<' :: '?' :: (pt ++ ((if pd.isEmpty then [] else ' ' :: pd)
              ++ '?' :: '>' :: (os.flatten ++ '<' :: '/' :: R)))) := by
          have := pText_inv t ((escText t ++ ('<' :: '?' :: (pt ++
              ((if pd.isEmpty then [] else ' ' :: pd) ++ '?' :: '>' ::
                (os.flatten ++ '<' :: '/' :: R))))).length + 1) []
            ('<' :: '?' :: (pt ++ ((if pd.isEmpty then [] else ' ' :: pd)
              ++ '?' :: '>' :: (os.flatten ++ '<' :: '/' :: R)))) rfl (by
              have := escText_length t
              simp only [List.length_append, List.length_cons]
              omega)
          simpa using this
        refine ⟨.text t :: .procInst pt pd :: l2',
          escText t :: ('<' :: '?' :: pt ++ ((if pd.isEmpty then [] else ' ' :: pd)
            ++ ['?', '>'])) :: outs2', ?_, ?_, ?_⟩
        · rw [hsh2, pContent_step_pi hT hgt hxml hsub2 hhead, hP]
          simp [hte]
        · exact serList_cons_of rfl (serList_cons_of (by simp [serNode]) hS)
        · simp [hF]
      | elem nm nd na nch =>
        obtain ⟨akeys, childOuts, hak, hch, hosh⟩ := serNode_elem_ok h3
        have hq : goodQ nm = true := by
          simp only [nodeInv, Bool.and_eq_true] at hcinv
          exact hcinv.1.1.1.1.1
        obtain ⟨c0, r0, hqn, hstart⟩ := goodQ_qnameStr_head hq
        simp only [List.append_assoc] at hosh
        rw [hqn] at hosh
        simp only [List.cons_append] at hosh
        obtain ⟨tl, htl2⟩ : ∃ tl, oc = '<' :: c0 :: tl := ⟨_, hosh⟩
        clear hosh
        subst htl2
        have hRT : ElemRT m kc incl (XNode.elem nm nd na nch) := hel _ (by simp) rfl
        have hlen2 : (c0 :: tl).length + (os.flatten ++ '<' :: '/' :: R).length < f := by
          simp only [List.flatten_cons, List.length_append, List.length_cons] at hf ⊢
          omega
        obtain ⟨c2, hPE, hSE⟩ := hRT scope ctx (c0 :: tl) (os.flatten ++ '<' :: '/' :: R) f
          hcinv rfl hsc hcc h3 hlen2
        have hsh : (escText t :: ('<' :: c0 :: tl) :: os).flatten ++ '<' :: '/' :: R
            = escText t ++ ('<' :: ((c0 :: tl) ++ (os.flatten ++ '<' :: '/' :: R))) := by
          simp
        have hT : pText (((escText t ++ ('<' :: ((c0 :: tl) ++
            (os.flatten ++ '<' :: '/' :: R))))).length + 1) []
            (escText t ++ ('<' :: ((c0 :: tl) ++ (os.flatten ++ '<' :: '/' :: R))))
            = some (t, '<' :: ((c0 :: tl) ++ (os.flatten ++ '<' :: '/' :: R))) := by
          have := pText_inv t ((escText t ++ ('<' :: ((c0 :: tl) ++
              (os.flatten ++ '<' :: '/' :: R)))).length + 1) []
            ('<' :: ((c0 :: tl) ++ (os.flatten ++ '<' :: '/' :: R))) rfl (by
              have := escText_length t
              simp only [List.length_append, List.length_cons]
              omega)
          simpa using this
        refine ⟨.text t :: c2 :: l2', escText t :: ('<' :: c0 :: tl) :: outs2', ?_, ?_, ?_⟩
        · rw [hsh, pContent_step_elem hT rfl hstart hPE, hP]
          simp [hte]
        · exact serList_cons_of rfl (serList_cons_of hSE hS)
        · simp [hF]
  | .comment cm :: l', scope, ctx, outs, R, fuel, hinv, hcf, hel, hsc, hcc, h, hf => by
    have hkc : kc = true := hcf (XNode.comment cm) (by simp) rfl
    subst hkc
    obtain ⟨oc, os, h3, h4, rfl⟩ := serList_cons_ok h
    have hcinv : nodeInv (XNode.comment cm) = true := listInv_mem hinv _ (by simp)
    have hoc : oc = "<!--".data ++ cm ++ "-->".data := by
      simp only [serNode, if_pos rfl, Except.ok.injEq] at h3
      exact h3.symm
    subst hoc
    have hsub := nodeInv_comment_fields hcinv
    cases fuel with
    | zero => simp at hf
    | succ f =>
      have hlen : os.flatten.length + R.length + 2 < f := by
        simp only [List.flatten_cons, List.length_append, List.length_cons] at hf ⊢
        omega
      obtain ⟨l2', outs2', hP, hS, hF⟩ := contentRT m true incl l' scope ctx os R f
        (listInv_tail hinv) (fun x hx => hcf x (by simp [hx]))
        (fun x hx => hel x (by simp [hx])) hsc hcc h4 hlen
      have hsh : (("<!--".data ++ cm ++ "-->".data) :: os).flatten ++ '<' :: '/' :: R
          = '<' :: '!' :: '-' :: '-' ::
            (cm ++ '-' :: '-' :: '>' :: (os.flatten ++ '<' :: '/' :: R)) := by
        simp
      refine ⟨.comment cm :: l2', ("<!--".data ++ cm ++ "-->".data) :: outs2', ?_, ?_, ?_⟩
      · rw [hsh, pContent_step_comment (pText_at_lt _ _) hsub, hP]
        rfl
      · exact serList_cons_of rfl hS
      · simp [hF]
  | .procInst pt pd :: l', scope, ctx, outs, R, fuel, hinv, hcf, hel, hsc, hcc, h, hf => by
    obtain ⟨oc, os, h3, h4, rfl⟩ := serList_cons_ok h
    have hcinv : nodeInv (XNode.procInst pt pd) = true := listInv_mem hinv _ (by simp)
    have hoc : oc = '<' :: '?' :: pt ++ ((if pd.isEmpty then [] else ' ' :: pd)
        ++ ['?', '>']) := by
      simp only [serNode, Except.ok.injEq] at h3
      rw [← h3]
      simp
    subst hoc
    obtain ⟨hgt, hxml, hsub2, hhead⟩ := nodeInv_pi_fields hcinv
    cases fuel with
    | zero => simp at hf
    | succ f =>
      have hlen : os.flatten.length + R.length + 2 < f := by
        simp only [List.flatten_cons, List.length_append, List.length_cons] at hf ⊢
        omega
      obtain ⟨l2', outs2', hP, hS, hF⟩ := contentRT m kc incl l' scope ctx os R f
        (listInv_tail hinv) (fun x hx => hcf x (by simp [hx]))
        (fun x hx => hel x (by simp [hx])) hsc hcc h4 hlen
      have hsh : (('<' :: '?' :: pt ++ ((if pd.isEmpty then [] else ' ' :: pd)
            ++ ['?', '>'])) :: os).flatten ++ '<' :: '/' :: R
          = '<' :: '?' :: (pt ++ ((if pd.isEmpty then [] else ' ' :: pd)
            ++ '?' :: '>' :: (os.flatten ++ '<' :: '/' :: R))) := by
        simp
      refine ⟨.procInst pt pd :: l2', ('<' :: '?' :: pt ++
        ((if pd.isEmpty then [] else ' ' :: pd) ++ ['?', '>'])) :: outs2', ?_, ?_, ?_⟩
      · rw [hsh, pContent_step_pi (pText_at_lt _ _) hgt hxml hsub2 hhead, hP]
        rfl
      · exact serList_cons_of (by simp [serNode]) hS
      · simp [hF]
  | .elem nm nd na nch :: l', scope, ctx, outs, R, fuel, hinv, hcf, hel, hsc, hcc, h, hf => by
    obtain ⟨oc, os, h3, h4, rfl⟩ := serList_cons_ok h
    have hcinv : nodeInv (XNode.elem nm nd na nch) = true := listInv_mem hinv _ (by simp)
    obtain ⟨akeys, childOuts, hak, hch, hosh⟩ := serNode_elem_ok h3
    have hq : goodQ nm = true := by
      simp only [nodeInv, Bool.and_eq_true] at hcinv
      exact hcinv.1.1.1.1.1
    obtain ⟨c0, r0, hqn, hstart⟩ := goodQ_qnameStr_head hq
    simp only [List.append_assoc] at hosh
    rw [hqn] at hosh
    simp only [List.cons_append] at hosh
    obtain ⟨tl, htl2⟩ : ∃ tl, oc = '<' :: c0 :: tl := ⟨_, hosh⟩
    clear hosh
    subst htl2
    have hRT : ElemRT m kc incl (XNode.elem nm nd na nch) := hel _ (by simp) rfl
    cases fuel with
    | zero => simp at hf
    | succ f =>
      have hlen : os.flatten.length + R.length + 2 < f := by
        simp only [List.flatten_cons, List.length_append, List.length_cons] at hf ⊢
        omega
      obtain ⟨l2', outs2', hP, hS, hF⟩ := contentRT m kc incl l' scope ctx os R f
        (listInv_tail hinv) (fun x hx => hcf x (by simp [hx]))
        (fun x hx => hel x (by simp [hx])) hsc hcc h4 hlen
      have hlen2 : (c0 :: tl).length + (os.flatten ++ '<' :: '/' :: R).length < f := by
        simp only [List.flatten_cons, List.length_append, List.length_cons] at hf ⊢
        omega
      obtain ⟨c2, hPE, hSE⟩ := hRT scope ctx (c0 :: tl) (os.flatten ++ '<' :: '/' :: R) f
        hcinv rfl hsc hcc h3 hlen2
      have hsh : (('<' :: c0 :: tl) :: os).flatten ++ '<' :: '/' :: R
          = '<' :: ((c0 :: tl) ++ (os.flatten ++ '<' :: '/' :: R)) := by
        simp
      refine ⟨c2 :: l2', ('<' :: c0 :: tl) :: outs2', ?_, ?_, ?_⟩
      · rw [hsh, pContent_step_elem (pText_at_lt _ _) rfl hstart hPE, hP]
        rfl
      · exact serList_cons_of hSE hS
      · simp [hF]
termination_by l => l.length

theorem goodQ_pfx_goodNC {name : QName} {p : Str} (hq : goodQ name = true)
    (hp : name.pfx = some p) : goodNC p = true := by
  simp only [goodQ, hp, Bool.and_eq_true] at hq
  exact hq.1

theorem goodNC_ne_nil {p : Str} (hp : goodNC p = true) : ¬p = [] := by
  intro hc
  rw [hc] at hp
  exact absurd hp (by decide)

theorem serNode_roundtrip_elem {m : CanonicalizationMode} {kc : Bool} {incl : List Str}
    {scope ctx nsd : List (Str × Str)} {name : QName} {attrs : List XAttr}
    {akeys : List (Str × XAttr)} {l2 : List XNode} {outs2 : List Str}
    (hq : goodQ name = true)
    (hsok : scopeOK (nsd ++ scope) = true)
    (hname : ∀ p, name.pfx = some p → ∃ u, lookupPfx (nsd ++ scope) p = some u)
    (hak : resolveAttrs (nsd ++ scope) attrs = .ok akeys)
    (hattrsInv : ∀ a ∈ attrs, goodQ a.name = true)
    (hS : serList m kc incl
        (sortLe nsLe (nsToRender m incl (nsd ++ scope) ctx name attrs) ++ ctx)
        (sortLe nsLe (nsToRender m incl (nsd ++ scope) ctx name attrs) ++ ctx) l2
      = .ok outs2) :
    serNode m kc incl ctx ctx
      (.elem name (sortLe nsLe (nsToRender m incl (nsd ++ scope) ctx name attrs))
        ((sortLe attrLe akeys).map (fun e => e.2)) l2)
    = .ok ('<' :: qnameStr name
      ++ ((sortLe nsLe (nsToRender m incl (nsd ++ scope) ctx name attrs)).map
          renderNsDecl).flatten
      ++ ((sortLe attrLe akeys).map renderAttr).flatten
      ++ '>' :: outs2.flatten ++ '<' :: '/' :: qnameStr name ++ ['>']) := by
  obtain ⟨hmap, hpt⟩ := resolveAttrs_ok_eq hak
  have hperm : ((sortLe attrLe akeys).map (fun e => e.2)).Perm attrs := by
    rw [← hmap]
    exact (sortLe_perm attrLe akeys).map _
  have hpw : ∀ e ∈ sortLe attrLe akeys,
      resolveAttrPfx (sortLe nsLe (nsToRender m incl (nsd ++ scope) ctx name attrs) ++ ctx)
        e.2 = .ok e := by
    intro e he
    have he' : e ∈ akeys := (mem_sortLe _ _ _).mp he
    have hp1 := hpt e he'
    have hmem2 : e.2 ∈ attrs := by
      rw [← hmap]
      exact List.mem_map.mpr ⟨e, he', rfl⟩
    cases hpfx : e.2.name.pfx with
    | none =>
      simp only [resolveAttrPfx, hpfx] at hp1 ⊢
      simp only [Except.ok.injEq] at hp1
      rw [hp1]
    | some p =>
      simp only [resolveAttrPfx, hpfx] at hp1 ⊢
      cases hl : lookupPfx (nsd ++ scope) p with
      | none =>
        rw [hl] at hp1
        exact Except.noConfusion hp1
      | some u =>
        rw [hl] at hp1
        simp only [Except.ok.injEq] at hp1
        have hpnc : goodNC p = true := goodQ_pfx_goodNC (hattrsInv _ hmem2) hpfx
        have hu : ¬u = [] := lookupPfx_scopeOK hsok hl (goodNC_ne_nil hpnc)
        have htr := @lookupPfx_render_transfer m incl _ ctx name attrs _ _ hl hu (fun _ => by
            rw [Bool.or_eq_true]
            left
            refine contains_eq_true_of_mem ?_
            exact List.mem_cons_of_mem _
              (List.mem_filterMap.mpr ⟨e.2, hmem2, by rw [hpfx]⟩))
        rw [htr]
        exact congrArg Except.ok hp1
  have hres : resolveAttrs
      (sortLe nsLe (nsToRender m incl (nsd ++ scope) ctx name attrs) ++ ctx)
      ((sortLe attrLe akeys).map (fun e => e.2)) = .ok (sortLe attrLe akeys) :=
    resolveAttrs_of_pointwise hpw
  have hns2 : sortLe nsLe (nsToRender m incl
      (sortLe nsLe (nsToRender m incl (nsd ++ scope) ctx name attrs) ++ ctx) ctx name
      ((sortLe attrLe akeys).map (fun e => e.2)))
      = sortLe nsLe (nsToRender m incl (nsd ++ scope) ctx name attrs) :=
    nsToRender_roundtrip (utilizedPfxs_contains_congr hperm)
  have hsort2 : sortLe attrLe (sortLe attrLe akeys) = sortLe attrLe akeys :=
    sortLe_of_pairwiseLe (pairwiseLe_sortLe attrLe_total
      (fun h1 h2 => attrLe_trans h1 h2) _)
  have hnm : ∃ w, (match name.pfx with
      | none => Except.ok ([] : Str)
      | some p =>
        match lookupPfx (sortLe nsLe (nsToRender m incl (nsd ++ scope) ctx name attrs)
            ++ ctx) p with
        | some u => Except.ok u
        | none => Except.error (C14NErr.unboundPfx p)) = Except.ok w := by
    cases hpfx : name.pfx with
    | none => exact ⟨[], rfl⟩
    | some p =>
      obtain ⟨u, hu⟩ := hname p hpfx
      have hpnc : goodNC p = true := goodQ_pfx_goodNC hq hpfx
      have hune : ¬u = [] := lookupPfx_scopeOK hsok hu (goodNC_ne_nil hpnc)
      have htr := @lookupPfx_render_transfer m incl _ ctx name attrs _ _ hu hune (fun _ => by
          rw [Bool.or_eq_true]
          left
          refine contains_eq_true_of_mem ?_
          rw [show utilizedPfxs name attrs
            = (match name.pfx with | none => [] | some q => q)
              :: attrs.filterMap (fun a => a.name.pfx) from rfl, hpfx]
          simp)
      refine ⟨u, ?_⟩
      show (match lookupPfx (sortLe nsLe (nsToRender m incl (nsd ++ scope) ctx name attrs)
          ++ ctx) p with
        | some u => Except.ok u
        | none => Except.error (C14NErr.unboundPfx p)) = Except.ok u
      rw [htr]
  obtain ⟨w, hw⟩ := hnm
  simp only [serNode, bind, Except.bind, hw, hns2, hres, hsort2, hS]

theorem nodeInv_elem_fields {name : QName} {nsd : List (Str × Str)} {attrs : List XAttr}
    {children : List XNode} (h : nodeInv (.elem name nsd attrs children) = true) :
    goodQ name = true ∧ scopeOK nsd = true ∧ nodupKeysNs nsd = true ∧
    (∀ a ∈ attrs, goodQ a.name = true ∧ declOf a.name = none) ∧
    nodupQNames attrs = true ∧ listInv children = true := by
  simp only [nodeInv, Bool.and_eq_true] at h
  obtain ⟨⟨⟨⟨⟨h1, h2⟩, h3⟩, h4⟩, h5⟩, h6⟩ := h
  refine ⟨h1, ?_, h3, ?_, h5, h6⟩
  · simp only [scopeOK, List.all_eq_true] at h2 ⊢
    intro e he
    have := h2 e he
    simp only [Bool.and_eq_true] at this ⊢
    exact ⟨this.1.1, this.1.2⟩
  · intro a ha
    have := (List.all_eq_true.mp h4) a ha
    simp only [Bool.and_eq_true] at this
    exact ⟨this.1.1, by simpa [Option.isNone_iff_eq_none] using this.1.2⟩

theorem scopeOK_render_fields {l : List (Str × Str)} (h : scopeOK l = true) :
    ∀ e ∈ l, (e.1 = [] ∨ goodNC e.1 = true) ∧ (e.1.isEmpty || !e.2.isEmpty) = true := by
  intro e he
  have := (List.all_eq_true.mp h) e he
  simp only [Bool.and_eq_true] at this
  refine ⟨?_, this.2⟩
  rcases Bool.or_eq_true _ _ |>.mp this.1 with h1 | h1
  · exact Or.inl (by simpa [List.isEmpty_iff] using h1)
  · exact Or.inr h1

theorem renderNsDecl_len (e : Str × Str) : 1 ≤ (renderNsDecl e).length := by
  simp only [renderNsDecl]
  split <;> simp

theorem renderAttr_len (e : Str × XAttr) : 1 ≤ (renderAttr e).length := by
  simp [renderAttr]

theorem elemRT_all (m : CanonicalizationMode) (kc : Bool) (incl : List Str) :
    ∀ n, ElemRT m kc incl n := by
  intro n
  induction n using XNode.strongInd with
  | htext s =>
    intro scope ctx tl rest fuel _ he
    exact absurd he (by simp [isElemNode])
  | hcomment s =>
    intro scope ctx tl rest fuel _ he
    exact absurd he (by simp [isElemNode])
  | hpi t d =>
    intro scope ctx tl rest fuel _ he
    exact absurd he (by simp [isElemNode])
  | helem name nsd attrs children ih =>
    intro scope ctx tl rest fuel hinv _ hsc hcc hser hf
    obtain ⟨hq, hnsdok, hnd, hattrsInv, hnq, hchInv⟩ := nodeInv_elem_fields hinv
    obtain ⟨akeys, childOuts, hak, hserch, hsh⟩ := serNode_elem_ok hser
    have htl := (List.cons.inj hsh).2
    obtain ⟨hmap, hpt⟩ := resolveAttrs_ok_eq hak
    have hscope' : scopeOK (nsd ++ scope) = true := scopeOK_append hnsdok hsc
    obtain ⟨nsL, hnsL⟩ : ∃ x, x = sortLe nsLe (nsToRender m incl (nsd ++ scope) ctx name attrs) :=
      ⟨_, rfl⟩
    obtain ⟨aL, haL⟩ : ∃ x, x = sortLe attrLe akeys := ⟨_, rfl⟩
    obtain ⟨R, hR⟩ : ∃ x, x = qnameStr name ++ '>' :: rest := ⟨_, rfl⟩
    obtain ⟨Z, hZ⟩ : ∃ x, x = childOuts.flatten ++ '<' :: '/' :: R := ⟨_, rfl⟩
    obtain ⟨T, hT⟩ : ∃ x,
        x = (nsL.map renderNsDecl).flatten ++ ((aL.map renderAttr).flatten ++ '>' :: Z) :=
      ⟨_, rfl⟩
    have hctxOK : scopeOK (nsL ++ ctx) = true := by
      rw [hnsL]
      exact scopeOK_append (scopeOK_sorted_nsToRender hscope') hcc
    obtain ⟨c0, r0, hqn, hnc0⟩ := goodQ_qnameStr_head hq
    have hq1 : 1 ≤ (qnameStr name).length := by rw [hqn]; simp
    cases fuel with
    | zero => exact absurd hf (by omega)
    | succ f =>
      have hfl : tl.length + rest.length < f + 1 := hf
      rw [htl] at hfl
      rw [← hnsL, ← haL] at hfl
      -- normalized children serialize to the same bytes
      rw [← hnsL] at hserch
      obtain ⟨outsN, hserN, hflatN⟩ := serList_normCh hserch
      have hlenN : outsN.flatten.length + R.length + 2 < f := by
        rw [hflatN, hR]
        simp only [List.append_eq, List.length_append, List.length_cons,
          List.length_nil] at hfl ⊢
        omega
      have hcfN : ∀ x ∈ normCh kc children, isComment x = true → kc = true := by
        cases kc with
        | true => intro x _ _; rfl
        | false =>
          intro x hx hcm
          rw [normCh_commentFree x hx] at hcm
          exact Bool.noConfusion hcm
      have helN : ∀ x ∈ normCh kc children, isElemNode x = true → ElemRT m kc incl x :=
        fun x hx he => ih x (normCh_elem_mem x hx he)
      obtain ⟨l2, outs2, hP, hS2, hF2⟩ := contentRT m kc incl (normCh kc children)
        (nsd ++ scope) (nsL ++ ctx) outsN R f
        (normCh_listInv hchInv) hcfN helN hscope' hctxOK hserN hlenN
      rw [hflatN, ← hZ] at hP
      -- the start-tag re-parse
      have hqR : readQName (qnameStr name ++ T) = some (name, T) :=
        readQName_inv hq (by
          intro c hc
          rw [hT] at hc
          exact trailer_head nsL aL Z c hc)
      have hpA := pAttrs_inv_render nsL aL (T.length + 1) [] Z
        (scopeOK_render_fields (by
          rw [hnsL]
          exact scopeOK_sorted_nsToRender hscope'))
        (by simp)
        (by rw [hnsL]; exact nodupKeysNs_sorted_nsToRender)
        (by
          intro e he
          have he2 : e.2 ∈ attrs := by
            rw [← hmap]
            exact List.mem_map.mpr ⟨e, (mem_sortLe _ _ _).mp (haL ▸ he), rfl⟩
          exact hattrsInv e.2 he2)
        (by
          rw [haL]
          refine nodupQNames_of_perm ?_ hnq
          rw [← hmap]
          exact ((sortLe_perm attrLe akeys).map _).symm)
        (by
          rw [hT]
          have hln := flatten_map_length_ge renderNsDecl renderNsDecl_len nsL
          have hla := flatten_map_length_ge renderAttr renderAttr_len aL
          simp only [List.length_append, List.length_cons]
          omega)
      rw [← hT] at hpA
      simp only [List.reverse_nil, List.nil_append] at hpA
      have hqR2 : readQName R = some (name, '>' :: rest) := by
        rw [hR]
        exact readQName_inv hq (fun c hc => by
          simp only [List.head?_cons, Option.some.injEq] at hc
          subst hc
          exact ⟨by decide, by decide⟩)
      have hds : ('>' :: rest).dropWhile isXmlSpace = '>' :: rest :=
        List.dropWhile_cons_of_neg (by decide)
      have htl' : tl ++ rest = qnameStr name ++ T := by
        rw [htl, hT, hZ, hR, ← hnsL, ← haL]
        simp [List.append_assoc]
      refine ⟨.elem name nsL (aL.map (fun e => e.2)) l2, ?_, ?_⟩
      · rw [htl']
        simp only [pElement, bind, Option.bind, hqR, hpA, Bool.false_eq_true, if_false,
          hP, hqR2, hds]
        simp
      · rw [hnsL, haL]
        rw [hnsL] at hS2
        have h2 := serNode_roundtrip_elem hq hscope' (serNode_elem_name_ok hser) hak
          (fun a ha => (hattrsInv a ha).1) hS2
        rw [hF2, hflatN] at h2
        rw [hsh]
        exact h2

/-! ## Idempotence (C8): character discipline of the serialized output -/

theorem escAttrChar_no_cr (c : Char) : '\r' ∉ escAttrChar c := by
  simp only [escAttrChar]
  split_ifs with h1 h2 h3 h4 h5 h6
  · decide
  · decide
  · decide
  · decide
  · decide
  · decide
  · intro hm
    rcases List.mem_singleton.mp hm with rfl
    exact h6 rfl

theorem escAttr_no_cr (v : Str) : '\r' ∉ escAttr v := by
  intro hm
  simp only [escAttr, List.mem_flatten] at hm
  obtain ⟨l, hl, hml⟩ := hm
  obtain ⟨c, -, rfl⟩ := List.mem_map.mp hl
  exact escAttrChar_no_cr c hml

theorem escTextChar_no_cr (c : Char) : '\r' ∉ escTextChar c := by
  simp only [escTextChar]
  split_ifs with h1 h2 h3 h4
  · decide
  · decide
  · decide
  · decide
  · intro hm
    rcases List.mem_singleton.mp hm with rfl
    exact h4 rfl

theorem escText_no_cr (v : Str) : '\r' ∉ escText v := by
  intro hm
  simp only [escText, List.mem_flatten] at hm
  obtain ⟨l, hl, hml⟩ := hm
  obtain ⟨c, -, rfl⟩ := List.mem_map.mp hl
  exact escTextChar_no_cr c hml

theorem escAttrChar_no_nul {c : Char} (hc : ¬c = nulChar) : nulChar ∉ escAttrChar c := by
  simp only [escAttrChar]
  split_ifs with h1 h2 h3 h4 h5 h6
  · decide
  · decide
  · decide
  · decide
  · decide
  · decide
  · intro hm
    rcases List.mem_singleton.mp hm with rfl
    exact hc rfl

theorem escAttr_no_nul {v : Str} (hv : nulFreeL v = true) : nulChar ∉ escAttr v := by
  intro hm
  simp only [escAttr, List.mem_flatten] at hm
  obtain ⟨l, hl, hml⟩ := hm
  obtain ⟨c, hcv, rfl⟩ := List.mem_map.mp hl
  exact escAttrChar_no_nul (fun he => not_mem_of_nulFreeL hv (he ▸ hcv)) hml

theorem escTextChar_no_nul {c : Char} (hc : ¬c = nulChar) : nulChar ∉ escTextChar c := by
  simp only [escTextChar]
  split_ifs with h1 h2 h3 h4
  · decide
  · decide
  · decide
  · decide
  · intro hm
    rcases List.mem_singleton.mp hm with rfl
    exact hc rfl

theorem escText_no_nul {v : Str} (hv : nulFreeL v = true) : nulChar ∉ escText v := by
  intro hm
  simp only [escText, List.mem_flatten] at hm
  obtain ⟨l, hl, hml⟩ := hm
  obtain ⟨c, hcv, rfl⟩ := List.mem_map.mp hl
  exact escTextChar_no_nul (fun he => not_mem_of_nulFreeL hv (he ▸ hcv)) hml


theorem goodNC_bad_not_mem {s : Str} (h : goodNC s = true) {bad : Char}
    (h1 : isNCStart bad = false) (h2 : isNCChar bad = false) : bad ∉ s := by
  cases s with
  | nil => simp
  | cons c r =>
    simp only [goodNC, Bool.and_eq_true, List.all_eq_true] at h
    intro hm
    rcases List.mem_cons.mp hm with rfl | hm'
    · rw [h.1] at h1
      exact Bool.noConfusion h1
    · have := h.2 bad hm'
      rw [this] at h2
      exact Bool.noConfusion h2

theorem goodQ_bad_not_mem {q : QName} (h : goodQ q = true) {bad : Char}
    (h1 : isNCStart bad = false) (h2 : isNCChar bad = false) (h3 : ¬bad = ':') :
    bad ∉ qnameStr q := by
  simp only [goodQ, Bool.and_eq_true] at h
  cases hp : q.pfx with
  | none =>
    simp only [qnameStr, hp]
    exact goodNC_bad_not_mem h.2 h1 h2
  | some p =>
    rw [hp] at h
    simp only [qnameStr, hp, List.mem_append, List.mem_cons, not_or]
    exact ⟨goodNC_bad_not_mem h.1 h1 h2, h3, goodNC_bad_not_mem h.2 h1 h2⟩

/-- In-scope namespace bindings carry NUL-free URIs. -/
def nsNulOK (l : List (Str × Str)) : Bool := l.all (fun e => nulFreeL e.2)

theorem nsNulOK_append {a b : List (Str × Str)} (ha : nsNulOK a = true)
    (hb : nsNulOK b = true) : nsNulOK (a ++ b) = true := by
  simp only [nsNulOK, List.all_append, Bool.and_eq_true]
  exact ⟨ha, hb⟩

theorem nsNulOK_initNsEnv : nsNulOK initNsEnv = true := by decide

theorem renderNsDecl_bad_not_mem {e : Str × Str} {bad : Char} (h : nsDeclOK e = true)
    (hb1 : isNCStart bad = false) (hb2 : isNCChar bad = false)
    (hbx : bad ∉ "xmlns:=\" ".data) (hesc : bad ∉ escAttr e.2) : bad ∉ renderNsDecl e := by
  intro hmem
  simp only [nsDeclOK, Bool.or_eq_true] at h
  simp only [renderNsDecl] at hmem
  split at hmem
  · rcases List.mem_append.mp hmem with hm | hm
    · rcases List.mem_append.mp hm with hm | hm
      · refine hbx ?_
        have himp : ∀ c ∈ (' ' :: "xmlns=\"".data), c ∈ "xmlns:=\" ".data := by decide
        exact himp bad hm
      · exact hesc hm
    · refine hbx ?_
      have himp : ∀ c ∈ ['"'], c ∈ "xmlns:=\" ".data := by decide
      exact himp bad hm
  · next hne =>
    have hg : goodNC e.1 = true := by
      rcases h with h | h
      · exact absurd h (by simpa using hne)
      · exact h
    rcases List.mem_append.mp hmem with hm | hm
    · rcases List.mem_append.mp hm with hm | hm
      · rcases List.mem_append.mp hm with hm | hm
        · refine hbx ?_
          have himp : ∀ c ∈ (' ' :: "xmlns:".data), c ∈ "xmlns:=\" ".data := by decide
          exact himp bad hm
        · exact goodNC_bad_not_mem hg hb1 hb2 hm
      · rcases List.mem_cons.mp hm with hm | hm
        · exact hbx (by rw [hm]; decide)
        · rcases List.mem_cons.mp hm with hm | hm
          · exact hbx (by rw [hm]; decide)
          · exact hesc hm
    · refine hbx ?_
      have himp : ∀ c ∈ ['"'], c ∈ "xmlns:=\" ".data := by decide
      exact himp bad hm

theorem renderAttr_bad_not_mem {e : Str × XAttr} {bad : Char} (h : goodQ e.2.name = true)
    (hb1 : isNCStart bad = false) (hb2 : isNCChar bad = false) (hb3 : ¬bad = ':')
    (hbx : bad ∉ "=\" ".data) (hesc : bad ∉ escAttr e.2.value) : bad ∉ renderAttr e := by
  intro hmem
  simp only [renderAttr] at hmem
  rcases List.mem_append.mp hmem with hm | hm
  · rcases List.mem_append.mp hm with hm | hm
    · rcases List.mem_cons.mp hm with hm | hm
      · exact hbx (by rw [hm]; decide)
      · exact goodQ_bad_not_mem h hb1 hb2 hb3 hm
    · rcases List.mem_cons.mp hm with hm | hm
      · exact hbx (by rw [hm]; decide)
      · rcases List.mem_cons.mp hm with hm | hm
        · exact hbx (by rw [hm]; decide)
        · exact hesc hm
  · exact hbx (by rcases List.mem_singleton.mp hm with rfl; decide)

theorem serNode_crnul_free (m : CanonicalizationMode) (kc : Bool) (i : List Str) :
    ∀ x scope ctx out, nodeInv x = true →
      (∀ e ∈ scope, nsDeclOK e = true ∧ nulFreeL e.2 = true) →
      serNode m kc i scope ctx x = .ok out →
      '\r' ∉ out ∧ nulChar ∉ out := by
  intro x
  induction x using XNode.strongInd with
  | htext s =>
    intro scope ctx out hinv _ h
    simp only [nodeInv, Bool.and_eq_true] at hinv
    simp only [serNode, Except.ok.injEq] at h
    subst h
    exact ⟨escText_no_cr s, escText_no_nul hinv.2⟩
  | hcomment s =>
    intro scope ctx out hinv _ h
    simp only [nodeInv, Bool.and_eq_true] at hinv
    obtain ⟨⟨-, hcr⟩, hnul⟩ := hinv
    have hcr' : '\r' ∉ s := by simpa using hcr
    simp only [serNode, Except.ok.injEq] at h
    subst h
    cases kc with
    | false => simp
    | true =>
      constructor
      · intro hm
        simp only [if_true, List.mem_append] at hm
        rcases hm with (hm | hm) | hm
        · exact absurd hm (by decide)
        · exact hcr' hm
        · exact absurd hm (by decide)
      · intro hm
        simp only [if_true, List.mem_append] at hm
        rcases hm with (hm | hm) | hm
        · exact absurd hm (by decide)
        · exact not_mem_of_nulFreeL hnul hm
        · exact absurd hm (by decide)
  | hpi t d =>
    intro scope ctx out hinv _ h
    obtain ⟨ht, -, -, -⟩ := nodeInv_pi_fields hinv
    have hdcr : '\r' ∉ d := by
      simp only [nodeInv, Bool.and_eq_true] at hinv
      simpa using hinv.1.1.2
    have hdnul : nulChar ∉ d := by
      simp only [nodeInv, Bool.and_eq_true] at hinv
      exact not_mem_of_nulFreeL hinv.1.2
    simp only [serNode, Except.ok.injEq] at h
    subst h
    have main : ∀ bad : Char, isNCStart bad = false → isNCChar bad = false →
        ¬bad = '<' → ¬bad = '?' → ¬bad = '>' → ¬bad = ' ' → bad ∉ d →
        bad ∉ '<' :: '?' :: t ++ (if d.isEmpty then [] else ' ' :: d) ++ ['?', '>'] := by
      intro bad hb1 hb2 hb3 hb4 hb5 hb6 hb7 hm
      simp only [List.mem_cons, List.mem_append, List.mem_singleton, or_assoc] at hm
      rcases hm with rfl | rfl | hm | hm | rfl | rfl | hm
      · exact hb3 rfl
      · exact hb4 rfl
      · exact goodNC_bad_not_mem ht hb1 hb2 hm
      · split at hm
        · simp at hm
        · rcases List.mem_cons.mp hm with rfl | hm
          · exact hb6 rfl
          · exact hb7 hm
      · exact hb4 rfl
      · exact hb5 rfl
      · exact absurd hm (by simp)
    exact ⟨main '\r' (by decide) (by decide) (by decide) (by decide) (by decide) (by decide)
        hdcr,
      main nulChar (by decide) (by decide) (by decide) (by decide) (by decide) (by decide)
        hdnul⟩
  | helem name nsd attrs children ih =>
    intro scope ctx out hinv hscope h
    obtain ⟨akeys, childOuts, hak, hcl, hout⟩ := serNode_elem_ok h
    have hq : goodQ name = true := (nodeInv_elem_fields hinv).1
    have hch : listInv children = true := (nodeInv_elem_fields hinv).2.2.2.2.2
    simp only [nodeInv, Bool.and_eq_true] at hinv
    obtain ⟨⟨⟨⟨⟨-, hns⟩, -⟩, hattrs⟩, -⟩, -⟩ := hinv
    have hscope' : ∀ e ∈ nsd ++ scope, nsDeclOK e = true ∧ nulFreeL e.2 = true := by
      intro e he
      rcases List.mem_append.mp he with he | he
      · have := List.all_eq_true.mp hns e he
        simp only [Bool.and_eq_true] at this
        exact ⟨this.1.1, this.2⟩
      · exact hscope e he
    have hchAll : ∀ o ∈ childOuts, '\r' ∉ o ∧ nulChar ∉ o := by
      intro o ho
      obtain ⟨c, hc, hser⟩ := serList_ok_mem_rev hcl ho
      exact ih c hc _ _ o (listInv_mem hch c hc) hscope' hser
    subst hout
    have main : ∀ bad : Char, isNCStart bad = false → isNCChar bad = false →
        ¬bad = ':' → bad ∉ "xmlns:=\" <>/".data →
        (∀ v, nulFreeL v = true → bad ∉ escAttr v) →
        (∀ o ∈ childOuts, bad ∉ o) →
        bad ∉ '<' :: qnameStr name
          ++ ((sortLe nsLe (nsToRender m i (nsd ++ scope) ctx name attrs)).map
              renderNsDecl).flatten
          ++ ((sortLe attrLe akeys).map renderAttr).flatten
          ++ '>' :: childOuts.flatten ++ '<' :: '/' :: qnameStr name ++ ['>'] := by
      intro bad hb1 hb2 hb3 hbx hE hC hm
      have hbx2 : bad ∉ "xmlns:=\" ".data :=
        fun hmm => hbx ((by decide : ∀ c ∈ "xmlns:=\" ".data, c ∈ "xmlns:=\" <>/".data)
          bad hmm)
      have hbx3 : bad ∉ "=\" ".data :=
        fun hmm => hbx ((by decide : ∀ c ∈ "=\" ".data, c ∈ "xmlns:=\" <>/".data) bad hmm)
      simp only [List.mem_cons, List.mem_append, List.mem_singleton, or_assoc] at hm
      rcases hm with rfl | hm | hm | hm | rfl | hm | rfl | rfl | hm | rfl | hm
      · exact hbx (by decide)
      · exact goodQ_bad_not_mem hq hb1 hb2 hb3 hm
      · obtain ⟨piece, hpiece, hcm⟩ := List.mem_flatten.mp hm
        obtain ⟨e, he, rfl⟩ := List.mem_map.mp hpiece
        have he' := hscope' e (mem_nsToRender ((mem_sortLe nsLe _ e).mp he))
        exact renderNsDecl_bad_not_mem he'.1 hb1 hb2 hbx2 (hE e.2 he'.2) hcm
      · obtain ⟨piece, hpiece, hcm⟩ := List.mem_flatten.mp hm
        obtain ⟨k, hk, rfl⟩ := List.mem_map.mp hpiece
        have hka : k.2 ∈ attrs :=
          resolveAttrs_ok_mem_rev hak ((mem_sortLe attrLe _ k).mp hk)
        have hkf := List.all_eq_true.mp hattrs k.2 hka
        simp only [Bool.and_eq_true] at hkf
        exact renderAttr_bad_not_mem hkf.1.1 hb1 hb2 hb3 hbx3
          (hE k.2.value hkf.2) hcm
      · exact hbx (by decide)
      · obtain ⟨o, ho, hcm⟩ := List.mem_flatten.mp hm
        exact hC o ho hcm
      · exact hbx (by decide)
      · exact hbx (by decide)
      · exact goodQ_bad_not_mem hq hb1 hb2 hb3 hm
      · exact hbx (by decide)
      · exact absurd hm (by simp)
    exact ⟨main '\r' (by decide) (by decide) (by decide) (by decide)
        (fun v _ => escAttr_no_cr v) (fun o ho => (hchAll o ho).1),
      main nulChar (by decide) (by decide) (by decide) (by decide)
        (fun v hv => escAttr_no_nul hv) (fun o ho => (hchAll o ho).2)⟩

theorem isNCChar_not_space {c : Char} (h : isNCChar c = true) : isXmlSpace c = false := by
  cases hsp : isXmlSpace c with
  | false => rfl
  | true =>
    exfalso
    simp only [isXmlSpace, Bool.or_eq_true, decide_eq_true_eq] at hsp
    rcases hsp with ((rfl | rfl) | rfl) | rfl
    · exact absurd h (by decide)
    · exact absurd h (by decide)
    · exact absurd h (by decide)
    · exact absurd h (by decide)

theorem skipXmlDecl_no_decl {cs : Str}
    (h : ∀ c r, cs = '<' :: '?' :: 'x' :: 'm' :: 'l' :: c :: r → isXmlSpace c = false) :
    skipXmlDecl cs = some cs := by
  simp only [skipXmlDecl]
  split
  · next a b heq =>
    rw [h b heq rfl]
    simp
  · rfl

theorem pi_noDeclHead {t d : Str} (hinv : nodeInv (.procInst t d) = true) :
    ∀ (tailB : Str) (c : Char) (r : Str),
      ('<' :: '?' :: t ++ (if d.isEmpty then [] else ' ' :: d) ++ ['?', '>']) ++ tailB
        = '<' :: '?' :: 'x' :: 'm' :: 'l' :: c :: r → isXmlSpace c = false := by
  intro tailB c r heq
  obtain ⟨ht, hxml, -, -⟩ := nodeInv_pi_fields hinv
  simp only [List.cons_append, List.append_assoc, List.nil_append] at heq
  have h1 := (List.cons.inj (List.cons.inj heq).2).2
  -- h1 : t ++ (D ++ '?' :: '>' :: tailB) = 'x' :: 'm' :: 'l' :: c :: r
  cases t with
  | nil => exact absurd ht (by decide)
  | cons x1 t1 =>
    simp only [goodNC, Bool.and_eq_true, List.all_eq_true] at ht
    rw [List.cons_append] at h1
    obtain ⟨hx1, h2⟩ := List.cons.inj h1
    subst hx1
    cases t1 with
    | nil =>
      exfalso
      simp only [List.nil_append] at h2
      split at h2
      · exact absurd (List.cons.inj h2).1 (by decide)
      · exact absurd (List.cons.inj h2).1 (by decide)
    | cons x2 t2 =>
      rw [List.cons_append] at h2
      obtain ⟨hx2, h3⟩ := List.cons.inj h2
      subst hx2
      cases t2 with
      | nil =>
        exfalso
        simp only [List.nil_append] at h3
        split at h3
        · exact absurd (List.cons.inj h3).1 (by decide)
        · exact absurd (List.cons.inj h3).1 (by decide)
      | cons x3 t3 =>
        rw [List.cons_append] at h3
        obtain ⟨hx3, h4⟩ := List.cons.inj h3
        subst hx3
        cases t3 with
        | nil => exact absurd (by decide) hxml
        | cons x4 t4 =>
          rw [List.cons_append] at h4
          obtain ⟨hx4, -⟩ := List.cons.inj h4
          subst hx4
          exact isNCChar_not_space (ht.2 x4 (by simp))

theorem elem_noDeclHead {m : CanonicalizationMode} {kc : Bool} {i : List Str}
    {scope ctx : List (Str × Str)} {name : QName} {nsd : List (Str × Str)}
    {attrs : List XAttr} {children : List XNode} {out : Str}
    (hq : goodQ name = true)
    (h : serNode m kc i scope ctx (.elem name nsd attrs children) = .ok out) :
    ∀ (tailB : Str) (c : Char) (r : Str),
      out ++ tailB = '<' :: '?' :: 'x' :: 'm' :: 'l' :: c :: r → isXmlSpace c = false := by
  intro tailB c r heq
  exfalso
  obtain ⟨akeys, childOuts, -, -, hout⟩ := serNode_elem_ok h
  obtain ⟨cq, rq, hqn, hstart⟩ := goodQ_qnameStr_head hq
  subst hout
  rw [hqn] at heq
  simp only [List.cons_append, List.append_assoc] at heq
  have h1 := (List.cons.inj heq).2
  have h2 := (List.cons.inj h1).1
  subst h2
  exact absurd hstart (by decide)

theorem miscInv_mem {l : List XNode} (h : miscInv l = true) {x : XNode} (hx : x ∈ l) :
    miscNode x = true ∧ nodeInv x = true := by
  have := (List.all_eq_true.mp h) x hx
  simpa using this

theorem miscInv_cons {x : XNode} {l : List XNode} (h : miscInv (x :: l) = true) :
    miscInv l = true := by
  simp only [miscInv, List.all_cons, Bool.and_eq_true] at h ⊢
  exact h.2

/-- The node list outside the root after canonicalization: comments are
elided unless kept. -/
def normMisc (kc : Bool) (l : List XNode) : List XNode :=
  if kc then l else l.filter (fun x => !isComment x)

theorem serList_normMisc {m : CanonicalizationMode} {kc : Bool} {i : List Str}
    {s c : List (Str × Str)} {l : List XNode} {outs : List Str}
    (h : serList m kc i s c l = .ok outs) :
    ∃ outs', serList m kc i s c (normMisc kc l) = .ok outs' ∧
      outs'.flatten = outs.flatten := by
  cases kc with
  | true => exact ⟨outs, by rwa [show normMisc true l = l from rfl], rfl⟩
  | false =>
    rw [show normMisc false l = l.filter (fun x => !isComment x) from rfl]
    exact serList_filter_comments h

theorem normMisc_miscInv {kc : Bool} {l : List XNode} (h : miscInv l = true) :
    miscInv (normMisc kc l) = true := by
  cases kc with
  | true => exact h
  | false =>
    rw [show normMisc false l = l.filter (fun x => !isComment x) from rfl]
    simp only [miscInv, List.all_eq_true]
    intro x hx
    exact (List.all_eq_true.mp h) x (List.mem_of_mem_filter hx)

theorem normMisc_comment_kc {kc : Bool} {l : List XNode} :
    ∀ x ∈ normMisc kc l, isComment x = true → kc = true := by
  cases kc with
  | true => exact fun _ _ _ => rfl
  | false =>
    intro x hx hcm
    rw [show normMisc false l = l.filter (fun x => !isComment x) from rfl] at hx
    have := (List.mem_filter.mp hx).2
    rw [hcm] at this
    exact absurd this (by decide)

theorem miscOuts_noDeclHead {m : CanonicalizationMode} {kc : Bool} {i : List Str}
    {s c : List (Str × Str)} : ∀ {l : List XNode} {outs : List Str} {tailB : Str},
    miscInv l = true →
    serList m kc i s c l = .ok outs →
    (∀ c0 r, tailB = '<' :: '?' :: 'x' :: 'm' :: 'l' :: c0 :: r → isXmlSpace c0 = false) →
    ∀ c0 r, outs.flatten ++ tailB = '<' :: '?' :: 'x' :: 'm' :: 'l' :: c0 :: r →
      isXmlSpace c0 = false
  | [], outs, tailB, _, h, htail => by
    have ho := serList_nil_ok h
    subst ho
    intro c0 r heq
    simp only [List.flatten_nil, List.nil_append] at heq
    exact htail c0 r heq
  | x :: l', outs, tailB, hmisc, h, htail => by
    obtain ⟨o, os, h1, h2, rfl⟩ := serList_cons_ok h
    have hmx := miscInv_mem hmisc (by simp : x ∈ x :: l')
    have ihres := miscOuts_noDeclHead (miscInv_cons hmisc) h2 htail
    intro c0 r heq
    cases x with
    | text t => exact absurd hmx.1 (by simp [miscNode])
    | elem nm nd na nch => exact absurd hmx.1 (by simp [miscNode])
    | comment cm =>
      cases kc with
      | false =>
        have ho : o = [] := by
          simp only [serNode, Bool.false_eq_true, if_false, Except.ok.injEq] at h1
          exact h1.symm
        subst ho
        simp only [List.flatten_cons, List.nil_append] at heq
        exact ihres c0 r heq
      | true =>
        exfalso
        have ho : o = "<!--".data ++ cm ++ "-->".data := by
          simp only [serNode, if_pos rfl, Except.ok.injEq] at h1
          exact h1.symm
        subst ho
        simp only [List.flatten_cons, List.cons_append, List.append_assoc] at heq
        exact absurd (List.cons.inj (List.cons.inj heq).2).1 (by decide)
    | procInst t d =>
      have ho : o = '<' :: '?' :: t ++ (if d.isEmpty then [] else ' ' :: d) ++ ['?', '>'] := by
        simp only [serNode, Except.ok.injEq] at h1
        exact h1.symm
      subst ho
      refine pi_noDeclHead hmx.2 (os.flatten ++ tailB) c0 r ?_
      simp only [List.cons_append, List.append_assoc, List.nil_append]
      simp only [List.flatten_cons, List.cons_append, List.append_assoc,
        List.nil_append] at heq
      exact heq

theorem pMiscStar_render {m : CanonicalizationMode} {kc : Bool} {i : List Str}
    {s c : List (Str × Str)} :
    ∀ (l : List XNode) (outs : List Str) (acc : List XNode) (Rt : Str) (fuel : Nat),
    miscInv l = true →
    (∀ x ∈ l, isComment x = true → kc = true) →
    serList m kc i s c l = .ok outs →
    (∀ ch r, Rt = ch :: r → isXmlSpace ch = false) →
    (∀ r, ¬Rt = '<' :: '!' :: '-' :: '-' :: r) →
    (∀ r, ¬Rt = '<' :: '?' :: r) →
    l.length + 1 ≤ fuel →
    pMiscStar fuel acc (outs.flatten ++ Rt) = some (acc.reverse ++ l, Rt)
  | [], outs, acc, Rt, fuel, _, _, h, hs, h1, h2, hf => by
    have ho := serList_nil_ok h
    subst ho
    cases fuel with
    | zero => omega
    | succ f =>
      simp only [List.flatten_nil, List.nil_append, pMiscStar]
      have hdw : Rt.dropWhile isXmlSpace = Rt := by
        cases Rt with
        | nil => rfl
        | cons ch r => exact List.dropWhile_cons_of_neg (by simp [hs ch r rfl])
      rw [hdw]
      split
      · next r2 heq => exact absurd rfl (h1 heq)
      · next r3 heq => exact absurd rfl (h2 heq)
      · simp
  | x :: l', outs, acc, Rt, fuel, hmisc, hcf, h, hs, h1, h2, hf => by
    obtain ⟨o, os, hx1, hx2, rfl⟩ := serList_cons_ok h
    have hmx := miscInv_mem hmisc (by simp : x ∈ x :: l')
    cases fuel with
    | zero => exact absurd hf (by omega)
    | succ f =>
      have hf' : l'.length + 1 ≤ f := by
        simp only [List.length_cons] at hf
        omega
      cases x with
      | text t => exact absurd hmx.1 (by simp [miscNode])
      | elem nm nd na nch => exact absurd hmx.1 (by simp [miscNode])
      | comment cm =>
        have hkc : kc = true := hcf (XNode.comment cm) (by simp) rfl
        subst hkc
        have ho : o = "<!--".data ++ cm ++ "-->".data := by
          simp only [serNode, if_pos rfl, Except.ok.injEq] at hx1
          exact hx1.symm
        subst ho
        have hsh : (("<!--".data ++ cm ++ "-->".data) :: os).flatten ++ Rt
            = '<' :: '!' :: '-' :: '-' :: (cm ++ '-' :: '-' :: '>' :: (os.flatten ++ Rt)) := by
          simp only [List.flatten_cons, List.append_assoc]
          rfl
        rw [hsh]
        simp only [pMiscStar]
        rw [List.dropWhile_cons_of_neg (by decide)]
        have hsub : hasSub3 '-' '-' '>' cm = false := nodeInv_comment_fields hmx.2
        have hC := pComment_inv cm
          ((cm ++ '-' :: '-' :: '>' :: (os.flatten ++ Rt)).length + 1) []
          (os.flatten ++ Rt) hsub (by simp)
        simp only [List.reverse_nil, List.nil_append] at hC
        simp only [bind, hC, Option.some_bind]
        rw [pMiscStar_render l' os (XNode.comment cm :: acc) Rt f (miscInv_cons hmisc)
          (fun y hy => hcf y (by simp [hy])) hx2 hs h1 h2 hf']
        simp
      | procInst t d =>
        obtain ⟨ht, hxml, hsub2, hhead⟩ := nodeInv_pi_fields hmx.2
        have ho : o = '<' :: '?' :: t ++ (if d.isEmpty then [] else ' ' :: d) ++ ['?', '>'] := by
          simp only [serNode, Except.ok.injEq] at hx1
          exact hx1.symm
        subst ho
        have hsh : (('<' :: '?' :: t ++ (if d.isEmpty then [] else ' ' :: d) ++ ['?', '>'])
              :: os).flatten ++ Rt
            = '<' :: '?' :: (t ++ ((if d.isEmpty then [] else ' ' :: d)
                ++ '?' :: '>' :: (os.flatten ++ Rt))) := by
          simp [List.append_assoc]
        rw [hsh]
        simp only [pMiscStar]
        rw [List.dropWhile_cons_of_neg (by decide)]
        have hPI := @pPI_inv ((t ++ ((if d.isEmpty then [] else ' ' :: d)
            ++ '?' :: '>' :: (os.flatten ++ Rt))).length + 1) t d (os.flatten ++ Rt)
          ht (by simpa using hxml)
          hsub2 hhead (by
            cases hd : d.isEmpty with
            | true =>
              have : d = [] := by simpa [List.isEmpty_iff] using hd
              simp [this]
            | false =>
              simp only [hd, Bool.false_eq_true, if_false]
              simp only [List.length_append, List.length_cons]
              omega)
        simp only [bind, hPI, Option.some_bind]
        rw [pMiscStar_render l' os (XNode.procInst t d :: acc) Rt f (miscInv_cons hmisc)
          (fun y hy => hcf y (by simp [hy])) hx2 hs h1 h2 hf']
        simp

theorem normalizeEol_id : ∀ {l : Str}, '\r' ∉ l → normalizeEol l = l := by
  intro l
  induction l using normalizeEol.induct with
  | case1 => intro _; rfl
  | case2 rest ih => intro h; exact absurd (by simp) h
  | case3 rest hne ih => intro h; exact absurd (by simp) h
  | case4 c rest hne1 hne2 ih =>
    intro h
    rw [show normalizeEol (c :: rest) = c :: normalizeEol rest from by
      have hc : c ≠ '\r' := fun hh => hne2 hh
      cases rest with
      | nil => simp [normalizeEol, hc]
      | cons c2 r2 => simp [normalizeEol, hc]]
    rw [ih (fun hm => h (by simp [hm]))]

theorem serList_length {m : CanonicalizationMode} {kc : Bool} {i : List Str}
    {s c : List (Str × Str)} : ∀ {l : List XNode} {outs : List Str},
    serList m kc i s c l = .ok outs → outs.length = l.length
  | [], outs, h => by rw [serList_nil_ok h]; rfl
  | x :: l', outs, h => by
    obtain ⟨o, os, -, h2, rfl⟩ := serList_cons_ok h
    simp only [List.length_cons, serList_length h2]

theorem flatten_len_ge : ∀ {outs : List Str}, (∀ o ∈ outs, 1 ≤ o.length) →
    outs.length ≤ outs.flatten.length
  | [], _ => by simp
  | o :: os, h => by
    have h1 := h o (by simp)
    have h2 := flatten_len_ge (fun x hx => h x (List.mem_cons_of_mem _ hx))
    simp only [List.length_cons, List.flatten_cons, List.length_append]
    omega

theorem misc_chunk_nonempty {m : CanonicalizationMode} {kc : Bool} {i : List Str}
    {s c : List (Str × Str)} {x : XNode} {o : Str}
    (hmisc : miscNode x = true) (hcf : isComment x = true → kc = true)
    (h : serNode m kc i s c x = .ok o) : 1 ≤ o.length := by
  have hxt : isTextNode x = false := by
    cases x <;> simp [isTextNode, miscNode] at hmisc ⊢
  obtain ⟨tl, htl⟩ := serNode_head_lt hxt hcf h
  rw [htl]
  simp

theorem docInv_fields {d : XmlDoc} (h : docInv d = true) :
    miscInv d.preMisc = true ∧ nodeInv d.root = true ∧ isElemNode d.root = true ∧
      miscInv d.postMisc = true := by
  simp only [docInv, Bool.and_eq_true] at h
  exact ⟨h.1.1.1, h.1.1.2, h.1.2, h.2⟩

theorem initNsEnv_charOK : ∀ e ∈ initNsEnv, nsDeclOK e = true ∧ nulFreeL e.2 = true := by
  decide

theorem canonicalizeDoc_crnul {options : CanonicalizationOptions} {d : XmlDoc} {l : Str}
    (hinv : docInv d = true) (h : canonicalizeDoc options d = .ok l) :
    '\r' ∉ l ∧ nulChar ∉ l := by
  obtain ⟨pres, r, posts, h1, h2, h3, rfl⟩ := canonicalizeDoc_ok_inv h
  obtain ⟨hpre, hroot, -, hpost⟩ := docInv_fields hinv
  have hpres : ∀ o ∈ pres, '\r' ∉ o ∧ nulChar ∉ o := by
    intro o ho
    obtain ⟨x, hx, hser⟩ := serList_ok_mem_rev h1 ho
    exact serNode_crnul_free _ _ _ x _ _ o (miscInv_mem hpre hx).2 initNsEnv_charOK hser
  have hposts : ∀ o ∈ posts, '\r' ∉ o ∧ nulChar ∉ o := by
    intro o ho
    obtain ⟨x, hx, hser⟩ := serList_ok_mem_rev h3 ho
    exact serNode_crnul_free _ _ _ x _ _ o (miscInv_mem hpost hx).2 initNsEnv_charOK hser
  have hr := serNode_crnul_free _ _ _ d.root _ _ r hroot initNsEnv_charOK h2
  constructor
  · intro hm
    rcases List.mem_append.mp hm with hm | hm
    · rcases List.mem_append.mp hm with hm | hm
      · obtain ⟨o, ho, hom⟩ := List.mem_flatten.mp hm
        exact (hpres o ho).1 hom
      · exact hr.1 hm
    · obtain ⟨o, ho, hom⟩ := List.mem_flatten.mp hm
      exact (hposts o ho).1 hom
  · intro hm
    rcases List.mem_append.mp hm with hm | hm
    · rcases List.mem_append.mp hm with hm | hm
      · obtain ⟨o, ho, hom⟩ := List.mem_flatten.mp hm
        exact (hpres o ho).2 hom
      · exact hr.2 hm
    · obtain ⟨o, ho, hom⟩ := List.mem_flatten.mp hm
      exact (hposts o ho).2 hom

theorem canonicalizeDoc_roundtrip {options : CanonicalizationOptions} {d : XmlDoc} {l : Str}
    (hinv : docInv d = true) (h : canonicalizeDoc options d = .ok l) :
    ∃ d2, parseDocument (String.mk l) = some d2 ∧ canonicalizeDoc options d2 = .ok l := by
  obtain ⟨hcr, hnul⟩ := canonicalizeDoc_crnul hinv h
  obtain ⟨pres, r, posts, h1, h2, h3, hl⟩ := canonicalizeDoc_ok_inv h
  subst hl
  obtain ⟨hpre, hroot, helem, hpost⟩ := docInv_fields hinv
  obtain ⟨nm, nd, na, nch, hdr⟩ : ∃ nm nd na nch, d.root = XNode.elem nm nd na nch := by
    cases hx : d.root with
    | elem a b c2 e => exact ⟨a, b, c2, e, rfl⟩
    | text t => rw [hx] at helem; exact absurd helem (by simp [isElemNode])
    | comment s2 => rw [hx] at helem; exact absurd helem (by simp [isElemNode])
    | procInst t d2 => rw [hx] at helem; exact absurd helem (by simp [isElemNode])
  rw [hdr] at hroot h2 helem
  have hqroot : goodQ nm = true := (nodeInv_elem_fields hroot).1
  obtain ⟨c0, r0, hqn, hnc0⟩ := goodQ_qnameStr_head hqroot
  obtain ⟨akR, coR, -, -, hshape⟩ := serNode_elem_ok h2
  obtain ⟨tlr, htlr⟩ : ∃ t, r = '<' :: t := ⟨_, hshape⟩
  -- the normalized misc lists and their serializations
  obtain ⟨presN, hserN, hflatN⟩ := serList_normMisc h1
  obtain ⟨postsN, hserP, hflatP⟩ := serList_normMisc h3
  -- head conditions at the root bytes
  have hRs : ∀ ch rr, r ++ posts.flatten = ch :: rr → isXmlSpace ch = false := by
    intro ch rr heq
    rw [htlr, List.cons_append] at heq
    rw [← (List.cons.inj heq).1]
    decide
  have hR1 : ∀ rr, ¬(r ++ posts.flatten = '<' :: '!' :: '-' :: '-' :: rr) := by
    intro rr heq
    rw [hshape, hqn] at heq
    simp only [List.cons_append, List.append_assoc] at heq
    have h2c := (List.cons.inj (List.cons.inj heq).2).1
    rw [h2c] at hnc0
    exact absurd hnc0 (by decide)
  have hR2 : ∀ rr, ¬(r ++ posts.flatten = '<' :: '?' :: rr) := by
    intro rr heq
    rw [hshape, hqn] at heq
    simp only [List.cons_append, List.append_assoc] at heq
    have h2c := (List.cons.inj (List.cons.inj heq).2).1
    rw [h2c] at hnc0
    exact absurd hnc0 (by decide)
  -- no XML declaration at the head of the output
  have hskip : skipXmlDecl (pres.flatten ++ r ++ posts.flatten) = some
      (pres.flatten ++ r ++ posts.flatten) := by
    refine skipXmlDecl_no_decl ?_
    intro ch rr heq
    refine miscOuts_noDeclHead hpre h1
      (elem_noDeclHead hqroot h2 posts.flatten) ch rr ?_
    rw [← List.append_assoc]
    exact heq
  -- fuel bounds for the misc runs
  have hlenPre : (normMisc options.keep_comments d.preMisc).length ≤ pres.flatten.length := by
    have e1 := serList_length hserN
    have e2 : presN.length ≤ presN.flatten.length := by
      refine flatten_len_ge ?_
      intro o ho
      obtain ⟨x, hx, hs⟩ := serList_ok_mem_rev hserN ho
      exact misc_chunk_nonempty (miscInv_mem (normMisc_miscInv hpre) hx).1
        (normMisc_comment_kc x hx) hs
    rw [hflatN] at e2
    omega
  have hlenPost : (normMisc options.keep_comments d.postMisc).length ≤ posts.flatten.length := by
    have e1 := serList_length hserP
    have e2 : postsN.length ≤ postsN.flatten.length := by
      refine flatten_len_ge ?_
      intro o ho
      obtain ⟨x, hx, hs⟩ := serList_ok_mem_rev hserP ho
      exact misc_chunk_nonempty (miscInv_mem (normMisc_miscInv hpost) hx).1
        (normMisc_comment_kc x hx) hs
    rw [hflatP] at e2
    omega
  -- the pre-misc re-parse
  have hms1 := pMiscStar_render (normMisc options.keep_comments d.preMisc) presN []
    (r ++ posts.flatten) ((pres.flatten ++ r ++ posts.flatten).length + 1)
    (normMisc_miscInv hpre) (fun x hx => normMisc_comment_kc x hx) hserN hRs hR1 hR2
    (by
      simp only [List.length_append]
      omega)
  rw [hflatN, ← List.append_assoc] at hms1
  simp only [List.reverse_nil, List.nil_append] at hms1
  -- the root element re-parse
  rw [htlr] at h2
  obtain ⟨root2, hPel, hser2⟩ := elemRT_all options.mode options.keep_comments
    (options.inclusive_ns_pfxs.map String.data) (XNode.elem nm nd na nch)
    initNsEnv initNsEnv tlr posts.flatten ((tlr ++ posts.flatten).length + 1)
    hroot rfl scopeOK_initNsEnv scopeOK_initNsEnv h2
    (by
      simp only [List.length_append]
      omega)
  -- the post-misc re-parse
  have hms2 := pMiscStar_render (normMisc options.keep_comments d.postMisc) postsN []
    [] (posts.flatten.length + 1)
    (normMisc_miscInv hpost) (fun x hx => normMisc_comment_kc x hx) hserP
    (fun ch rr heq => List.noConfusion heq)
    (fun rr heq => List.noConfusion heq)
    (fun rr heq => List.noConfusion heq)
    (by omega)
  rw [hflatP] at hms2
  simp only [List.reverse_nil, List.nil_append, List.append_nil] at hms2
  have hcs2 : r ++ posts.flatten = '<' :: (tlr ++ posts.flatten) := by
    rw [htlr]
    rfl
  refine ⟨⟨normMisc options.keep_comments d.preMisc, root2,
    normMisc options.keep_comments d.postMisc⟩, ?_, ?_⟩
  · simp only [parseDocument, bind]
    rw [normalizeEol_id hcr, hskip]
    simp only [Option.some_bind]
    rw [hms1]
    simp only [Option.some_bind]
    rw [hcs2]
    simp only [hPel, Option.some_bind, hms2, List.isEmpty_nil, if_true]
    rfl
  · simp only [canonicalizeDoc, bind, Except.bind, hserN, hser2, hserP]
    rw [hflatN, hflatP, ← htlr]

theorem canonicalize_xml_roundtrip {input out : String} {options : CanonicalizationOptions}
    (h : canonicalize_xml input options = some (.ok out)) :
    canonicalize_xml out options = some (.ok out) := by
  obtain ⟨doc, l, hdoc, hcd, hout⟩ := canonicalize_xml_ok_inv h
  have hnulin : nulChar ∉ input.data := by
    intro hmem
    have hcon : input.data.contains nulChar = true := by simpa using hmem
    simp [canonicalize_xml, cstringNew, hcon, hmem] at h
  have hinv : docInv doc = true := parseDocument_inv hnulin hdoc
  obtain ⟨d2, hparse2, hcd2⟩ := canonicalizeDoc_roundtrip hinv hcd
  obtain ⟨hcr, hnul⟩ := canonicalizeDoc_crnul hinv hcd
  have hcs1 : cstringNew input = some input :=
    cstringNew_eq_some (char_contains_eq_false hnulin)
  obtain ⟨v, htxv⟩ : ∃ v, to_xml_string_vec options.inclusive_ns_pfxs = some v := by
    cases hx : to_xml_string_vec options.inclusive_ns_pfxs with
    | none => simp [canonicalize_xml, hcs1, hx] at h
    | some v => exact ⟨v, rfl⟩
  have hout2 : out.data = l := by rw [hout]
  have hcs2 : cstringNew out = some out := by
    refine cstringNew_eq_some ?_
    show out.data.contains nulChar = false
    rw [hout2]
    exact char_contains_eq_false hnul
  have hrd2 : read_document out = some d2 := by
    show parseDocument out = some d2
    rw [hout]
    exact hparse2
  simp only [canonicalize_xml, bind, hcs2, Option.some_bind, htxv, hrd2,
    canonicalize_document_to_c_pointer, hcd2]
  rw [if_neg (by omega)]
  simp only [Option.getD_some, Option.pure_def, Option.some.injEq, Except.ok.injEq]
  exact hout.symm

/-- C8: canonicalization is idempotent.  For every input document string and
every configuration for which canonicalize_xml succeeds, feeding the produced
canonical output back into canonicalize_xml with the same configuration
succeeds and yields exactly the same bytes as the first canonicalization. -/
theorem canonicalization_idempotent (input out : String)
    (options : CanonicalizationOptions)
    (h : canonicalize_xml input options = some (.ok out)) :
    canonicalize_xml out options = some (.ok out) :=
  canonicalize_xml_roundtrip h

/-- C8 witness: the doc example canonicalizes to <hi></hi>, and canonicalizing
that output again returns it unchanged. -/
theorem canonicalization_idempotent_witness :
    canonicalize_xml "<hi/>" ⟨.Canonical1_0, false, []⟩ = some (.ok "<hi></hi>") ∧
    canonicalize_xml "<hi></hi>" ⟨.Canonical1_0, false, []⟩ = some (.ok "<hi></hi>") :=
  ⟨rfl, canonicalization_idempotent "<hi/>" "<hi></hi>" ⟨.Canonical1_0, false, []⟩ rfl⟩
